import Mathlib

/-!
Shallow embedding of the OT core of `ot-rs` (`src/core/text.rs`,
`src/core/operation.rs`, `src/core/error.rs`).

Strings are modelled as `List Char` (the code always walks Rust strings by
`chars()`, i.e. by Unicode scalar value).  Fallible functions return
`Except OperationError`; the functions whose Rust bodies contain reachable-in-
principle `unwrap` calls (`chars_take` / `chars_skip` and their callers
`apply`, `invert`, `compose`) additionally return `Option` — `none` models an
`unwrap` panic, so panic-freedom is the statement that the result is `some`.
-/

set_option maxHeartbeats 1000000

/-- The three atomic operations (`src/core/operation.rs`). -/
inductive Operation where
  | Retain : Nat → Operation
  | Insert : List Char → Operation
  | Delete : Nat → Operation
deriving DecidableEq, Repr

/-- The error enum (`src/core/error.rs`). -/
inductive OperationError where
  | OperationApplyStringNotCompatible
  | OperationMoreLeftString
  | SecondBaseLengthNotEqualFirstAfterLength
  | ComposeFirstTooShort
  | ComposeFirstTooLong
  | TransformBaseDifferent
  | TransformNotCompatible
deriving DecidableEq, Repr

/-- `TextOperation` (`src/core/text.rs`): atom list plus the two derived
length counters.  Equality of two `TextOperation`s in the Rust code compares
exactly these three fields, which coincides with `=` here. -/
structure TextOperation where
  ops : List Operation
  base_length : Nat
  after_length : Nat
deriving DecidableEq, Repr

deriving instance DecidableEq for Except

/-- `chars_take` from `text.rs`: take `n` chars from the iterator, returning
the taken chars and the rest; `none` models the `unwrap` panic on an
exhausted iterator. -/
def chars_take : List Char → Nat → Option (List Char × List Char)
  | cs, 0 => some ([], cs)
  | [], _ + 1 => none
  | c :: cs, n + 1 => (chars_take cs n).map (fun p => (c :: p.1, p.2))

/-- `chars_skip` from `text.rs` (`none` models the `unwrap` panic). -/
def chars_skip (cs : List Char) (n : Nat) : Option (List Char) :=
  (chars_take cs n).map Prod.snd

/-- `chars_tail` from `text.rs`: skip `n` chars then collect the rest. -/
def chars_tail (cs : List Char) (n : Nat) : Option (List Char) :=
  chars_skip cs n

namespace TextOperation

/-- `TextOperation::new`. -/
def new : TextOperation := ⟨[], 0, 0⟩

/-- `TextOperation::retain`. -/
def retain (t : TextOperation) (n : Nat) : TextOperation :=
  if n = 0 then t
  else
    ⟨(match t.ops.getLast? with
      | some (Operation.Retain k) => t.ops.dropLast ++ [Operation.Retain (k + n)]
      | _ => t.ops ++ [Operation.Retain n]),
     t.base_length + n, t.after_length + n⟩

/-- `TextOperation::insert`.  The Rust code matches on `split_last_mut`:
merge into a trailing `Insert`, merge through a trailing `Delete` into the
`Insert` before it, swap a lone trailing `Delete` to keep `Insert` first, or
push. -/
def insert (t : TextOperation) (s : List Char) : TextOperation :=
  if s = [] then t
  else
    ⟨(match t.ops.getLast? with
      | some (Operation.Insert ls) => t.ops.dropLast ++ [Operation.Insert (ls ++ s)]
      | some (Operation.Delete k) =>
          (match t.ops.dropLast.getLast? with
           | some (Operation.Insert ls) =>
               t.ops.dropLast.dropLast ++ [Operation.Insert (ls ++ s), Operation.Delete k]
           | _ => t.ops.dropLast ++ [Operation.Insert s, Operation.Delete k])
      | _ => t.ops ++ [Operation.Insert s]),
     t.base_length, t.after_length + s.length⟩

/-- `TextOperation::delete`. -/
def delete (t : TextOperation) (n : Nat) : TextOperation :=
  if n = 0 then t
  else
    ⟨(match t.ops.getLast? with
      | some (Operation.Delete k) => t.ops.dropLast ++ [Operation.Delete (k + n)]
      | _ => t.ops ++ [Operation.Delete n]),
     t.base_length + n, t.after_length⟩

/-- `TextOperation::is_noop`. -/
def is_noop (t : TextOperation) : Bool :=
  match t.ops with
  | [] => true
  | [Operation.Retain _] => true
  | _ => false

/-- `TextOperation::first_cursor`. -/
def first_cursor (t : TextOperation) : Nat :=
  match t.ops.head? with
  | some (Operation.Retain n) => n
  | _ => 0

/-- `TextOperation::get_simple_operation`. -/
def get_simple_operation (t : TextOperation) : Option Operation :=
  match t.ops with
  | [first] => some first
  | [Operation.Retain _, second] => some second
  | [first, Operation.Retain _] => some first
  | [Operation.Retain _, second, Operation.Retain _] => some second
  | _ => none

/-- `TextOperation::should_be_composed_with`. -/
def should_be_composed_with (t other : TextOperation) : Bool :=
  if t.is_noop || other.is_noop then true
  else
    match t.get_simple_operation, other.get_simple_operation,
        t.first_cursor, other.first_cursor with
    | none, _, _, _ => false
    | _, none, _, _ => false
    | some (Operation.Insert s), some (Operation.Insert _), afc, bfc =>
        s.length + afc == bfc
    | some (Operation.Delete _), some (Operation.Delete dn2), afc, bfc =>
        (bfc + dn2 == afc) || (afc == bfc)
    | _, _, _, _ => false

/-- `TextOperation::should_be_composed_with_inverted`. -/
def should_be_composed_with_inverted (t other : TextOperation) : Bool :=
  if t.is_noop || other.is_noop then true
  else
    match t.get_simple_operation, other.get_simple_operation,
        t.first_cursor, other.first_cursor with
    | none, _, _, _ => false
    | _, none, _, _ => false
    | some (Operation.Insert s), some (Operation.Insert _), afc, bfc =>
        (afc + s.length == bfc) || (afc == bfc)
    | some (Operation.Delete _), some (Operation.Delete dn2), afc, bfc =>
        (bfc : Int) - (dn2 : Int) == (afc : Int)
    | _, _, _, _ => false

/-- The loop of `TextOperation::apply`: walk the atoms with a cursor into the
base; the bound checks precede the character-iterator accesses exactly as in
the Rust code. -/
def applyGo (base_len : Nat) :
    List Operation → List Char → Nat → List Char →
    Option (Except OperationError (List Char))
  | [], _, _, buf => some (Except.ok buf)
  | Operation.Retain n :: rest, cs, cursor, buf =>
      if cursor + n > base_len then
        some (Except.error OperationError.OperationMoreLeftString)
      else
        match chars_take cs n with
        | none => none
        | some (taken, cs') => applyGo base_len rest cs' (cursor + n) (buf ++ taken)
  | Operation.Insert s :: rest, cs, cursor, buf =>
      applyGo base_len rest cs cursor (buf ++ s)
  | Operation.Delete n :: rest, cs, cursor, buf =>
      if cursor + n > base_len then
        some (Except.error OperationError.OperationMoreLeftString)
      else
        match chars_skip cs n with
        | none => none
        | some cs' => applyGo base_len rest cs' (cursor + n) buf

/-- `TextOperation::apply`. -/
def apply (t : TextOperation) (base : List Char) :
    Option (Except OperationError (List Char)) :=
  if base.length ≠ t.base_length then
    some (Except.error OperationError.OperationApplyStringNotCompatible)
  else applyGo base.length t.ops base 0 []

/-- The loop of `TextOperation::invert`. -/
def invertGo (base_len : Nat) :
    List Operation → List Char → Nat → TextOperation →
    Option (Except OperationError TextOperation)
  | [], _, _, acc => some (Except.ok acc)
  | Operation.Retain n :: rest, cs, cursor, acc =>
      if cursor + n > base_len then
        some (Except.error OperationError.OperationMoreLeftString)
      else
        match chars_skip cs n with
        | none => none
        | some cs' => invertGo base_len rest cs' (cursor + n) (acc.retain n)
  | Operation.Insert s :: rest, cs, cursor, acc =>
      invertGo base_len rest cs cursor (acc.delete s.length)
  | Operation.Delete n :: rest, cs, cursor, acc =>
      if cursor + n > base_len then
        some (Except.error OperationError.OperationMoreLeftString)
      else
        match chars_take cs n with
        | none => none
        | some (taken, cs') => invertGo base_len rest cs' (cursor + n) (acc.insert taken)

/-- `TextOperation::invert`. -/
def invert (t : TextOperation) (base : List Char) :
    Option (Except OperationError TextOperation) :=
  if base.length ≠ t.base_length then
    some (Except.error OperationError.OperationApplyStringNotCompatible)
  else invertGo base.length t.ops base 0 new

end TextOperation

/-- Size of an atom; used only as a termination measure for the two-pointer
loops of `compose` and `transform`. -/
def opSize : Operation → Nat
  | Operation.Retain n => n
  | Operation.Insert s => s.length
  | Operation.Delete n => n

/-- Total size of an atom list (termination measure helper). -/
def opsSize (l : List Operation) : Nat := (l.map opSize).sum

theorem chars_take_of_le {cs : List Char} {n : Nat} (h : n ≤ cs.length) :
    chars_take cs n = some (cs.take n, cs.drop n) := by
  induction cs generalizing n with
  | nil =>
    have hn : n = 0 := by simpa using h
    subst hn
    simp [chars_take]
  | cons c cs ih =>
    cases n with
    | zero => simp [chars_take]
    | succ n =>
      simp only [List.length_cons, Nat.succ_le_succ_iff] at h
      simp [chars_take, ih h]

theorem chars_take_of_gt {cs : List Char} {n : Nat} (h : cs.length < n) :
    chars_take cs n = none := by
  induction cs generalizing n with
  | nil =>
    cases n with
    | zero => simp at h
    | succ n => rfl
  | cons c cs ih =>
    cases n with
    | zero => simp at h
    | succ n =>
      simp only [List.length_cons, Nat.succ_lt_succ_iff] at h
      simp [chars_take, ih h]

theorem chars_take_eq_some {cs a b : List Char} {n : Nat}
    (h : chars_take cs n = some (a, b)) :
    n ≤ cs.length ∧ a = cs.take n ∧ b = cs.drop n := by
  by_cases hle : n ≤ cs.length
  · rw [chars_take_of_le hle] at h
    simp only [Option.some.injEq, Prod.mk.injEq] at h
    exact ⟨hle, h.1.symm, h.2.symm⟩
  · rw [chars_take_of_gt (by omega)] at h
    exact Option.noConfusion h

theorem chars_skip_of_le {cs : List Char} {n : Nat} (h : n ≤ cs.length) :
    chars_skip cs n = some (cs.drop n) := by
  simp [chars_skip, chars_take_of_le h]

theorem chars_tail_of_le {cs : List Char} {n : Nat} (h : n ≤ cs.length) :
    chars_tail cs n = some (cs.drop n) :=
  chars_skip_of_le h

theorem chars_tail_eq_some {cs r : List Char} {n : Nat}
    (h : chars_tail cs n = some r) :
    n ≤ cs.length ∧ r = cs.drop n := by
  by_cases hle : n ≤ cs.length
  · rw [chars_tail_of_le hle] at h
    exact ⟨hle, (Option.some.inj h).symm⟩
  · exfalso
    have hnone : chars_take cs n = none := chars_take_of_gt (by omega)
    simp [chars_tail, chars_skip, hnone] at h

namespace TextOperation

/-- The loop of `TextOperation::compose` (`none` models an `unwrap` panic in
the character helpers; the match arms are in the Rust order). -/
def composeGo : List Operation → List Operation → TextOperation →
    Option (Except OperationError TextOperation)
  | [], [], acc => some (Except.ok acc)
  | Operation.Delete n1 :: t1, ops2, acc => composeGo t1 ops2 (acc.delete n1)
  | ops1, Operation.Insert s :: t2, acc => composeGo ops1 t2 (acc.insert s)
  | [], _, _ => some (Except.error OperationError.ComposeFirstTooShort)
  | _, [], _ => some (Except.error OperationError.ComposeFirstTooLong)
  | Operation.Retain n1 :: t1, Operation.Retain n2 :: t2, acc =>
      if n1 > n2 then composeGo (Operation.Retain (n1 - n2) :: t1) t2 (acc.retain n2)
      else if n1 = n2 then composeGo t1 t2 (acc.retain n1)
      else composeGo t1 (Operation.Retain (n2 - n1) :: t2) (acc.retain n1)
  | Operation.Insert s1 :: t1, Operation.Delete n2 :: t2, acc =>
      if h1 : s1.length > n2 then
        match h2 : chars_tail s1 n2 with
        | none => none
        | some s1' => composeGo (Operation.Insert s1' :: t1) t2 acc
      else if s1.length = n2 then composeGo t1 t2 acc
      else composeGo t1 (Operation.Delete (n2 - s1.length) :: t2) acc
  | Operation.Insert s1 :: t1, Operation.Retain n2 :: t2, acc =>
      if h1 : s1.length > n2 then
        match h2 : chars_take s1 n2 with
        | none => none
        | some (pre, rest) =>
            match h3 : chars_take rest (s1.length - n2) with
            | none => none
            | some (suf, _) => composeGo (Operation.Insert suf :: t1) t2 (acc.insert pre)
      else if s1.length = n2 then composeGo t1 t2 (acc.insert s1)
      else composeGo t1 (Operation.Retain (n2 - s1.length) :: t2) (acc.insert s1)
  | Operation.Retain n1 :: t1, Operation.Delete n2 :: t2, acc =>
      if n1 > n2 then composeGo (Operation.Retain (n1 - n2) :: t1) t2 (acc.delete n2)
      else if n1 = n2 then composeGo t1 t2 (acc.delete n2)
      else composeGo t1 (Operation.Delete (n2 - n1) :: t2) (acc.delete n1)
  termination_by ops1 ops2 _ => 2 * (opsSize ops1 + opsSize ops2) + ops1.length + ops2.length
  decreasing_by
  all_goals simp only [opsSize, opSize, List.map_cons, List.sum_cons, List.length_cons]
  all_goals try omega
  all_goals
    first
    | · obtain ⟨hle2, hr2⟩ := chars_tail_eq_some h2
        subst hr2
        simp only [List.length_drop]
        omega
    | · obtain ⟨hle2, hp2, hr2⟩ := chars_take_eq_some h2
        obtain ⟨hle3, hp3, -⟩ := chars_take_eq_some h3
        subst hp3
        subst hr2
        simp only [List.length_take, List.length_drop]
        omega

/-- `TextOperation::compose`. -/
def compose (t other : TextOperation) :
    Option (Except OperationError TextOperation) :=
  if t.after_length ≠ other.base_length then
    some (Except.error OperationError.SecondBaseLengthNotEqualFirstAfterLength)
  else composeGo t.ops other.ops new

/-- The loop of `TextOperation::transform` (match arms in the Rust order:
`operation1`'s `Insert` is handled first, then `operation2`'s). -/
def transformGo : List Operation → List Operation → TextOperation → TextOperation →
    Except OperationError (TextOperation × TextOperation)
  | [], [], a1, a2 => Except.ok (a1, a2)
  | Operation.Insert s1 :: t1, ops2, a1, a2 =>
      transformGo t1 ops2 (a1.insert s1) (a2.retain s1.length)
  | ops1, Operation.Insert s2 :: t2, a1, a2 =>
      transformGo ops1 t2 (a1.retain s2.length) (a2.insert s2)
  | [], _, _, _ => Except.error OperationError.ComposeFirstTooShort
  | _, [], _, _ => Except.error OperationError.ComposeFirstTooLong
  | Operation.Retain n1 :: t1, Operation.Retain n2 :: t2, a1, a2 =>
      if n1 > n2 then
        transformGo (Operation.Retain (n1 - n2) :: t1) t2 (a1.retain n2) (a2.retain n2)
      else if n1 = n2 then transformGo t1 t2 (a1.retain n2) (a2.retain n2)
      else transformGo t1 (Operation.Retain (n2 - n1) :: t2) (a1.retain n1) (a2.retain n1)
  | Operation.Delete n1 :: t1, Operation.Delete n2 :: t2, a1, a2 =>
      if n1 > n2 then transformGo (Operation.Delete (n1 - n2) :: t1) t2 a1 a2
      else if n1 = n2 then transformGo t1 t2 a1 a2
      else transformGo t1 (Operation.Delete (n2 - n1) :: t2) a1 a2
  | Operation.Delete n1 :: t1, Operation.Retain n2 :: t2, a1, a2 =>
      if n1 > n2 then
        transformGo (Operation.Delete (n1 - n2) :: t1) t2 (a1.delete n2) a2
      else if n1 = n2 then transformGo t1 t2 (a1.delete n2) a2
      else transformGo t1 (Operation.Retain (n2 - n1) :: t2) (a1.delete n1) a2
  | Operation.Retain n1 :: t1, Operation.Delete n2 :: t2, a1, a2 =>
      if n1 > n2 then
        transformGo (Operation.Retain (n1 - n2) :: t1) t2 a1 (a2.delete n2)
      else if n1 = n2 then transformGo t1 t2 a1 (a2.delete n2)
      else transformGo t1 (Operation.Delete (n2 - n1) :: t2) a1 (a2.delete n1)
  termination_by ops1 ops2 _ _ =>
    2 * (opsSize ops1 + opsSize ops2) + ops1.length + ops2.length
  decreasing_by
  all_goals simp only [opsSize, opSize, List.map_cons, List.sum_cons, List.length_cons]
  all_goals omega

/-- `TextOperation::transform`. -/
def transform (t other : TextOperation) :
    Except OperationError (TextOperation × TextOperation) :=
  if t.base_length ≠ other.base_length then
    Except.error OperationError.TransformBaseDifferent
  else transformGo t.ops other.ops new new

end TextOperation

/-- One builder call, as data: the argument of a chained
`retain`/`insert`/`delete` call. -/
inductive BuildStep where
  | retain : Nat → BuildStep
  | insert : List Char → BuildStep
  | delete : Nat → BuildStep
deriving DecidableEq, Repr

/-- Run one builder call. -/
def runStep (t : TextOperation) : BuildStep → TextOperation
  | BuildStep.retain n => t.retain n
  | BuildStep.insert s => t.insert s
  | BuildStep.delete n => t.delete n

/-- The operation obtained from `TextOperation::new()` by a finite chain of
builder calls. -/
def build (steps : List BuildStep) : TextOperation :=
  steps.foldl runStep TextOperation.new

/-- `t` is builder-constructed. -/
def Built (t : TextOperation) : Prop := ∃ steps, build steps = t

/-- Sum over atoms of the base characters they consume (`n` for `Retain`
and `Delete`, `0` for `Insert`). -/
def opsBaseLen : List Operation → Nat
  | [] => 0
  | Operation.Retain n :: t => n + opsBaseLen t
  | Operation.Insert _ :: t => opsBaseLen t
  | Operation.Delete n :: t => n + opsBaseLen t

/-- Sum over atoms of the result characters they produce (`n` for `Retain`,
`|s|` for `Insert`, `0` for `Delete`). -/
def opsAfterLen : List Operation → Nat
  | [] => 0
  | Operation.Retain n :: t => n + opsAfterLen t
  | Operation.Insert s :: t => s.length + opsAfterLen t
  | Operation.Delete _ :: t => opsAfterLen t

/-- Reference semantics of an atom list on a base string: the mathematical
content of the `apply` loop, stripped of cursor checks and panics. -/
def applySimple : List Operation → List Char → List Char
  | [], _ => []
  | Operation.Retain n :: rest, cs => cs.take n ++ applySimple rest (cs.drop n)
  | Operation.Insert s :: rest, cs => s ++ applySimple rest cs
  | Operation.Delete n :: rest, cs => applySimple rest (cs.drop n)

/-- An atom is non-degenerate: no `Retain(0)`, `Insert("")` or `Delete(0)`. -/
def posAtom : Operation → Bool
  | Operation.Retain n => decide (0 < n)
  | Operation.Insert s => decide (s ≠ [])
  | Operation.Delete n => decide (0 < n)

/-- Adjacency allowed in normal form: not the same variant twice, and never
`Delete` immediately followed by `Insert`. -/
def okPair : Operation → Operation → Bool
  | Operation.Retain _, Operation.Retain _ => false
  | Operation.Insert _, Operation.Insert _ => false
  | Operation.Delete _, Operation.Delete _ => false
  | Operation.Delete _, Operation.Insert _ => false
  | _, _ => true

/-- Normal form of an atom list: all atoms non-degenerate, and every
adjacent pair allowed. -/
def NormOps (l : List Operation) : Prop :=
  (∀ a ∈ l, posAtom a = true) ∧ List.Chain' (fun a b => okPair a b = true) l

/-- Well-formedness of a `TextOperation` value: the atoms are in normal form
and the two cached length counters agree with the atom list. -/
def WF (t : TextOperation) : Prop :=
  NormOps t.ops ∧ t.base_length = opsBaseLen t.ops ∧ t.after_length = opsAfterLen t.ops

/-- All atoms of a list are non-degenerate. -/
def PosOps (l : List Operation) : Prop := ∀ a ∈ l, posAtom a = true

theorem opsBaseLen_append (xs ys : List Operation) :
    opsBaseLen (xs ++ ys) = opsBaseLen xs + opsBaseLen ys := by
  induction xs with
  | nil => simp [opsBaseLen]
  | cons a t ih => cases a <;> simp [opsBaseLen, ih] <;> omega

theorem opsAfterLen_append (xs ys : List Operation) :
    opsAfterLen (xs ++ ys) = opsAfterLen xs + opsAfterLen ys := by
  induction xs with
  | nil => simp [opsAfterLen]
  | cons a t ih => cases a <;> simp [opsAfterLen, ih] <;> omega

/-- `applySimple` reads at most the first `opsBaseLen xs` characters. -/
theorem applySimple_take (xs : List Operation) (cs : List Char) :
    applySimple xs (cs.take (opsBaseLen xs)) = applySimple xs cs := by
  induction xs generalizing cs with
  | nil => simp [applySimple]
  | cons a t ih =>
    cases a with
    | Retain n =>
      simp only [applySimple, opsBaseLen, List.take_take, List.drop_take]
      rw [min_eq_left (by omega)]
      have h2 : n + opsBaseLen t - n = opsBaseLen t := by omega
      rw [h2, ih (cs.drop n)]
    | Insert s =>
      simp only [applySimple, opsBaseLen]
      rw [ih cs]
    | Delete n =>
      simp only [applySimple, opsBaseLen, List.drop_take]
      have h2 : n + opsBaseLen t - n = opsBaseLen t := by omega
      rw [h2, ih (cs.drop n)]

theorem applySimple_append (xs ys : List Operation) (cs : List Char) :
    applySimple (xs ++ ys) cs =
      applySimple xs (cs.take (opsBaseLen xs)) ++
        applySimple ys (cs.drop (opsBaseLen xs)) := by
  induction xs generalizing cs with
  | nil => simp [applySimple, opsBaseLen]
  | cons a t ih =>
    cases a with
    | Retain n =>
      simp only [List.cons_append, applySimple, opsBaseLen, List.append_eq]
      rw [ih (cs.drop n), List.take_take, min_eq_left (by omega), List.drop_take]
      have h2 : n + opsBaseLen t - n = opsBaseLen t := by omega
      rw [h2, List.drop_drop]
      simp only [List.append_assoc]
    | Insert s =>
      simp only [List.cons_append, applySimple, opsBaseLen, List.append_eq]
      rw [ih cs]
      simp only [List.append_assoc]
    | Delete n =>
      simp only [List.cons_append, applySimple, opsBaseLen, List.append_eq]
      rw [ih (cs.drop n), List.drop_take]
      have h2 : n + opsBaseLen t - n = opsBaseLen t := by omega
      rw [h2, List.drop_drop]

/-- `applySimple` on an exactly split base string. -/
theorem applySimple_append_split {xs : List Operation} {csa : List Char}
    (ys : List Operation) (csb : List Char) (h : csa.length = opsBaseLen xs) :
    applySimple (xs ++ ys) (csa ++ csb) = applySimple xs csa ++ applySimple ys csb := by
  rw [applySimple_append]
  rw [List.take_append_of_le_length (by omega), List.drop_append_of_le_length (by omega)]
  rw [← h, List.take_length, List.drop_length, List.nil_append]

/-- Produce the same output on every base string, and consume/produce the
same lengths. -/
def SemEq (xs ys : List Operation) : Prop :=
  opsBaseLen xs = opsBaseLen ys ∧ opsAfterLen xs = opsAfterLen ys ∧
  ∀ cs : List Char, applySimple xs cs = applySimple ys cs

theorem SemEq.refl (xs : List Operation) : SemEq xs xs := ⟨rfl, rfl, fun _ => rfl⟩

theorem SemEq.trans {xs ys zs : List Operation} (h1 : SemEq xs ys) (h2 : SemEq ys zs) :
    SemEq xs zs :=
  ⟨h1.1.trans h2.1, h1.2.1.trans h2.2.1, fun cs => (h1.2.2 cs).trans (h2.2.2 cs)⟩

theorem SemEq.append_right {xs ys : List Operation} (zs : List Operation)
    (h : SemEq xs ys) : SemEq (xs ++ zs) (ys ++ zs) := by
  obtain ⟨hb, ha, hs⟩ := h
  refine ⟨by simp [opsBaseLen_append, hb], by simp [opsAfterLen_append, ha], fun cs => ?_⟩
  rw [applySimple_append, applySimple_append, hb, hs]

theorem SemEq.append_left {xs ys : List Operation} (zs : List Operation)
    (h : SemEq xs ys) : SemEq (zs ++ xs) (zs ++ ys) := by
  obtain ⟨hb, ha, hs⟩ := h
  refine ⟨by simp [opsBaseLen_append, hb], by simp [opsAfterLen_append, ha], fun cs => ?_⟩
  rw [applySimple_append, applySimple_append, hs]

theorem semEq_retain_merge (k n : Nat) :
    SemEq [Operation.Retain (k + n)] [Operation.Retain k, Operation.Retain n] := by
  refine ⟨by simp [opsBaseLen], by simp [opsAfterLen], fun cs => ?_⟩
  simp [applySimple, List.take_add]

theorem semEq_insert_merge (ls s : List Char) :
    SemEq [Operation.Insert (ls ++ s)] [Operation.Insert ls, Operation.Insert s] := by
  refine ⟨by simp [opsBaseLen], by simp [opsAfterLen], fun cs => ?_⟩
  simp [applySimple]

theorem semEq_delete_merge (k n : Nat) :
    SemEq [Operation.Delete (k + n)] [Operation.Delete k, Operation.Delete n] := by
  refine ⟨by simp [opsBaseLen], by simp [opsAfterLen], fun cs => ?_⟩
  simp [applySimple]

theorem semEq_insert_delete_merge (ls s : List Char) (k : Nat) :
    SemEq [Operation.Insert (ls ++ s), Operation.Delete k]
      [Operation.Insert ls, Operation.Delete k, Operation.Insert s] := by
  refine ⟨by simp [opsBaseLen], by simp [opsAfterLen], fun cs => ?_⟩
  simp [applySimple]

theorem semEq_insert_delete_swap (s : List Char) (k : Nat) :
    SemEq [Operation.Insert s, Operation.Delete k]
      [Operation.Delete k, Operation.Insert s] := by
  refine ⟨by simp [opsBaseLen], by simp [opsAfterLen], fun cs => ?_⟩
  simp [applySimple]

theorem semEq_retain_zero (xs : List Operation) :
    SemEq xs (xs ++ [Operation.Retain 0]) := by
  refine ⟨by simp [opsBaseLen_append, opsBaseLen],
    by simp [opsAfterLen_append, opsAfterLen], fun cs => ?_⟩
  rw [applySimple_append]
  simp [applySimple, applySimple_take]

theorem semEq_insert_nil (xs : List Operation) :
    SemEq xs (xs ++ [Operation.Insert []]) := by
  refine ⟨by simp [opsBaseLen_append, opsBaseLen],
    by simp [opsAfterLen_append, opsAfterLen], fun cs => ?_⟩
  rw [applySimple_append]
  simp [applySimple, applySimple_take]

theorem semEq_delete_zero (xs : List Operation) :
    SemEq xs (xs ++ [Operation.Delete 0]) := by
  refine ⟨by simp [opsBaseLen_append, opsBaseLen],
    by simp [opsAfterLen_append, opsAfterLen], fun cs => ?_⟩
  rw [applySimple_append]
  simp [applySimple, applySimple_take]

theorem getLast?_decomp {l : List Operation} {a : Operation} (h : l.getLast? = some a) :
    l = l.dropLast ++ [a] :=
  (List.dropLast_append_getLast? a (Option.mem_def.mpr h)).symm

namespace TextOperation

theorem retain_base_length (t : TextOperation) (n : Nat) :
    (t.retain n).base_length = t.base_length + n := by
  by_cases hn : n = 0 <;> simp [retain, hn]

theorem retain_after_length (t : TextOperation) (n : Nat) :
    (t.retain n).after_length = t.after_length + n := by
  by_cases hn : n = 0 <;> simp [retain, hn]

theorem insert_base_length (t : TextOperation) (s : List Char) :
    (t.insert s).base_length = t.base_length := by
  by_cases hs : s = [] <;> simp [insert, hs]

theorem insert_after_length (t : TextOperation) (s : List Char) :
    (t.insert s).after_length = t.after_length + s.length := by
  by_cases hs : s = [] <;> simp [insert, hs]

theorem delete_base_length (t : TextOperation) (n : Nat) :
    (t.delete n).base_length = t.base_length + n := by
  by_cases hn : n = 0 <;> simp [delete, hn]

theorem delete_after_length (t : TextOperation) (n : Nat) :
    (t.delete n).after_length = t.after_length := by
  by_cases hn : n = 0 <;> simp [delete, hn]

theorem retain_semEq (t : TextOperation) (n : Nat) :
    SemEq (t.retain n).ops (t.ops ++ [Operation.Retain n]) := by
  by_cases hn : n = 0
  · subst hn
    simpa [retain] using semEq_retain_zero t.ops
  · rcases hl : t.ops.getLast? with - | a
    · simp [retain, hn, hl]
      exact SemEq.refl _
    · have hd := getLast?_decomp hl
      cases a with
      | Retain k =>
        simp only [retain, hn, if_false, hl]
        refine SemEq.trans (SemEq.append_left t.ops.dropLast (semEq_retain_merge k n)) ?_
        rw [show t.ops.dropLast ++ [Operation.Retain k, Operation.Retain n]
            = (t.ops.dropLast ++ [Operation.Retain k]) ++ [Operation.Retain n] by simp]
        rw [← hd]
        exact SemEq.refl _
      | Insert s => simp [retain, hn, hl]; exact SemEq.refl _
      | Delete k => simp [retain, hn, hl]; exact SemEq.refl _

theorem delete_semEq (t : TextOperation) (n : Nat) :
    SemEq (t.delete n).ops (t.ops ++ [Operation.Delete n]) := by
  by_cases hn : n = 0
  · subst hn
    simpa [delete] using semEq_delete_zero t.ops
  · rcases hl : t.ops.getLast? with - | a
    · simp [delete, hn, hl]
      exact SemEq.refl _
    · have hd := getLast?_decomp hl
      cases a with
      | Delete k =>
        simp only [delete, hn, if_false, hl]
        refine SemEq.trans (SemEq.append_left t.ops.dropLast (semEq_delete_merge k n)) ?_
        rw [show t.ops.dropLast ++ [Operation.Delete k, Operation.Delete n]
            = (t.ops.dropLast ++ [Operation.Delete k]) ++ [Operation.Delete n] by simp]
        rw [← hd]
        exact SemEq.refl _
      | Insert s => simp [delete, hn, hl]; exact SemEq.refl _
      | Retain k => simp [delete, hn, hl]; exact SemEq.refl _

theorem insert_semEq (t : TextOperation) (s : List Char) :
    SemEq (t.insert s).ops (t.ops ++ [Operation.Insert s]) := by
  by_cases hs : s = []
  · subst hs
    simpa [insert] using semEq_insert_nil t.ops
  · rcases hl : t.ops.getLast? with - | a
    · simp [insert, hs, hl]
      exact SemEq.refl _
    · have hd := getLast?_decomp hl
      cases a with
      | Retain k => simp [insert, hs, hl]; exact SemEq.refl _
      | Insert ls =>
        simp only [insert, hs, if_false, hl]
        refine SemEq.trans (SemEq.append_left t.ops.dropLast (semEq_insert_merge ls s)) ?_
        rw [show t.ops.dropLast ++ [Operation.Insert ls, Operation.Insert s]
            = (t.ops.dropLast ++ [Operation.Insert ls]) ++ [Operation.Insert s] by simp]
        rw [← hd]
        exact SemEq.refl _
      | Delete k =>
        rcases hl2 : t.ops.dropLast.getLast? with - | b
        · simp only [insert, hs, if_false, hl, hl2]
          refine SemEq.trans
            (SemEq.append_left t.ops.dropLast (semEq_insert_delete_swap s k)) ?_
          rw [show t.ops.dropLast ++ [Operation.Delete k, Operation.Insert s]
              = (t.ops.dropLast ++ [Operation.Delete k]) ++ [Operation.Insert s] by simp]
          rw [← hd]
          exact SemEq.refl _
        · have hd2 := getLast?_decomp hl2
          cases b with
          | Retain r =>
            simp only [insert, hs, if_false, hl, hl2]
            refine SemEq.trans
              (SemEq.append_left t.ops.dropLast (semEq_insert_delete_swap s k)) ?_
            rw [show t.ops.dropLast ++ [Operation.Delete k, Operation.Insert s]
                = (t.ops.dropLast ++ [Operation.Delete k]) ++ [Operation.Insert s] by simp]
            rw [← hd]
            exact SemEq.refl _
          | Delete d =>
            simp only [insert, hs, if_false, hl, hl2]
            refine SemEq.trans
              (SemEq.append_left t.ops.dropLast (semEq_insert_delete_swap s k)) ?_
            rw [show t.ops.dropLast ++ [Operation.Delete k, Operation.Insert s]
                = (t.ops.dropLast ++ [Operation.Delete k]) ++ [Operation.Insert s] by simp]
            rw [← hd]
            exact SemEq.refl _
          | Insert ls =>
            simp only [insert, hs, if_false, hl, hl2]
            refine SemEq.trans
              (SemEq.append_left t.ops.dropLast.dropLast
                (semEq_insert_delete_merge ls s k)) ?_
            rw [show t.ops.dropLast.dropLast
                  ++ [Operation.Insert ls, Operation.Delete k, Operation.Insert s]
                = ((t.ops.dropLast.dropLast ++ [Operation.Insert ls])
                    ++ [Operation.Delete k]) ++ [Operation.Insert s] by simp]
            rw [← hd2, ← hd]
            exact SemEq.refl _

end TextOperation

theorem normOps_append {l₁ l₂ : List Operation} :
    NormOps (l₁ ++ l₂) ↔
      NormOps l₁ ∧ NormOps l₂ ∧
        ∀ x ∈ l₁.getLast?, ∀ y ∈ l₂.head?, okPair x y = true := by
  unfold NormOps
  rw [List.chain'_append]
  simp only [List.mem_append]
  constructor
  · rintro ⟨hpos, hc1, hc2, hlink⟩
    exact ⟨⟨fun a ha => hpos a (Or.inl ha), hc1⟩,
      ⟨fun a ha => hpos a (Or.inr ha), hc2⟩, hlink⟩
  · rintro ⟨⟨hp1, hc1⟩, ⟨hp2, hc2⟩, hlink⟩
    exact ⟨fun a ha => ha.elim (hp1 a) (hp2 a), hc1, hc2, hlink⟩

theorem normOps_nil : NormOps [] := ⟨by simp, List.chain'_nil⟩

theorem normOps_singleton {a : Operation} (h : posAtom a = true) : NormOps [a] :=
  ⟨by simpa, List.chain'_singleton a⟩

theorem okPair_retain_any (x : Operation) (a b : Nat) :
    okPair x (Operation.Retain a) = okPair x (Operation.Retain b) := by
  cases x <;> rfl

theorem okPair_insert_any (x : Operation) (s s' : List Char) :
    okPair x (Operation.Insert s) = okPair x (Operation.Insert s') := by
  cases x <;> rfl

theorem okPair_delete_any (x : Operation) (a b : Nat) :
    okPair x (Operation.Delete a) = okPair x (Operation.Delete b) := by
  cases x <;> rfl

theorem normOps_pair {a b : Operation} (ha : posAtom a = true) (hb : posAtom b = true)
    (hab : okPair a b = true) : NormOps [a, b] := by
  refine ⟨?_, List.chain'_pair.mpr hab⟩
  intro x hx
  simp only [List.mem_cons, List.not_mem_nil, or_false] at hx
  rcases hx with rfl | rfl <;> assumption

namespace TextOperation

theorem new_WF : WF new := ⟨normOps_nil, rfl, rfl⟩

theorem retain_WF {t : TextOperation} (h : WF t) (n : Nat) : WF (t.retain n) := by
  obtain ⟨hnorm, hbase, hafter⟩ := h
  refine ⟨?_, ?_, ?_⟩
  · by_cases hn : n = 0
    · simpa [retain, hn] using hnorm
    · rcases hl : t.ops.getLast? with - | a
      · have hnil : t.ops = [] := List.getLast?_eq_none_iff.mp hl
        simp only [retain, hn, if_false, hl, hnil]
        exact normOps_singleton (by simp [posAtom]; omega)
      · have hd := getLast?_decomp hl
        cases a with
        | Retain k =>
          simp only [retain, hn, if_false, hl]
          rw [hd] at hnorm
          rw [normOps_append] at hnorm ⊢
          obtain ⟨h1, h2, h3⟩ := hnorm
          have hk : 0 < k := by
            have := h2.1 (Operation.Retain k) (by simp)
            simpa [posAtom] using this
          refine ⟨h1, normOps_singleton (by simp [posAtom]; omega), ?_⟩
          intro x hx y hy
          simp only [List.head?_cons, Option.mem_def, Option.some.injEq] at hy
          subst hy
          rw [okPair_retain_any x (k + n) k]
          exact h3 x hx (Operation.Retain k) (by simp)
        | Insert s =>
          simp only [retain, hn, if_false, hl]
          rw [normOps_append]
          refine ⟨hnorm, normOps_singleton (by simp [posAtom]; omega), ?_⟩
          intro x hx y hy
          simp only [Option.mem_def] at hx hy
          rw [hl] at hx
          simp only [List.head?_cons, Option.some.injEq] at hy
          cases Option.some.inj hx
          subst hy
          rfl
        | Delete k =>
          simp only [retain, hn, if_false, hl]
          rw [normOps_append]
          refine ⟨hnorm, normOps_singleton (by simp [posAtom]; omega), ?_⟩
          intro x hx y hy
          simp only [Option.mem_def] at hx hy
          rw [hl] at hx
          simp only [List.head?_cons, Option.some.injEq] at hy
          cases Option.some.inj hx
          subst hy
          rfl
  · rw [retain_base_length, (retain_semEq t n).1, opsBaseLen_append, hbase]
    simp [opsBaseLen]
  · rw [retain_after_length, (retain_semEq t n).2.1, opsAfterLen_append, hafter]
    simp [opsAfterLen]

theorem delete_WF {t : TextOperation} (h : WF t) (n : Nat) : WF (t.delete n) := by
  obtain ⟨hnorm, hbase, hafter⟩ := h
  refine ⟨?_, ?_, ?_⟩
  · by_cases hn : n = 0
    · simpa [delete, hn] using hnorm
    · rcases hl : t.ops.getLast? with - | a
      · have hnil : t.ops = [] := List.getLast?_eq_none_iff.mp hl
        simp only [delete, hn, if_false, hl, hnil]
        exact normOps_singleton (by simp [posAtom]; omega)
      · have hd := getLast?_decomp hl
        cases a with
        | Delete k =>
          simp only [delete, hn, if_false, hl]
          rw [hd] at hnorm
          rw [normOps_append] at hnorm ⊢
          obtain ⟨h1, h2, h3⟩ := hnorm
          have hk : 0 < k := by
            have := h2.1 (Operation.Delete k) (by simp)
            simpa [posAtom] using this
          refine ⟨h1, normOps_singleton (by simp [posAtom]; omega), ?_⟩
          intro x hx y hy
          simp only [List.head?_cons, Option.mem_def, Option.some.injEq] at hy
          subst hy
          rw [okPair_delete_any x (k + n) k]
          exact h3 x hx (Operation.Delete k) (by simp)
        | Insert s =>
          simp only [delete, hn, if_false, hl]
          rw [normOps_append]
          refine ⟨hnorm, normOps_singleton (by simp [posAtom]; omega), ?_⟩
          intro x hx y hy
          simp only [Option.mem_def] at hx hy
          rw [hl] at hx
          simp only [List.head?_cons, Option.some.injEq] at hy
          cases Option.some.inj hx
          subst hy
          rfl
        | Retain k =>
          simp only [delete, hn, if_false, hl]
          rw [normOps_append]
          refine ⟨hnorm, normOps_singleton (by simp [posAtom]; omega), ?_⟩
          intro x hx y hy
          simp only [Option.mem_def] at hx hy
          rw [hl] at hx
          simp only [List.head?_cons, Option.some.injEq] at hy
          cases Option.some.inj hx
          subst hy
          rfl
  · rw [delete_base_length, (delete_semEq t n).1, opsBaseLen_append, hbase]
    simp [opsBaseLen]
  · rw [delete_after_length, (delete_semEq t n).2.1, opsAfterLen_append, hafter]
    simp [opsAfterLen]

theorem insert_WF {t : TextOperation} (h : WF t) (s : List Char) : WF (t.insert s) := by
  obtain ⟨hnorm, hbase, hafter⟩ := h
  refine ⟨?_, ?_, ?_⟩
  · by_cases hs : s = []
    · simpa [insert, hs] using hnorm
    · rcases hl : t.ops.getLast? with - | a
      · have hnil : t.ops = [] := List.getLast?_eq_none_iff.mp hl
        simp only [insert, hs, if_false, hl, hnil]
        exact normOps_singleton (by simp [posAtom, hs])
      · have hd := getLast?_decomp hl
        cases a with
        | Retain k =>
          simp only [insert, hs, if_false, hl]
          rw [normOps_append]
          refine ⟨hnorm, normOps_singleton (by simp [posAtom, hs]), ?_⟩
          intro x hx y hy
          simp only [Option.mem_def] at hx hy
          rw [hl] at hx
          simp only [List.head?_cons, Option.some.injEq] at hy
          cases Option.some.inj hx
          subst hy
          rfl
        | Insert ls =>
          simp only [insert, hs, if_false, hl]
          rw [hd] at hnorm
          rw [normOps_append] at hnorm ⊢
          obtain ⟨h1, h2, h3⟩ := hnorm
          have hls : ls ≠ [] := by
            have := h2.1 (Operation.Insert ls) (by simp)
            simpa [posAtom] using this
          refine ⟨h1, normOps_singleton (by simp [posAtom, hls]), ?_⟩
          intro x hx y hy
          simp only [List.head?_cons, Option.mem_def, Option.some.injEq] at hy
          subst hy
          rw [okPair_insert_any x (ls ++ s) ls]
          exact h3 x hx (Operation.Insert ls) (by simp)
        | Delete k =>
          have hk : 0 < k := by
            have := hnorm.1 (Operation.Delete k) (by rw [hd]; simp)
            simpa [posAtom] using this
          rcases hl2 : t.ops.dropLast.getLast? with - | b
          · have hnil2 : t.ops.dropLast = [] := List.getLast?_eq_none_iff.mp hl2
            simp only [insert, hs, if_false, hl, hl2, hnil2]
            exact normOps_pair (by simp [posAtom, hs]) (by simp [posAtom]; omega) rfl
          · have hd2 := getLast?_decomp hl2
            cases b with
            | Retain r =>
              simp only [insert, hs, if_false, hl, hl2]
              rw [hd] at hnorm
              rw [normOps_append] at hnorm
              obtain ⟨h1, h2, h3⟩ := hnorm
              rw [normOps_append]
              refine ⟨h1, normOps_pair (by simp [posAtom, hs])
                (by simp [posAtom]; omega) rfl, ?_⟩
              intro x hx y hy
              simp only [List.head?_cons, Option.mem_def, Option.some.injEq] at hy
              subst hy
              simp only [Option.mem_def] at hx
              rw [hl2] at hx
              cases Option.some.inj hx
              rfl
            | Delete d =>
              exfalso
              rw [hd, hd2] at hnorm
              rw [normOps_append] at hnorm
              obtain ⟨-, -, h3⟩ := hnorm
              have := h3 (Operation.Delete d) (by simp) (Operation.Delete k) (by simp)
              simp [okPair] at this
            | Insert ls =>
              simp only [insert, hs, if_false, hl, hl2]
              rw [hd, hd2] at hnorm
              rw [show (t.ops.dropLast.dropLast ++ [Operation.Insert ls])
                    ++ [Operation.Delete k]
                  = t.ops.dropLast.dropLast
                    ++ [Operation.Insert ls, Operation.Delete k] by simp] at hnorm
              rw [normOps_append] at hnorm
              obtain ⟨h1, h2, h3⟩ := hnorm
              have hls : ls ≠ [] := by
                have := h2.1 (Operation.Insert ls) (by simp)
                simpa [posAtom] using this
              rw [normOps_append]
              refine ⟨h1, normOps_pair (by simp [posAtom, hls])
                (by simp [posAtom]; omega) rfl, ?_⟩
              intro x hx y hy
              simp only [List.head?_cons, Option.mem_def, Option.some.injEq] at hy
              subst hy
              rw [okPair_insert_any x (ls ++ s) ls]
              exact h3 x hx (Operation.Insert ls) (by simp)
  · rw [insert_base_length, (insert_semEq t s).1, opsBaseLen_append, hbase]
    simp [opsBaseLen]
  · rw [insert_after_length, (insert_semEq t s).2.1, opsAfterLen_append, hafter]
    simp [opsAfterLen]

theorem build_WF (steps : List BuildStep) : WF (build steps) := by
  have main : ∀ (steps : List BuildStep) (t : TextOperation), WF t →
      WF (steps.foldl runStep t) := by
    intro steps
    induction steps with
    | nil => intro t ht; exact ht
    | cons st rest ih =>
      intro t ht
      cases st with
      | retain n => exact ih _ (retain_WF ht n)
      | insert s => exact ih _ (insert_WF ht s)
      | delete n => exact ih _ (delete_WF ht n)
  exact main _ _ new_WF

theorem Built.wf {t : TextOperation} (h : Built t) : WF t := by
  obtain ⟨steps, rfl⟩ := h
  exact build_WF steps

end TextOperation

theorem applySimple_length {ops : List Operation} {cs : List Char}
    (h : opsBaseLen ops ≤ cs.length) :
    (applySimple ops cs).length = opsAfterLen ops := by
  induction ops generalizing cs with
  | nil => simp [applySimple, opsAfterLen]
  | cons a rest ih =>
    cases a with
    | Retain n =>
      simp only [opsBaseLen] at h
      simp only [applySimple, opsAfterLen, List.length_append, List.length_take]
      rw [ih (by simp [List.length_drop]; omega), min_eq_left (by omega)]
    | Insert s =>
      simp only [opsBaseLen] at h
      simp only [applySimple, opsAfterLen, List.length_append]
      rw [ih h]
    | Delete n =>
      simp only [opsBaseLen] at h
      simp only [applySimple, opsAfterLen]
      exact ih (by simp [List.length_drop]; omega)

namespace TextOperation

theorem applyGo_sem : ∀ (ops : List Operation) (cs : List Char) (cursor : Nat)
    (buf : List Char), opsBaseLen ops ≤ cs.length →
    applyGo (cursor + cs.length) ops cs cursor buf
      = some (Except.ok (buf ++ applySimple ops cs)) := by
  intro ops
  induction ops with
  | nil =>
    intro cs cursor buf h
    simp [applyGo, applySimple]
  | cons a rest ih =>
    intro cs cursor buf h
    cases a with
    | Retain n =>
      simp only [opsBaseLen] at h
      simp only [applyGo]
      rw [if_neg (by omega), chars_take_of_le (by omega)]
      have hrec := ih (cs.drop n) (cursor + n) (buf ++ cs.take n)
        (by simp only [List.length_drop]; omega)
      rw [show cursor + n + (cs.drop n).length = cursor + cs.length by
        simp only [List.length_drop]; omega] at hrec
      simp only [hrec, applySimple, List.append_assoc]
    | Insert s =>
      simp only [opsBaseLen] at h
      simp only [applyGo]
      rw [ih cs cursor (buf ++ s) h]
      simp only [applySimple, List.append_assoc]
    | Delete n =>
      simp only [opsBaseLen] at h
      simp only [applyGo]
      rw [if_neg (by omega), chars_skip_of_le (by omega)]
      have hrec := ih (cs.drop n) (cursor + n) buf
        (by simp only [List.length_drop]; omega)
      rw [show cursor + n + (cs.drop n).length = cursor + cs.length by
        simp only [List.length_drop]; omega] at hrec
      simp only [hrec, applySimple]

theorem apply_eq {t : TextOperation} {base : List Char}
    (hb : t.base_length = opsBaseLen t.ops) (hlen : base.length = t.base_length) :
    t.apply base = some (Except.ok (applySimple t.ops base)) := by
  unfold apply
  rw [if_neg (by omega)]
  have := applyGo_sem t.ops base 0 [] (by omega)
  rw [show (0 : Nat) + base.length = base.length by omega] at this
  simpa using this

theorem applyGo_ne_none : ∀ (ops : List Operation) (cs : List Char) (cursor : Nat)
    (buf : List Char), applyGo (cursor + cs.length) ops cs cursor buf ≠ none := by
  intro ops
  induction ops with
  | nil => intro cs cursor buf; simp [applyGo]
  | cons a rest ih =>
    intro cs cursor buf
    cases a with
    | Retain n =>
      simp only [applyGo]
      by_cases hc : cursor + n > cursor + cs.length
      · rw [if_pos hc]; simp
      · rw [if_neg hc, chars_take_of_le (by omega)]
        have hrec := ih (cs.drop n) (cursor + n) (buf ++ cs.take n)
        rw [show cursor + n + (cs.drop n).length = cursor + cs.length by
          simp only [List.length_drop]; omega] at hrec
        simpa using hrec
    | Insert s =>
      simp only [applyGo]
      exact ih cs cursor (buf ++ s)
    | Delete n =>
      simp only [applyGo]
      by_cases hc : cursor + n > cursor + cs.length
      · rw [if_pos hc]; simp
      · rw [if_neg hc, chars_skip_of_le (by omega)]
        have hrec := ih (cs.drop n) (cursor + n) buf
        rw [show cursor + n + (cs.drop n).length = cursor + cs.length by
          simp only [List.length_drop]; omega] at hrec
        simpa using hrec

theorem apply_ne_none (t : TextOperation) (base : List Char) :
    t.apply base ≠ none := by
  unfold apply
  split
  · simp
  · have := applyGo_ne_none t.ops base 0 []
    rw [show (0 : Nat) + base.length = base.length by omega] at this
    exact this

end TextOperation

/-- Reference form of the inverse operation's atom list: what the `invert`
loop appends through the builder, as a plain list. -/
def invSimple : List Operation → List Char → List Operation
  | [], _ => []
  | Operation.Retain n :: rest, cs => Operation.Retain n :: invSimple rest (cs.drop n)
  | Operation.Insert s :: rest, cs => Operation.Delete s.length :: invSimple rest cs
  | Operation.Delete n :: rest, cs => Operation.Insert (cs.take n) :: invSimple rest (cs.drop n)

theorem invSimple_baseLen {ops : List Operation} {cs : List Char} :
    opsBaseLen (invSimple ops cs) = opsAfterLen ops := by
  induction ops generalizing cs with
  | nil => simp [invSimple, opsBaseLen, opsAfterLen]
  | cons a rest ih =>
    cases a <;> simp [invSimple, opsBaseLen, opsAfterLen, ih]

theorem invSimple_afterLen {ops : List Operation} {cs : List Char}
    (h : opsBaseLen ops ≤ cs.length) :
    opsAfterLen (invSimple ops cs) = opsBaseLen ops := by
  induction ops generalizing cs with
  | nil => simp [invSimple, opsBaseLen, opsAfterLen]
  | cons a rest ih =>
    cases a with
    | Retain n =>
      simp only [opsBaseLen] at h
      simp only [invSimple, opsBaseLen, opsAfterLen]
      rw [ih (by simp only [List.length_drop]; omega)]
    | Insert s =>
      simp only [opsBaseLen] at h
      simp only [invSimple, opsBaseLen, opsAfterLen]
      exact ih h
    | Delete n =>
      simp only [opsBaseLen] at h
      simp only [invSimple, opsBaseLen, opsAfterLen, List.length_take]
      rw [ih (by simp only [List.length_drop]; omega), min_eq_left (by omega)]

theorem invSimple_correct {ops : List Operation} {cs : List Char}
    (h : opsBaseLen ops = cs.length) :
    applySimple (invSimple ops cs) (applySimple ops cs) = cs := by
  induction ops generalizing cs with
  | nil =>
    simp only [opsBaseLen] at h
    have : cs = [] := List.length_eq_zero.mp h.symm
    simp [invSimple, applySimple, this]
  | cons a rest ih =>
    cases a with
    | Retain n =>
      simp only [opsBaseLen] at h
      simp only [invSimple, applySimple]
      rw [List.take_append_of_le_length (by simp [List.length_take]; omega),
        List.drop_append_of_le_length (by simp [List.length_take]; omega)]
      rw [List.take_take, min_self,
        show (cs.take n).drop n = [] by
          apply List.drop_eq_nil_of_le
          simp [List.length_take]]
      rw [List.nil_append, ih (by simp only [List.length_drop]; omega)]
      exact List.take_append_drop n cs
    | Insert s =>
      simp only [opsBaseLen] at h
      simp only [invSimple, applySimple]
      rw [List.drop_append_of_le_length (by omega),
        show s.drop s.length = [] by simp, List.nil_append]
      exact ih h
    | Delete n =>
      simp only [opsBaseLen] at h
      simp only [invSimple, applySimple]
      rw [ih (by simp only [List.length_drop]; omega)]
      exact List.take_append_drop n cs

namespace TextOperation

theorem invertGo_sem : ∀ (ops : List Operation) (cs : List Char) (cursor : Nat)
    (acc : TextOperation), opsBaseLen ops ≤ cs.length →
    ∃ R, invertGo (cursor + cs.length) ops cs cursor acc = some (Except.ok R) ∧
      SemEq R.ops (acc.ops ++ invSimple ops cs) ∧ (WF acc → WF R) := by
  intro ops
  induction ops with
  | nil =>
    intro cs cursor acc h
    exact ⟨acc, by simp [invertGo], by simp [invSimple]; exact SemEq.refl _, fun hw => hw⟩
  | cons a rest ih =>
    intro cs cursor acc h
    cases a with
    | Retain n =>
      simp only [opsBaseLen] at h
      obtain ⟨R, hR, hsem, hwf⟩ := ih (cs.drop n) (cursor + n) (acc.retain n)
        (by simp only [List.length_drop]; omega)
      rw [show cursor + n + (cs.drop n).length = cursor + cs.length by
        simp only [List.length_drop]; omega] at hR
      refine ⟨R, ?_, ?_, fun hw => hwf (retain_WF hw n)⟩
      · simp only [invertGo]
        rw [if_neg (by omega), chars_skip_of_le (by omega)]
        exact hR
      · refine SemEq.trans hsem ?_
        refine SemEq.trans (SemEq.append_right _ (retain_semEq acc n)) ?_
        rw [show (acc.ops ++ [Operation.Retain n]) ++ invSimple rest (cs.drop n)
            = acc.ops ++ (Operation.Retain n :: invSimple rest (cs.drop n)) by simp]
        simp only [invSimple]
        exact SemEq.refl _
    | Insert s =>
      simp only [opsBaseLen] at h
      obtain ⟨R, hR, hsem, hwf⟩ := ih cs cursor (acc.delete s.length) h
      refine ⟨R, ?_, ?_, fun hw => hwf (delete_WF hw s.length)⟩
      · simp only [invertGo]
        exact hR
      · refine SemEq.trans hsem ?_
        refine SemEq.trans (SemEq.append_right _ (delete_semEq acc s.length)) ?_
        rw [show (acc.ops ++ [Operation.Delete s.length]) ++ invSimple rest cs
            = acc.ops ++ (Operation.Delete s.length :: invSimple rest cs) by simp]
        simp only [invSimple]
        exact SemEq.refl _
    | Delete n =>
      simp only [opsBaseLen] at h
      obtain ⟨R, hR, hsem, hwf⟩ := ih (cs.drop n) (cursor + n) (acc.insert (cs.take n))
        (by simp only [List.length_drop]; omega)
      rw [show cursor + n + (cs.drop n).length = cursor + cs.length by
        simp only [List.length_drop]; omega] at hR
      refine ⟨R, ?_, ?_, fun hw => hwf (insert_WF hw (cs.take n))⟩
      · simp only [invertGo]
        rw [if_neg (by omega), chars_take_of_le (by omega)]
        exact hR
      · refine SemEq.trans hsem ?_
        refine SemEq.trans (SemEq.append_right _ (insert_semEq acc (cs.take n))) ?_
        rw [show (acc.ops ++ [Operation.Insert (cs.take n)]) ++ invSimple rest (cs.drop n)
            = acc.ops ++ (Operation.Insert (cs.take n) :: invSimple rest (cs.drop n)) by simp]
        simp only [invSimple]
        exact SemEq.refl _

theorem invert_sem {t : TextOperation} {base : List Char} (hWF : WF t)
    (hlen : base.length = t.base_length) :
    ∃ R, t.invert base = some (Except.ok R) ∧ WF R ∧
      SemEq R.ops (invSimple t.ops base) := by
  obtain ⟨hnorm, hbase, hafter⟩ := hWF
  obtain ⟨R, hR, hsem, hwf⟩ := invertGo_sem t.ops base 0 new (by omega)
  rw [show (0 : Nat) + base.length = base.length by omega] at hR
  refine ⟨R, ?_, hwf new_WF, by simpa [new] using hsem⟩
  unfold invert
  rw [if_neg (by omega)]
  exact hR

theorem invertGo_ne_none : ∀ (ops : List Operation) (cs : List Char) (cursor : Nat)
    (acc : TextOperation), invertGo (cursor + cs.length) ops cs cursor acc ≠ none := by
  intro ops
  induction ops with
  | nil => intro cs cursor acc; simp [invertGo]
  | cons a rest ih =>
    intro cs cursor acc
    cases a with
    | Retain n =>
      simp only [invertGo]
      by_cases hc : cursor + n > cursor + cs.length
      · rw [if_pos hc]; simp
      · rw [if_neg hc, chars_skip_of_le (by omega)]
        have hrec := ih (cs.drop n) (cursor + n) (acc.retain n)
        rw [show cursor + n + (cs.drop n).length = cursor + cs.length by
          simp only [List.length_drop]; omega] at hrec
        simpa using hrec
    | Insert s =>
      simp only [invertGo]
      exact ih cs cursor (acc.delete s.length)
    | Delete n =>
      simp only [invertGo]
      by_cases hc : cursor + n > cursor + cs.length
      · rw [if_pos hc]; simp
      · rw [if_neg hc, chars_take_of_le (by omega)]
        have hrec := ih (cs.drop n) (cursor + n) (acc.insert (cs.take n))
        rw [show cursor + n + (cs.drop n).length = cursor + cs.length by
          simp only [List.length_drop]; omega] at hrec
        simpa using hrec

theorem invert_ne_none (t : TextOperation) (base : List Char) :
    t.invert base ≠ none := by
  unfold invert
  split
  · simp
  · have := invertGo_ne_none t.ops base 0 new
    rw [show (0 : Nat) + base.length = base.length by omega] at this
    exact this

end TextOperation

theorem posOps_cons {a : Operation} {l : List Operation} :
    PosOps (a :: l) ↔ posAtom a = true ∧ PosOps l := by
  simp [PosOps]

theorem applySimple_retain_split (m k : Nat) (t2 : List Operation) (u : List Char) :
    applySimple (Operation.Retain (m + k) :: t2) u
      = u.take m ++ applySimple (Operation.Retain k :: t2) (u.drop m) := by
  simp only [applySimple, List.take_add, List.drop_drop, List.append_assoc]

theorem applySimple_delete_split (m k : Nat) (t2 : List Operation) (u : List Char) :
    applySimple (Operation.Delete (m + k) :: t2) u
      = applySimple (Operation.Delete k :: t2) (u.drop m) := by
  simp only [applySimple, List.drop_drop]

namespace TextOperation

theorem applySimple_acc_retain (acc : TextOperation) (n : Nat) {csa : List Char}
    (u : List Char) (h : csa.length = opsBaseLen acc.ops) :
    applySimple (acc.retain n).ops (csa ++ u)
      = applySimple acc.ops csa ++ u.take n := by
  rw [(retain_semEq acc n).2.2 (csa ++ u),
    applySimple_append_split [Operation.Retain n] u h]
  simp [applySimple]

theorem applySimple_acc_insert (acc : TextOperation) (s : List Char) {csa : List Char}
    (u : List Char) (h : csa.length = opsBaseLen acc.ops) :
    applySimple (acc.insert s).ops (csa ++ u)
      = applySimple acc.ops csa ++ s := by
  rw [(insert_semEq acc s).2.2 (csa ++ u),
    applySimple_append_split [Operation.Insert s] u h]
  simp [applySimple]

theorem applySimple_acc_delete (acc : TextOperation) (n : Nat) {csa : List Char}
    (u : List Char) (h : csa.length = opsBaseLen acc.ops) :
    applySimple (acc.delete n).ops (csa ++ u)
      = applySimple acc.ops csa := by
  rw [(delete_semEq acc n).2.2 (csa ++ u),
    applySimple_append_split [Operation.Delete n] u h]
  simp [applySimple]

theorem composeGo_nil_nil (acc : TextOperation) :
    composeGo [] [] acc = some (Except.ok acc) := by
  simp [composeGo]

theorem composeGo_del (n1 : Nat) (t1 ops2 : List Operation) (acc : TextOperation) :
    composeGo (Operation.Delete n1 :: t1) ops2 acc = composeGo t1 ops2 (acc.delete n1) := by
  cases ops2 with
  | nil => simp [composeGo]
  | cons b t2 => cases b <;> simp [composeGo]

theorem composeGo_ins2 {ops1 : List Operation} (s : List Char) (t2 : List Operation)
    (acc : TextOperation)
    (h : ∀ n1 t1, ops1 = Operation.Delete n1 :: t1 → False) :
    composeGo ops1 (Operation.Insert s :: t2) acc = composeGo ops1 t2 (acc.insert s) := by
  cases ops1 with
  | nil => simp [composeGo]
  | cons a t1 =>
    cases a with
    | Retain n => simp [composeGo]
    | Insert s1 => simp [composeGo]
    | Delete n => exact absurd rfl (h n t1)

theorem composeGo_RR_gt {n1 n2 : Nat} (t1 t2 : List Operation) (acc : TextOperation)
    (h : n1 > n2) :
    composeGo (Operation.Retain n1 :: t1) (Operation.Retain n2 :: t2) acc
      = composeGo (Operation.Retain (n1 - n2) :: t1) t2 (acc.retain n2) := by
  simp [composeGo, h]

theorem composeGo_RR_eq (n : Nat) (t1 t2 : List Operation) (acc : TextOperation) :
    composeGo (Operation.Retain n :: t1) (Operation.Retain n :: t2) acc
      = composeGo t1 t2 (acc.retain n) := by
  simp [composeGo]

theorem composeGo_RR_lt {n1 n2 : Nat} (t1 t2 : List Operation) (acc : TextOperation)
    (h : n1 < n2) :
    composeGo (Operation.Retain n1 :: t1) (Operation.Retain n2 :: t2) acc
      = composeGo t1 (Operation.Retain (n2 - n1) :: t2) (acc.retain n1) := by
  have h1 : ¬ n1 > n2 := by omega
  have h2 : ¬ n1 = n2 := by omega
  simp [composeGo, h1, h2]

theorem composeGo_ID_gt {s1 : List Char} {n2 : Nat} (t1 t2 : List Operation)
    (acc : TextOperation) (h : s1.length > n2) :
    composeGo (Operation.Insert s1 :: t1) (Operation.Delete n2 :: t2) acc
      = composeGo (Operation.Insert (s1.drop n2) :: t1) t2 acc := by
  simp only [composeGo]
  rw [dif_pos h]
  split
  · next heq =>
    rw [chars_tail_of_le (by omega)] at heq
    exact absurd heq (by simp)
  · next s1' heq =>
    obtain ⟨-, h2⟩ := chars_tail_eq_some heq
    rw [h2]

theorem composeGo_ID_eq (s1 : List Char) (t1 t2 : List Operation) (acc : TextOperation) :
    composeGo (Operation.Insert s1 :: t1) (Operation.Delete s1.length :: t2) acc
      = composeGo t1 t2 acc := by
  simp [composeGo]

theorem composeGo_ID_lt {s1 : List Char} {n2 : Nat} (t1 t2 : List Operation)
    (acc : TextOperation) (h : s1.length < n2) :
    composeGo (Operation.Insert s1 :: t1) (Operation.Delete n2 :: t2) acc
      = composeGo t1 (Operation.Delete (n2 - s1.length) :: t2) acc := by
  have h1 : ¬ s1.length > n2 := by omega
  have h2 : ¬ s1.length = n2 := by omega
  simp [composeGo, h1, h2]

theorem composeGo_IR_gt {s1 : List Char} {n2 : Nat} (t1 t2 : List Operation)
    (acc : TextOperation) (h : s1.length > n2) :
    composeGo (Operation.Insert s1 :: t1) (Operation.Retain n2 :: t2) acc
      = composeGo (Operation.Insert (s1.drop n2) :: t1) t2 (acc.insert (s1.take n2)) := by
  simp only [composeGo]
  rw [dif_pos h]
  split
  · next heq =>
    rw [chars_take_of_le (by omega)] at heq
    exact absurd heq (by simp)
  · next pre rest heq =>
    obtain ⟨-, hpre, hrest⟩ := chars_take_eq_some heq
    split
    · next heq2 =>
      rw [chars_take_of_le (by rw [hrest]; simp only [List.length_drop]; omega)] at heq2
      exact absurd heq2 (by simp)
    · next suf rest2 heq2 =>
      obtain ⟨-, hsuf, -⟩ := chars_take_eq_some heq2
      rw [hsuf, hrest, hpre]
      rw [show (s1.drop n2).take (s1.length - n2) = s1.drop n2 by
        apply List.take_of_length_le
        simp [List.length_drop]]

theorem composeGo_IR_eq (s1 : List Char) (t1 t2 : List Operation) (acc : TextOperation) :
    composeGo (Operation.Insert s1 :: t1) (Operation.Retain s1.length :: t2) acc
      = composeGo t1 t2 (acc.insert s1) := by
  simp [composeGo]

theorem composeGo_IR_lt {s1 : List Char} {n2 : Nat} (t1 t2 : List Operation)
    (acc : TextOperation) (h : s1.length < n2) :
    composeGo (Operation.Insert s1 :: t1) (Operation.Retain n2 :: t2) acc
      = composeGo t1 (Operation.Retain (n2 - s1.length) :: t2) (acc.insert s1) := by
  have h1 : ¬ s1.length > n2 := by omega
  have h2 : ¬ s1.length = n2 := by omega
  simp [composeGo, h1, h2]

theorem composeGo_RD_gt {n1 n2 : Nat} (t1 t2 : List Operation) (acc : TextOperation)
    (h : n1 > n2) :
    composeGo (Operation.Retain n1 :: t1) (Operation.Delete n2 :: t2) acc
      = composeGo (Operation.Retain (n1 - n2) :: t1) t2 (acc.delete n2) := by
  simp [composeGo, h]

theorem composeGo_RD_eq (n : Nat) (t1 t2 : List Operation) (acc : TextOperation) :
    composeGo (Operation.Retain n :: t1) (Operation.Delete n :: t2) acc
      = composeGo t1 t2 (acc.delete n) := by
  simp [composeGo]

theorem composeGo_RD_lt {n1 n2 : Nat} (t1 t2 : List Operation) (acc : TextOperation)
    (h : n1 < n2) :
    composeGo (Operation.Retain n1 :: t1) (Operation.Delete n2 :: t2) acc
      = composeGo t1 (Operation.Delete (n2 - n1) :: t2) (acc.delete n1) := by
  have h1 : ¬ n1 > n2 := by omega
  have h2 : ¬ n1 = n2 := by omega
  simp [composeGo, h1, h2]

end TextOperation

namespace TextOperation

/-- Main simulation invariant of the `compose` loop: on positive atom
streams with matching intermediate length, the loop succeeds and the
accumulated result applies the second stream after the first. -/
theorem composeGo_sem (ops1 ops2 : List Operation) (acc : TextOperation) :
    PosOps ops1 → PosOps ops2 → opsAfterLen ops1 = opsBaseLen ops2 →
    ∃ C, composeGo ops1 ops2 acc = some (Except.ok C) ∧ (WF acc → WF C) ∧
      opsBaseLen C.ops = opsBaseLen acc.ops + opsBaseLen ops1 ∧
      opsAfterLen C.ops = opsAfterLen acc.ops + opsAfterLen ops2 ∧
      ∀ csa csb : List Char, csa.length = opsBaseLen acc.ops →
        csb.length = opsBaseLen ops1 →
        applySimple C.ops (csa ++ csb)
          = applySimple acc.ops csa ++ applySimple ops2 (applySimple ops1 csb) := by
  induction ops1, ops2, acc using composeGo.induct with
  | case1 acc =>
    intro hp1 hp2 hlen
    refine ⟨acc, composeGo_nil_nil acc, fun hw => hw, by simp [opsBaseLen],
      by simp [opsAfterLen], ?_⟩
    intro csa csb h1 h2
    simp only [opsBaseLen] at h2
    rw [List.length_eq_zero.mp h2]
    simp [applySimple]
  | case2 n1 t1 ops2 acc ih =>
    intro hp1 hp2 hlen
    obtain ⟨hpa, hp1'⟩ := posOps_cons.mp hp1
    have hlen' : opsAfterLen t1 = opsBaseLen ops2 := by
      simpa [opsAfterLen] using hlen
    obtain ⟨C, hC, hwf, hB, hA, hsem⟩ := ih hp1' hp2 hlen'
    have e1 : opsBaseLen (acc.delete n1).ops = opsBaseLen acc.ops + n1 := by
      rw [(delete_semEq acc n1).1, opsBaseLen_append]; simp [opsBaseLen]
    have e2 : opsAfterLen (acc.delete n1).ops = opsAfterLen acc.ops := by
      rw [(delete_semEq acc n1).2.1, opsAfterLen_append]; simp [opsAfterLen]
    refine ⟨C, by rw [composeGo_del]; exact hC, fun hw => hwf (delete_WF hw n1),
      by rw [hB, e1]; simp [opsBaseLen]; omega,
      by rw [hA, e2], ?_⟩
    intro csa csb h1 h2
    simp only [opsBaseLen] at h2
    have hs := hsem (csa ++ csb.take n1) (csb.drop n1)
      (by rw [e1]; simp only [List.length_append, List.length_take]; omega)
      (by simp only [List.length_drop]; omega)
    rw [List.append_assoc, List.take_append_drop] at hs
    rw [applySimple_acc_delete acc n1 (csb.take n1) h1] at hs
    rw [hs]
    simp [applySimple]
  | case3 ops1 s t2 acc hnd ih =>
    intro hp1 hp2 hlen
    obtain ⟨hpa, hp2'⟩ := posOps_cons.mp hp2
    have hlen' : opsAfterLen ops1 = opsBaseLen t2 := by
      simpa [opsBaseLen] using hlen
    obtain ⟨C, hC, hwf, hB, hA, hsem⟩ := ih hp1 hp2' hlen'
    have e1 : opsBaseLen (acc.insert s).ops = opsBaseLen acc.ops := by
      rw [(insert_semEq acc s).1, opsBaseLen_append]; simp [opsBaseLen]
    have e2 : opsAfterLen (acc.insert s).ops = opsAfterLen acc.ops + s.length := by
      rw [(insert_semEq acc s).2.1, opsAfterLen_append]; simp [opsAfterLen]
    refine ⟨C, by rw [composeGo_ins2 s t2 acc hnd]; exact hC,
      fun hw => hwf (insert_WF hw s),
      by rw [hB, e1],
      by rw [hA, e2]; simp [opsAfterLen]; omega, ?_⟩
    intro csa csb h1 h2
    have hs := hsem csa csb (by rw [e1]; exact h1) h2
    have hacc : applySimple (acc.insert s).ops csa = applySimple acc.ops csa ++ s := by
      have := applySimple_acc_insert acc s ([] : List Char) h1
      rwa [List.append_nil] at this
    rw [hacc] at hs
    rw [hs]
    simp [applySimple, List.append_assoc]
  | case4 x x1 h1 h2 =>
    intro hp1 hp2 hlen
    exfalso
    cases x with
    | nil => exact h1 rfl
    | cons y t =>
      cases y with
      | Retain n =>
        have := (posOps_cons.mp hp2).1
        simp only [posAtom, decide_eq_true_eq] at this
        simp only [opsAfterLen, opsBaseLen] at hlen
        omega
      | Insert s => exact h2 s t rfl
      | Delete n =>
        have := (posOps_cons.mp hp2).1
        simp only [posAtom, decide_eq_true_eq] at this
        simp only [opsAfterLen, opsBaseLen] at hlen
        omega
  | case5 x x1 h1 h2 h3 =>
    intro hp1 hp2 hlen
    exfalso
    cases x with
    | nil => exact h1 rfl
    | cons y t =>
      cases y with
      | Retain n =>
        have := (posOps_cons.mp hp1).1
        simp only [posAtom, decide_eq_true_eq] at this
        simp only [opsAfterLen, opsBaseLen] at hlen
        omega
      | Insert s =>
        have := (posOps_cons.mp hp1).1
        simp only [posAtom, decide_eq_true_eq] at this
        simp only [opsAfterLen, opsBaseLen] at hlen
        have : s.length > 0 := List.length_pos.mpr this
        omega
      | Delete n => exact h2 n t rfl
  | case6 n1 t1 n2 t2 acc hgt ih =>
    intro hp1 hp2 hlen
    obtain ⟨hpa1, hp1'⟩ := posOps_cons.mp hp1
    obtain ⟨hpa2, hp2'⟩ := posOps_cons.mp hp2
    simp only [opsAfterLen, opsBaseLen] at hlen
    have hlen' : opsAfterLen (Operation.Retain (n1 - n2) :: t1) = opsBaseLen t2 := by
      simp only [opsAfterLen]; omega
    have hq1 : PosOps (Operation.Retain (n1 - n2) :: t1) := by
      rw [posOps_cons]
      exact ⟨by simp [posAtom]; omega, hp1'⟩
    obtain ⟨C, hC, hwf, hB, hA, hsem⟩ := ih hq1 hp2' hlen'
    have e1 : opsBaseLen (acc.retain n2).ops = opsBaseLen acc.ops + n2 := by
      rw [(retain_semEq acc n2).1, opsBaseLen_append]; simp [opsBaseLen]
    have e2 : opsAfterLen (acc.retain n2).ops = opsAfterLen acc.ops + n2 := by
      rw [(retain_semEq acc n2).2.1, opsAfterLen_append]; simp [opsAfterLen]
    refine ⟨C, by rw [composeGo_RR_gt _ _ _ hgt]; exact hC,
      fun hw => hwf (retain_WF hw n2),
      by rw [hB, e1]; simp [opsBaseLen]; omega,
      by rw [hA, e2]; simp [opsAfterLen]; omega, ?_⟩
    intro csa csb h1 h2
    simp only [opsBaseLen] at h2
    have hs := hsem (csa ++ csb.take n2) (csb.drop n2)
      (by rw [e1]; simp only [List.length_append, List.length_take]; omega)
      (by simp only [List.length_drop, opsBaseLen]; omega)
    rw [List.append_assoc, List.take_append_drop] at hs
    rw [applySimple_acc_retain acc n2 (csb.take n2) h1] at hs
    rw [List.take_take, min_self] at hs
    have e3 : applySimple (Operation.Retain n2 :: t2)
        (applySimple (Operation.Retain n1 :: t1) csb)
        = csb.take n2 ++ applySimple t2
            (applySimple (Operation.Retain (n1 - n2) :: t1) (csb.drop n2)) := by
      simp only [applySimple]
      rw [List.take_append_of_le_length (by simp only [List.length_take]; omega),
        List.take_take, min_eq_left (by omega),
        List.drop_append_of_le_length (by simp only [List.length_take]; omega),
        List.drop_take, List.drop_drop]
      have e4 : n2 + (n1 - n2) = n1 := by omega
      rw [e4]
    rw [e3]
    simp only [List.append_assoc] at hs ⊢
    exact hs
  | case7 t1 n2 t2 acc hne ih =>
    intro hp1 hp2 hlen
    obtain ⟨hpa1, hp1'⟩ := posOps_cons.mp hp1
    obtain ⟨hpa2, hp2'⟩ := posOps_cons.mp hp2
    simp only [opsAfterLen, opsBaseLen] at hlen
    have hlen' : opsAfterLen t1 = opsBaseLen t2 := by omega
    obtain ⟨C, hC, hwf, hB, hA, hsem⟩ := ih hp1' hp2' hlen'
    have e1 : opsBaseLen (acc.retain n2).ops = opsBaseLen acc.ops + n2 := by
      rw [(retain_semEq acc n2).1, opsBaseLen_append]; simp [opsBaseLen]
    have e2 : opsAfterLen (acc.retain n2).ops = opsAfterLen acc.ops + n2 := by
      rw [(retain_semEq acc n2).2.1, opsAfterLen_append]; simp [opsAfterLen]
    refine ⟨C, by rw [composeGo_RR_eq]; exact hC,
      fun hw => hwf (retain_WF hw n2),
      by rw [hB, e1]; simp [opsBaseLen]; omega,
      by rw [hA, e2]; simp [opsAfterLen]; omega, ?_⟩
    intro csa csb h1 h2
    simp only [opsBaseLen] at h2
    have hs := hsem (csa ++ csb.take n2) (csb.drop n2)
      (by rw [e1]; simp only [List.length_append, List.length_take]; omega)
      (by simp only [List.length_drop]; omega)
    rw [List.append_assoc, List.take_append_drop] at hs
    rw [applySimple_acc_retain acc n2 (csb.take n2) h1] at hs
    rw [List.take_take, min_self] at hs
    have e3 : applySimple (Operation.Retain n2 :: t2)
        (applySimple (Operation.Retain n2 :: t1) csb)
        = csb.take n2 ++ applySimple t2 (applySimple t1 (csb.drop n2)) := by
      simp only [applySimple]
      rw [List.take_append_of_le_length (by simp only [List.length_take]; omega),
        List.take_take, min_self,
        List.drop_append_of_le_length (by simp only [List.length_take]; omega),
        List.drop_take]
      have e4 : n2 - n2 = 0 := by omega
      rw [e4]
      simp
    rw [e3]
    simp only [List.append_assoc] at hs ⊢
    exact hs
  | case8 n1 t1 n2 t2 acc hngt hne ih =>
    intro hp1 hp2 hlen
    have hlt : n1 < n2 := by omega
    obtain ⟨hpa1, hp1'⟩ := posOps_cons.mp hp1
    obtain ⟨hpa2, hp2'⟩ := posOps_cons.mp hp2
    simp only [opsAfterLen, opsBaseLen] at hlen
    have hlen' : opsAfterLen t1 = opsBaseLen (Operation.Retain (n2 - n1) :: t2) := by
      simp only [opsBaseLen]; omega
    have hq2 : PosOps (Operation.Retain (n2 - n1) :: t2) := by
      rw [posOps_cons]
      exact ⟨by simp [posAtom]; omega, hp2'⟩
    obtain ⟨C, hC, hwf, hB, hA, hsem⟩ := ih hp1' hq2 hlen'
    have e1 : opsBaseLen (acc.retain n1).ops = opsBaseLen acc.ops + n1 := by
      rw [(retain_semEq acc n1).1, opsBaseLen_append]; simp [opsBaseLen]
    have e2 : opsAfterLen (acc.retain n1).ops = opsAfterLen acc.ops + n1 := by
      rw [(retain_semEq acc n1).2.1, opsAfterLen_append]; simp [opsAfterLen]
    refine ⟨C, by rw [composeGo_RR_lt _ _ _ hlt]; exact hC,
      fun hw => hwf (retain_WF hw n1),
      by rw [hB, e1]; simp [opsBaseLen]; omega,
      by rw [hA, e2]; simp [opsAfterLen]; omega, ?_⟩
    intro csa csb h1 h2
    simp only [opsBaseLen] at h2
    have hs := hsem (csa ++ csb.take n1) (csb.drop n1)
      (by rw [e1]; simp only [List.length_append, List.length_take]; omega)
      (by simp only [List.length_drop]; omega)
    rw [List.append_assoc, List.take_append_drop] at hs
    rw [applySimple_acc_retain acc n1 (csb.take n1) h1] at hs
    rw [List.take_take, min_self] at hs
    have e3 : applySimple (Operation.Retain n2 :: t2)
        (applySimple (Operation.Retain n1 :: t1) csb)
        = csb.take n1 ++ applySimple (Operation.Retain (n2 - n1) :: t2)
            (applySimple t1 (csb.drop n1)) := by
      conv_lhs => rw [show n2 = n1 + (n2 - n1) by omega]
      rw [applySimple_retain_split]
      simp only [applySimple]
      rw [List.take_append_of_le_length (by simp only [List.length_take]; omega),
        List.take_take, min_self,
        List.drop_append_of_le_length (by simp only [List.length_take]; omega),
        List.drop_take]
      have e4 : n1 - n1 = 0 := by omega
      rw [e4]
      simp
    rw [e3]
    simp only [List.append_assoc] at hs ⊢
    exact hs
  | case9 s1 t1 n2 t2 acc hgt heq =>
    intro hp1 hp2 hlen
    exfalso
    rw [chars_tail_of_le (by omega)] at heq
    exact Option.noConfusion heq
  | case10 s1 t1 n2 t2 acc hgt s1' heq ih =>
    intro hp1 hp2 hlen
    obtain ⟨-, hdrop⟩ := chars_tail_eq_some heq
    subst hdrop
    obtain ⟨hpa1, hp1'⟩ := posOps_cons.mp hp1
    obtain ⟨hpa2, hp2'⟩ := posOps_cons.mp hp2
    simp only [opsAfterLen, opsBaseLen] at hlen
    have hlen' : opsAfterLen (Operation.Insert (s1.drop n2) :: t1) = opsBaseLen t2 := by
      simp only [opsAfterLen, List.length_drop]; omega
    have hq1 : PosOps (Operation.Insert (s1.drop n2) :: t1) := by
      rw [posOps_cons]
      refine ⟨?_, hp1'⟩
      simp only [posAtom, decide_eq_true_eq]
      intro hnil
      have := congrArg List.length hnil
      simp only [List.length_drop, List.length_nil] at this
      omega
    obtain ⟨C, hC, hwf, hB, hA, hsem⟩ := ih hq1 hp2' hlen'
    refine ⟨C, by rw [composeGo_ID_gt _ _ _ hgt]; exact hC, hwf,
      by rw [hB]; simp [opsBaseLen],
      by rw [hA]; simp [opsAfterLen], ?_⟩
    intro csa csb h1 h2
    simp only [opsBaseLen] at h2
    have hs := hsem csa csb h1 (by simp only [opsBaseLen]; omega)
    rw [hs]
    simp only [applySimple]
    rw [List.drop_append_of_le_length (by omega)]
  | case11 s1 t1 t2 acc hne ih =>
    intro hp1 hp2 hlen
    obtain ⟨hpa1, hp1'⟩ := posOps_cons.mp hp1
    obtain ⟨hpa2, hp2'⟩ := posOps_cons.mp hp2
    simp only [opsAfterLen, opsBaseLen] at hlen
    have hlen' : opsAfterLen t1 = opsBaseLen t2 := by omega
    obtain ⟨C, hC, hwf, hB, hA, hsem⟩ := ih hp1' hp2' hlen'
    refine ⟨C, by rw [composeGo_ID_eq]; exact hC, hwf,
      by rw [hB]; simp [opsBaseLen],
      by rw [hA]; simp [opsAfterLen], ?_⟩
    intro csa csb h1 h2
    simp only [opsBaseLen] at h2
    have hs := hsem csa csb h1 (by omega)
    rw [hs]
    simp only [applySimple]
    rw [List.drop_left]
  | case12 s1 t1 n2 t2 acc hngt hne ih =>
    intro hp1 hp2 hlen
    have hlt : s1.length < n2 := by omega
    obtain ⟨hpa1, hp1'⟩ := posOps_cons.mp hp1
    obtain ⟨hpa2, hp2'⟩ := posOps_cons.mp hp2
    simp only [opsAfterLen, opsBaseLen] at hlen
    have hlen' : opsAfterLen t1
        = opsBaseLen (Operation.Delete (n2 - s1.length) :: t2) := by
      simp only [opsBaseLen]; omega
    have hq2 : PosOps (Operation.Delete (n2 - s1.length) :: t2) := by
      rw [posOps_cons]
      exact ⟨by simp [posAtom]; omega, hp2'⟩
    obtain ⟨C, hC, hwf, hB, hA, hsem⟩ := ih hp1' hq2 hlen'
    refine ⟨C, by rw [composeGo_ID_lt _ _ _ hlt]; exact hC, hwf,
      by rw [hB]; simp [opsBaseLen],
      by rw [hA]; simp [opsAfterLen], ?_⟩
    intro csa csb h1 h2
    simp only [opsBaseLen] at h2
    have hs := hsem csa csb h1 (by omega)
    rw [hs]
    conv_rhs => rw [show n2 = s1.length + (n2 - s1.length) by omega]
    rw [show applySimple (Operation.Insert s1 :: t1) csb
        = s1 ++ applySimple t1 csb from rfl]
    rw [applySimple_delete_split]
    rw [List.drop_left]
  | case13 s1 t1 n2 t2 acc hgt heq =>
    intro hp1 hp2 hlen
    exfalso
    rw [chars_take_of_le (by omega)] at heq
    exact Option.noConfusion heq
  | case14 s1 t1 n2 t2 acc hgt suf snd heq heq2 =>
    intro hp1 hp2 hlen
    exfalso
    obtain ⟨-, -, hsnd⟩ := chars_take_eq_some heq
    rw [chars_take_of_le (by rw [hsnd]; simp only [List.length_drop]; omega)] at heq2
    exact Option.noConfusion heq2
  | case15 s1 t1 n2 t2 acc hgt suf snd heq suf1 snd1 heq2 ih =>
    intro hp1 hp2 hlen
    obtain ⟨-, hpre, hsnd⟩ := chars_take_eq_some heq
    obtain ⟨-, hsuf1, -⟩ := chars_take_eq_some heq2
    have hsuf1' : suf1 = s1.drop n2 := by
      rw [hsuf1, hsnd]
      apply List.take_of_length_le
      simp only [List.length_drop]
      omega
    subst hsuf1'
    subst hpre
    obtain ⟨hpa1, hp1'⟩ := posOps_cons.mp hp1
    obtain ⟨hpa2, hp2'⟩ := posOps_cons.mp hp2
    simp only [opsAfterLen, opsBaseLen] at hlen
    have hlen' : opsAfterLen (Operation.Insert (s1.drop n2) :: t1) = opsBaseLen t2 := by
      simp only [opsAfterLen, List.length_drop]; omega
    have hq1 : PosOps (Operation.Insert (s1.drop n2) :: t1) := by
      rw [posOps_cons]
      refine ⟨?_, hp1'⟩
      simp only [posAtom, decide_eq_true_eq]
      intro hnil
      have := congrArg List.length hnil
      simp only [List.length_drop, List.length_nil] at this
      omega
    obtain ⟨C, hC, hwf, hB, hA, hsem⟩ := ih hq1 hp2' hlen'
    have e1 : opsBaseLen (acc.insert (s1.take n2)).ops = opsBaseLen acc.ops := by
      rw [(insert_semEq acc (s1.take n2)).1, opsBaseLen_append]; simp [opsBaseLen]
    have e2 : opsAfterLen (acc.insert (s1.take n2)).ops
        = opsAfterLen acc.ops + n2 := by
      rw [(insert_semEq acc (s1.take n2)).2.1, opsAfterLen_append]
      simp only [opsAfterLen, List.length_take]
      rw [min_eq_left (by omega)]
      omega
    refine ⟨C, by rw [composeGo_IR_gt _ _ _ hgt]; exact hC,
      fun hw => hwf (insert_WF hw (s1.take n2)),
      by rw [hB, e1]; simp [opsBaseLen],
      by rw [hA, e2]; simp [opsAfterLen]; omega, ?_⟩
    intro csa csb h1 h2
    simp only [opsBaseLen] at h2
    have hs := hsem csa csb (by rw [e1]; exact h1) (by simp only [opsBaseLen]; omega)
    have hacc : applySimple (acc.insert (s1.take n2)).ops csa
        = applySimple acc.ops csa ++ s1.take n2 := by
      have := applySimple_acc_insert acc (s1.take n2) ([] : List Char) h1
      rwa [List.append_nil] at this
    rw [hacc] at hs
    rw [hs]
    simp only [applySimple]
    rw [List.take_append_of_le_length (by omega),
      List.drop_append_of_le_length (by omega)]
    simp only [List.append_assoc]
  | case16 s1 t1 t2 acc hne ih =>
    intro hp1 hp2 hlen
    obtain ⟨hpa1, hp1'⟩ := posOps_cons.mp hp1
    obtain ⟨hpa2, hp2'⟩ := posOps_cons.mp hp2
    simp only [opsAfterLen, opsBaseLen] at hlen
    have hlen' : opsAfterLen t1 = opsBaseLen t2 := by omega
    obtain ⟨C, hC, hwf, hB, hA, hsem⟩ := ih hp1' hp2' hlen'
    have e1 : opsBaseLen (acc.insert s1).ops = opsBaseLen acc.ops := by
      rw [(insert_semEq acc s1).1, opsBaseLen_append]; simp [opsBaseLen]
    have e2 : opsAfterLen (acc.insert s1).ops
        = opsAfterLen acc.ops + s1.length := by
      rw [(insert_semEq acc s1).2.1, opsAfterLen_append]; simp [opsAfterLen]
    refine ⟨C, by rw [composeGo_IR_eq]; exact hC,
      fun hw => hwf (insert_WF hw s1),
      by rw [hB, e1]; simp [opsBaseLen],
      by rw [hA, e2]; simp [opsAfterLen]; omega, ?_⟩
    intro csa csb h1 h2
    simp only [opsBaseLen] at h2
    have hs := hsem csa csb (by rw [e1]; exact h1) (by omega)
    have hacc : applySimple (acc.insert s1).ops csa
        = applySimple acc.ops csa ++ s1 := by
      have := applySimple_acc_insert acc s1 ([] : List Char) h1
      rwa [List.append_nil] at this
    rw [hacc] at hs
    rw [hs]
    simp only [applySimple]
    rw [List.take_left, List.drop_left]
    simp only [List.append_assoc]
  | case17 s1 t1 n2 t2 acc hngt hne ih =>
    intro hp1 hp2 hlen
    have hlt : s1.length < n2 := by omega
    obtain ⟨hpa1, hp1'⟩ := posOps_cons.mp hp1
    obtain ⟨hpa2, hp2'⟩ := posOps_cons.mp hp2
    simp only [opsAfterLen, opsBaseLen] at hlen
    have hlen' : opsAfterLen t1
        = opsBaseLen (Operation.Retain (n2 - s1.length) :: t2) := by
      simp only [opsBaseLen]; omega
    have hq2 : PosOps (Operation.Retain (n2 - s1.length) :: t2) := by
      rw [posOps_cons]
      exact ⟨by simp [posAtom]; omega, hp2'⟩
    obtain ⟨C, hC, hwf, hB, hA, hsem⟩ := ih hp1' hq2 hlen'
    have e1 : opsBaseLen (acc.insert s1).ops = opsBaseLen acc.ops := by
      rw [(insert_semEq acc s1).1, opsBaseLen_append]; simp [opsBaseLen]
    have e2 : opsAfterLen (acc.insert s1).ops
        = opsAfterLen acc.ops + s1.length := by
      rw [(insert_semEq acc s1).2.1, opsAfterLen_append]; simp [opsAfterLen]
    refine ⟨C, by rw [composeGo_IR_lt _ _ _ hlt]; exact hC,
      fun hw => hwf (insert_WF hw s1),
      by rw [hB, e1]; simp [opsBaseLen],
      by rw [hA, e2]; simp [opsAfterLen]; omega, ?_⟩
    intro csa csb h1 h2
    simp only [opsBaseLen] at h2
    have hs := hsem csa csb (by rw [e1]; exact h1) (by omega)
    have hacc : applySimple (acc.insert s1).ops csa
        = applySimple acc.ops csa ++ s1 := by
      have := applySimple_acc_insert acc s1 ([] : List Char) h1
      rwa [List.append_nil] at this
    rw [hacc] at hs
    rw [hs]
    conv_rhs => rw [show n2 = s1.length + (n2 - s1.length) by omega]
    rw [show applySimple (Operation.Insert s1 :: t1) csb
        = s1 ++ applySimple t1 csb from rfl]
    rw [applySimple_retain_split]
    rw [List.take_left, List.drop_left]
    simp only [List.append_assoc]
  | case18 n1 t1 n2 t2 acc hgt ih =>
    intro hp1 hp2 hlen
    obtain ⟨hpa1, hp1'⟩ := posOps_cons.mp hp1
    obtain ⟨hpa2, hp2'⟩ := posOps_cons.mp hp2
    simp only [opsAfterLen, opsBaseLen] at hlen
    have hlen' : opsAfterLen (Operation.Retain (n1 - n2) :: t1) = opsBaseLen t2 := by
      simp only [opsAfterLen]; omega
    have hq1 : PosOps (Operation.Retain (n1 - n2) :: t1) := by
      rw [posOps_cons]
      exact ⟨by simp [posAtom]; omega, hp1'⟩
    obtain ⟨C, hC, hwf, hB, hA, hsem⟩ := ih hq1 hp2' hlen'
    have e1 : opsBaseLen (acc.delete n2).ops = opsBaseLen acc.ops + n2 := by
      rw [(delete_semEq acc n2).1, opsBaseLen_append]; simp [opsBaseLen]
    have e2 : opsAfterLen (acc.delete n2).ops = opsAfterLen acc.ops := by
      rw [(delete_semEq acc n2).2.1, opsAfterLen_append]; simp [opsAfterLen]
    refine ⟨C, by rw [composeGo_RD_gt _ _ _ hgt]; exact hC,
      fun hw => hwf (delete_WF hw n2),
      by rw [hB, e1]; simp [opsBaseLen]; omega,
      by rw [hA, e2]; simp [opsAfterLen], ?_⟩
    intro csa csb h1 h2
    simp only [opsBaseLen] at h2
    have hs := hsem (csa ++ csb.take n2) (csb.drop n2)
      (by rw [e1]; simp only [List.length_append, List.length_take]; omega)
      (by simp only [List.length_drop, opsBaseLen]; omega)
    rw [List.append_assoc, List.take_append_drop] at hs
    rw [applySimple_acc_delete acc n2 (csb.take n2) h1] at hs
    have e3 : applySimple (Operation.Delete n2 :: t2)
        (applySimple (Operation.Retain n1 :: t1) csb)
        = applySimple t2
            (applySimple (Operation.Retain (n1 - n2) :: t1) (csb.drop n2)) := by
      simp only [applySimple]
      rw [List.drop_append_of_le_length (by simp only [List.length_take]; omega),
        List.drop_take, List.drop_drop]
      have e4 : n2 + (n1 - n2) = n1 := by omega
      rw [e4]
    rw [e3]
    exact hs
  | case19 t1 n2 t2 acc hne ih =>
    intro hp1 hp2 hlen
    obtain ⟨hpa1, hp1'⟩ := posOps_cons.mp hp1
    obtain ⟨hpa2, hp2'⟩ := posOps_cons.mp hp2
    simp only [opsAfterLen, opsBaseLen] at hlen
    have hlen' : opsAfterLen t1 = opsBaseLen t2 := by omega
    obtain ⟨C, hC, hwf, hB, hA, hsem⟩ := ih hp1' hp2' hlen'
    have e1 : opsBaseLen (acc.delete n2).ops = opsBaseLen acc.ops + n2 := by
      rw [(delete_semEq acc n2).1, opsBaseLen_append]; simp [opsBaseLen]
    have e2 : opsAfterLen (acc.delete n2).ops = opsAfterLen acc.ops := by
      rw [(delete_semEq acc n2).2.1, opsAfterLen_append]; simp [opsAfterLen]
    refine ⟨C, by rw [composeGo_RD_eq]; exact hC,
      fun hw => hwf (delete_WF hw n2),
      by rw [hB, e1]; simp [opsBaseLen]; omega,
      by rw [hA, e2]; simp [opsAfterLen], ?_⟩
    intro csa csb h1 h2
    simp only [opsBaseLen] at h2
    have hs := hsem (csa ++ csb.take n2) (csb.drop n2)
      (by rw [e1]; simp only [List.length_append, List.length_take]; omega)
      (by simp only [List.length_drop]; omega)
    rw [List.append_assoc, List.take_append_drop] at hs
    rw [applySimple_acc_delete acc n2 (csb.take n2) h1] at hs
    have e3 : applySimple (Operation.Delete n2 :: t2)
        (applySimple (Operation.Retain n2 :: t1) csb)
        = applySimple t2 (applySimple t1 (csb.drop n2)) := by
      simp only [applySimple]
      rw [List.drop_append_of_le_length (by simp only [List.length_take]; omega),
        List.drop_take]
      have e4 : n2 - n2 = 0 := by omega
      rw [e4]
      simp
    rw [e3]
    exact hs
  | case20 n1 t1 n2 t2 acc hngt hne ih =>
    intro hp1 hp2 hlen
    have hlt : n1 < n2 := by omega
    obtain ⟨hpa1, hp1'⟩ := posOps_cons.mp hp1
    obtain ⟨hpa2, hp2'⟩ := posOps_cons.mp hp2
    simp only [opsAfterLen, opsBaseLen] at hlen
    have hlen' : opsAfterLen t1
        = opsBaseLen (Operation.Delete (n2 - n1) :: t2) := by
      simp only [opsBaseLen]; omega
    have hq2 : PosOps (Operation.Delete (n2 - n1) :: t2) := by
      rw [posOps_cons]
      exact ⟨by simp [posAtom]; omega, hp2'⟩
    obtain ⟨C, hC, hwf, hB, hA, hsem⟩ := ih hp1' hq2 hlen'
    have e1 : opsBaseLen (acc.delete n1).ops = opsBaseLen acc.ops + n1 := by
      rw [(delete_semEq acc n1).1, opsBaseLen_append]; simp [opsBaseLen]
    have e2 : opsAfterLen (acc.delete n1).ops = opsAfterLen acc.ops := by
      rw [(delete_semEq acc n1).2.1, opsAfterLen_append]; simp [opsAfterLen]
    refine ⟨C, by rw [composeGo_RD_lt _ _ _ hlt]; exact hC,
      fun hw => hwf (delete_WF hw n1),
      by rw [hB, e1]; simp [opsBaseLen]; omega,
      by rw [hA, e2]; simp [opsAfterLen], ?_⟩
    intro csa csb h1 h2
    simp only [opsBaseLen] at h2
    have hs := hsem (csa ++ csb.take n1) (csb.drop n1)
      (by rw [e1]; simp only [List.length_append, List.length_take]; omega)
      (by simp only [List.length_drop, opsBaseLen]; omega)
    rw [List.append_assoc, List.take_append_drop] at hs
    rw [applySimple_acc_delete acc n1 (csb.take n1) h1] at hs
    conv_rhs => rw [show n2 = n1 + (n2 - n1) by omega]
    rw [show applySimple (Operation.Retain n1 :: t1) csb
        = csb.take n1 ++ applySimple t1 (csb.drop n1) from rfl]
    rw [applySimple_delete_split]
    rw [List.drop_append_of_le_length (by simp only [List.length_take]; omega),
      List.drop_take]
    have e4 : n1 - n1 = 0 := by omega
    rw [e4]
    simp only [List.take_zero, List.nil_append, List.drop_zero]
    exact hs

end TextOperation


namespace TextOperation

theorem compose_sem {A B : TextOperation} (hA : WF A) (hB : WF B)
    (hlen : A.after_length = B.base_length) :
    ∃ C, A.compose B = some (Except.ok C) ∧ WF C ∧
      C.base_length = A.base_length ∧ C.after_length = B.after_length ∧
      ∀ cs : List Char, cs.length = A.base_length →
        applySimple C.ops cs = applySimple B.ops (applySimple A.ops cs) := by
  obtain ⟨C, hC, hwf, hBl, hAl, hsem⟩ :=
    composeGo_sem A.ops B.ops new hA.1.1 hB.1.1
      (by rw [← hA.2.2, ← hB.2.1]; exact hlen)
  have hwfC : WF C := hwf new_WF
  refine ⟨C, ?_, hwfC, ?_, ?_, ?_⟩
  · unfold compose
    rw [if_neg (by omega)]
    exact hC
  · rw [hwfC.2.1, hBl, hA.2.1]
    simp [new, opsBaseLen]
  · rw [hwfC.2.2, hAl, hB.2.2]
    simp [new, opsAfterLen]
  · intro cs hcs
    have := hsem [] cs (by simp [new, opsBaseLen]) (by rw [hcs, hA.2.1])
    simpa [applySimple] using this

theorem composeGo_ne_none : ∀ (ops1 ops2 : List Operation) (acc : TextOperation),
    composeGo ops1 ops2 acc ≠ none := by
  intro ops1 ops2 acc
  induction ops1, ops2, acc using composeGo.induct with
  | case1 acc => rw [composeGo_nil_nil]; simp
  | case2 n1 t1 ops2 acc ih => rw [composeGo_del]; exact ih
  | case3 ops1 s t2 acc hnd ih => rw [composeGo_ins2 s t2 acc hnd]; exact ih
  | case4 x x1 h1 h2 =>
    cases x with
    | nil => exact absurd rfl h1
    | cons y t =>
      cases y with
      | Retain n => simp [composeGo]
      | Insert s => exact absurd rfl (h2 s t)
      | Delete n => simp [composeGo]
  | case5 x x1 h1 h2 h3 =>
    cases x with
    | nil => exact absurd rfl h1
    | cons y t =>
      cases y with
      | Retain n => simp [composeGo]
      | Insert s => simp [composeGo]
      | Delete n => exact absurd rfl (h2 n t)
  | case6 n1 t1 n2 t2 acc hgt ih => rw [composeGo_RR_gt _ _ _ hgt]; exact ih
  | case7 t1 n2 t2 acc hne ih => rw [composeGo_RR_eq]; exact ih
  | case8 n1 t1 n2 t2 acc hngt hne ih =>
    rw [composeGo_RR_lt _ _ _ (by omega)]; exact ih
  | case9 s1 t1 n2 t2 acc hgt heq =>
    rw [chars_tail_of_le (by omega)] at heq
    exact absurd heq (by simp)
  | case10 s1 t1 n2 t2 acc hgt s1' heq ih =>
    obtain ⟨-, hdrop⟩ := chars_tail_eq_some heq
    subst hdrop
    rw [composeGo_ID_gt _ _ _ hgt]
    exact ih
  | case11 s1 t1 t2 acc hne ih => rw [composeGo_ID_eq]; exact ih
  | case12 s1 t1 n2 t2 acc hngt hne ih =>
    rw [composeGo_ID_lt _ _ _ (by omega)]; exact ih
  | case13 s1 t1 n2 t2 acc hgt heq =>
    rw [chars_take_of_le (by omega)] at heq
    exact absurd heq (by simp)
  | case14 s1 t1 n2 t2 acc hgt suf snd heq heq2 =>
    obtain ⟨-, -, hsnd⟩ := chars_take_eq_some heq
    rw [chars_take_of_le (by rw [hsnd]; simp only [List.length_drop]; omega)] at heq2
    exact absurd heq2 (by simp)
  | case15 s1 t1 n2 t2 acc hgt suf snd heq suf1 snd1 heq2 ih =>
    obtain ⟨-, hpre, hsnd⟩ := chars_take_eq_some heq
    obtain ⟨-, hsuf1, -⟩ := chars_take_eq_some heq2
    have hsuf1' : suf1 = s1.drop n2 := by
      rw [hsuf1, hsnd]
      apply List.take_of_length_le
      simp only [List.length_drop]
      omega
    subst hsuf1'
    subst hpre
    rw [composeGo_IR_gt _ _ _ hgt]
    exact ih
  | case16 s1 t1 t2 acc hne ih => rw [composeGo_IR_eq]; exact ih
  | case17 s1 t1 n2 t2 acc hngt hne ih =>
    rw [composeGo_IR_lt _ _ _ (by omega)]; exact ih
  | case18 n1 t1 n2 t2 acc hgt ih => rw [composeGo_RD_gt _ _ _ hgt]; exact ih
  | case19 t1 n2 t2 acc hne ih => rw [composeGo_RD_eq]; exact ih
  | case20 n1 t1 n2 t2 acc hngt hne ih =>
    rw [composeGo_RD_lt _ _ _ (by omega)]; exact ih

theorem compose_ne_none (t other : TextOperation) : t.compose other ≠ none := by
  unfold compose
  split
  · simp
  · exact composeGo_ne_none t.ops other.ops new

end TextOperation

namespace TextOperation

theorem transformGo_nil_nil (a1 a2 : TextOperation) :
    transformGo [] [] a1 a2 = Except.ok (a1, a2) := by
  simp [transformGo]

theorem transformGo_ins1 (s1 : List Char) (t1 ops2 : List Operation)
    (a1 a2 : TextOperation) :
    transformGo (Operation.Insert s1 :: t1) ops2 a1 a2
      = transformGo t1 ops2 (a1.insert s1) (a2.retain s1.length) := by
  cases ops2 with
  | nil => simp [transformGo]
  | cons b t2 => cases b <;> simp [transformGo]

theorem transformGo_ins2 {ops1 : List Operation} (s2 : List Char)
    (t2 : List Operation) (a1 a2 : TextOperation)
    (h : ∀ s t, ops1 = Operation.Insert s :: t → False) :
    transformGo ops1 (Operation.Insert s2 :: t2) a1 a2
      = transformGo ops1 t2 (a1.retain s2.length) (a2.insert s2) := by
  cases ops1 with
  | nil => simp [transformGo]
  | cons a t1 =>
    cases a with
    | Retain n => simp [transformGo]
    | Insert s => exact absurd rfl (h s t1)
    | Delete n => simp [transformGo]

theorem transformGo_RR_gt {n1 n2 : Nat} (t1 t2 : List Operation)
    (a1 a2 : TextOperation) (h : n1 > n2) :
    transformGo (Operation.Retain n1 :: t1) (Operation.Retain n2 :: t2) a1 a2
      = transformGo (Operation.Retain (n1 - n2) :: t1) t2
          (a1.retain n2) (a2.retain n2) := by
  simp [transformGo, h]

theorem transformGo_RR_eq (n : Nat) (t1 t2 : List Operation) (a1 a2 : TextOperation) :
    transformGo (Operation.Retain n :: t1) (Operation.Retain n :: t2) a1 a2
      = transformGo t1 t2 (a1.retain n) (a2.retain n) := by
  simp [transformGo]

theorem transformGo_RR_lt {n1 n2 : Nat} (t1 t2 : List Operation)
    (a1 a2 : TextOperation) (h : n1 < n2) :
    transformGo (Operation.Retain n1 :: t1) (Operation.Retain n2 :: t2) a1 a2
      = transformGo t1 (Operation.Retain (n2 - n1) :: t2)
          (a1.retain n1) (a2.retain n1) := by
  have h1 : ¬ n1 > n2 := by omega
  have h2 : ¬ n1 = n2 := by omega
  simp [transformGo, h1, h2]

theorem transformGo_DD_gt {n1 n2 : Nat} (t1 t2 : List Operation)
    (a1 a2 : TextOperation) (h : n1 > n2) :
    transformGo (Operation.Delete n1 :: t1) (Operation.Delete n2 :: t2) a1 a2
      = transformGo (Operation.Delete (n1 - n2) :: t1) t2 a1 a2 := by
  simp [transformGo, h]

theorem transformGo_DD_eq (n : Nat) (t1 t2 : List Operation) (a1 a2 : TextOperation) :
    transformGo (Operation.Delete n :: t1) (Operation.Delete n :: t2) a1 a2
      = transformGo t1 t2 a1 a2 := by
  simp [transformGo]

theorem transformGo_DD_lt {n1 n2 : Nat} (t1 t2 : List Operation)
    (a1 a2 : TextOperation) (h : n1 < n2) :
    transformGo (Operation.Delete n1 :: t1) (Operation.Delete n2 :: t2) a1 a2
      = transformGo t1 (Operation.Delete (n2 - n1) :: t2) a1 a2 := by
  have h1 : ¬ n1 > n2 := by omega
  have h2 : ¬ n1 = n2 := by omega
  simp [transformGo, h1, h2]

theorem transformGo_DR_gt {n1 n2 : Nat} (t1 t2 : List Operation)
    (a1 a2 : TextOperation) (h : n1 > n2) :
    transformGo (Operation.Delete n1 :: t1) (Operation.Retain n2 :: t2) a1 a2
      = transformGo (Operation.Delete (n1 - n2) :: t1) t2 (a1.delete n2) a2 := by
  simp [transformGo, h]

theorem transformGo_DR_eq (n : Nat) (t1 t2 : List Operation) (a1 a2 : TextOperation) :
    transformGo (Operation.Delete n :: t1) (Operation.Retain n :: t2) a1 a2
      = transformGo t1 t2 (a1.delete n) a2 := by
  simp [transformGo]

theorem transformGo_DR_lt {n1 n2 : Nat} (t1 t2 : List Operation)
    (a1 a2 : TextOperation) (h : n1 < n2) :
    transformGo (Operation.Delete n1 :: t1) (Operation.Retain n2 :: t2) a1 a2
      = transformGo t1 (Operation.Retain (n2 - n1) :: t2) (a1.delete n1) a2 := by
  have h1 : ¬ n1 > n2 := by omega
  have h2 : ¬ n1 = n2 := by omega
  simp [transformGo, h1, h2]

theorem transformGo_RD_gt {n1 n2 : Nat} (t1 t2 : List Operation)
    (a1 a2 : TextOperation) (h : n1 > n2) :
    transformGo (Operation.Retain n1 :: t1) (Operation.Delete n2 :: t2) a1 a2
      = transformGo (Operation.Retain (n1 - n2) :: t1) t2 a1 (a2.delete n2) := by
  simp [transformGo, h]

theorem transformGo_RD_eq (n : Nat) (t1 t2 : List Operation) (a1 a2 : TextOperation) :
    transformGo (Operation.Retain n :: t1) (Operation.Delete n :: t2) a1 a2
      = transformGo t1 t2 a1 (a2.delete n) := by
  simp [transformGo]

theorem transformGo_RD_lt {n1 n2 : Nat} (t1 t2 : List Operation)
    (a1 a2 : TextOperation) (h : n1 < n2) :
    transformGo (Operation.Retain n1 :: t1) (Operation.Delete n2 :: t2) a1 a2
      = transformGo t1 (Operation.Delete (n2 - n1) :: t2) a1 (a2.delete n1) := by
  have h1 : ¬ n1 > n2 := by omega
  have h2 : ¬ n1 = n2 := by omega
  simp [transformGo, h1, h2]

end TextOperation

namespace TextOperation

/-- Main simulation invariant of the `transform` loop: on positive atom
streams over the same base, the loop succeeds, and there is a single merged
result `Z cs` such that the first output applied after the second stream and
the second output applied after the first stream both produce it. -/
theorem transformGo_sem (ops1 ops2 : List Operation) (a1 a2 : TextOperation) :
    PosOps ops1 → PosOps ops2 → opsBaseLen ops1 = opsBaseLen ops2 →
    ∃ p1 p2, transformGo ops1 ops2 a1 a2 = Except.ok (p1, p2) ∧
      (WF a1 → WF p1) ∧ (WF a2 → WF p2) ∧
      opsBaseLen p1.ops = opsBaseLen a1.ops + opsAfterLen ops2 ∧
      opsBaseLen p2.ops = opsBaseLen a2.ops + opsAfterLen ops1 ∧
      ∃ Z : List Char → List Char,
        ∀ cs da db : List Char, cs.length = opsBaseLen ops1 →
          da.length = opsBaseLen a1.ops → db.length = opsBaseLen a2.ops →
          applySimple p1.ops (da ++ applySimple ops2 cs)
            = applySimple a1.ops da ++ Z cs ∧
          applySimple p2.ops (db ++ applySimple ops1 cs)
            = applySimple a2.ops db ++ Z cs := by
  induction ops1, ops2, a1, a2 using transformGo.induct with
  | case1 a1 a2 =>
    intro hp1 hp2 hlen
    refine ⟨a1, a2, transformGo_nil_nil a1 a2, fun h => h, fun h => h,
      by simp [opsAfterLen], by simp [opsAfterLen], fun _ => [], ?_⟩
    intro cs da db hcs hda hdb
    simp [applySimple]
  | case2 s1 t1 ops2 a1 a2 ih =>
    intro hp1 hp2 hlen
    obtain ⟨hpa1, hp1'⟩ := posOps_cons.mp hp1
    simp only [opsBaseLen] at hlen
    obtain ⟨p1, p2, heq, hw1, hw2, hb1, hb2, Z, hZ⟩ := ih hp1' hp2 hlen
    have e1 : opsBaseLen (a1.insert s1).ops = opsBaseLen a1.ops := by
      rw [(insert_semEq a1 s1).1, opsBaseLen_append]; simp [opsBaseLen]
    have e2 : opsBaseLen (a2.retain s1.length).ops = opsBaseLen a2.ops + s1.length := by
      rw [(retain_semEq a2 s1.length).1, opsBaseLen_append]; simp [opsBaseLen]
    refine ⟨p1, p2, by rw [transformGo_ins1]; exact heq,
      fun hw => hw1 (insert_WF hw s1), fun hw => hw2 (retain_WF hw s1.length),
      by rw [hb1, e1],
      by rw [hb2, e2]; simp [opsAfterLen]; omega,
      fun cs => s1 ++ Z cs, ?_⟩
    intro cs da db hcs hda hdb
    simp only [opsBaseLen] at hcs
    obtain ⟨hZ1, hZ2⟩ := hZ cs da (db ++ s1) hcs
      (by rw [e1]; exact hda)
      (by rw [e2]; simp only [List.length_append]; omega)
    constructor
    · rw [hZ1]
      have hacc : applySimple (a1.insert s1).ops da
          = applySimple a1.ops da ++ s1 := by
        have := applySimple_acc_insert a1 s1 ([] : List Char) hda
        rwa [List.append_nil] at this
      rw [hacc]
      simp only [List.append_assoc]
    · rw [show applySimple (Operation.Insert s1 :: t1) cs
          = s1 ++ applySimple t1 cs from rfl]
      rw [← List.append_assoc, hZ2,
        applySimple_acc_retain a2 s1.length s1 hdb, List.take_length]
      simp only [List.append_assoc]
  | case3 ops1 s2 t2 a1 a2 hni ih =>
    intro hp1 hp2 hlen
    obtain ⟨hpa2, hp2'⟩ := posOps_cons.mp hp2
    simp only [opsBaseLen] at hlen
    obtain ⟨p1, p2, heq, hw1, hw2, hb1, hb2, Z, hZ⟩ := ih hp1 hp2' hlen
    have e1 : opsBaseLen (a1.retain s2.length).ops = opsBaseLen a1.ops + s2.length := by
      rw [(retain_semEq a1 s2.length).1, opsBaseLen_append]; simp [opsBaseLen]
    have e2 : opsBaseLen (a2.insert s2).ops = opsBaseLen a2.ops := by
      rw [(insert_semEq a2 s2).1, opsBaseLen_append]; simp [opsBaseLen]
    refine ⟨p1, p2, by rw [transformGo_ins2 s2 t2 a1 a2 hni]; exact heq,
      fun hw => hw1 (retain_WF hw s2.length), fun hw => hw2 (insert_WF hw s2),
      by rw [hb1, e1]; simp [opsAfterLen]; omega,
      by rw [hb2, e2],
      fun cs => s2 ++ Z cs, ?_⟩
    intro cs da db hcs hda hdb
    obtain ⟨hZ1, hZ2⟩ := hZ cs (da ++ s2) db hcs
      (by rw [e1]; simp only [List.length_append]; omega)
      (by rw [e2]; exact hdb)
    constructor
    · rw [show applySimple (Operation.Insert s2 :: t2) cs
          = s2 ++ applySimple t2 cs from rfl]
      rw [← List.append_assoc, hZ1,
        applySimple_acc_retain a1 s2.length s2 hda, List.take_length]
      simp only [List.append_assoc]
    · rw [hZ2]
      have hacc : applySimple (a2.insert s2).ops db
          = applySimple a2.ops db ++ s2 := by
        have := applySimple_acc_insert a2 s2 ([] : List Char) hdb
        rwa [List.append_nil] at this
      rw [hacc]
      simp only [List.append_assoc]
  | case4 x x1 x2 h1 h2 =>
    intro hp1 hp2 hlen
    exfalso
    cases x with
    | nil => exact h1 rfl
    | cons y t =>
      cases y with
      | Retain n =>
        have := (posOps_cons.mp hp2).1
        simp only [posAtom, decide_eq_true_eq] at this
        simp only [opsBaseLen] at hlen
        omega
      | Insert s => exact h2 s t rfl
      | Delete n =>
        have := (posOps_cons.mp hp2).1
        simp only [posAtom, decide_eq_true_eq] at this
        simp only [opsBaseLen] at hlen
        omega
  | case5 x x1 x2 h1 h2 h3 =>
    intro hp1 hp2 hlen
    exfalso
    cases x with
    | nil => exact h1 rfl
    | cons y t =>
      cases y with
      | Retain n =>
        have := (posOps_cons.mp hp1).1
        simp only [posAtom, decide_eq_true_eq] at this
        simp only [opsBaseLen] at hlen
        omega
      | Insert s => exact h2 s t rfl
      | Delete n =>
        have := (posOps_cons.mp hp1).1
        simp only [posAtom, decide_eq_true_eq] at this
        simp only [opsBaseLen] at hlen
        omega
  | case6 n1 t1 n2 t2 a1 a2 hgt ih =>
    intro hp1 hp2 hlen
    obtain ⟨hpa1, hp1'⟩ := posOps_cons.mp hp1
    obtain ⟨hpa2, hp2'⟩ := posOps_cons.mp hp2
    simp only [opsBaseLen] at hlen
    have hq1 : PosOps (Operation.Retain (n1 - n2) :: t1) := by
      rw [posOps_cons]; exact ⟨by simp [posAtom]; omega, hp1'⟩
    have hlen' : opsBaseLen (Operation.Retain (n1 - n2) :: t1) = opsBaseLen t2 := by
      simp only [opsBaseLen]; omega
    obtain ⟨p1, p2, heq, hw1, hw2, hb1, hb2, Z, hZ⟩ := ih hq1 hp2' hlen'
    have e1 : opsBaseLen (a1.retain n2).ops = opsBaseLen a1.ops + n2 := by
      rw [(retain_semEq a1 n2).1, opsBaseLen_append]; simp [opsBaseLen]
    have e2 : opsBaseLen (a2.retain n2).ops = opsBaseLen a2.ops + n2 := by
      rw [(retain_semEq a2 n2).1, opsBaseLen_append]; simp [opsBaseLen]
    refine ⟨p1, p2, by rw [transformGo_RR_gt _ _ _ _ hgt]; exact heq,
      fun hw => hw1 (retain_WF hw n2), fun hw => hw2 (retain_WF hw n2),
      by rw [hb1, e1]; simp [opsAfterLen]; omega,
      by rw [hb2, e2]; simp [opsAfterLen]; omega,
      fun cs => cs.take n2 ++ Z (cs.drop n2), ?_⟩
    intro cs da db hcs hda hdb
    simp only [opsBaseLen] at hcs
    obtain ⟨hZ1, hZ2⟩ := hZ (cs.drop n2) (da ++ cs.take n2) (db ++ cs.take n2)
      (by simp only [List.length_drop, opsBaseLen]; omega)
      (by rw [e1]; simp only [List.length_append, List.length_take]; omega)
      (by rw [e2]; simp only [List.length_append, List.length_take]; omega)
    constructor
    · rw [show applySimple (Operation.Retain n2 :: t2) cs
          = cs.take n2 ++ applySimple t2 (cs.drop n2) from rfl]
      rw [← List.append_assoc, hZ1,
        applySimple_acc_retain a1 n2 (cs.take n2) hda, List.take_take, min_self]
      simp only [List.append_assoc]
    · have eform : applySimple (Operation.Retain n1 :: t1) cs
          = cs.take n2 ++ applySimple (Operation.Retain (n1 - n2) :: t1) (cs.drop n2) := by
        rw [show applySimple (Operation.Retain n1 :: t1) cs
            = cs.take n1 ++ applySimple t1 (cs.drop n1) from rfl]
        rw [show applySimple (Operation.Retain (n1 - n2) :: t1) (cs.drop n2)
            = (cs.drop n2).take (n1 - n2)
              ++ applySimple t1 ((cs.drop n2).drop (n1 - n2)) from rfl]
        rw [show (cs.drop n2).drop (n1 - n2) = cs.drop n1 by
          rw [List.drop_drop]; congr 1; omega]
        rw [show cs.take n1 = cs.take n2 ++ (cs.drop n2).take (n1 - n2) by
          rw [← List.take_add]; congr 1; omega]
        simp only [List.append_assoc]
      rw [eform, ← List.append_assoc, hZ2,
        applySimple_acc_retain a2 n2 (cs.take n2) hdb, List.take_take, min_self]
      simp only [List.append_assoc]
  | case7 t1 n2 t2 a1 a2 hne ih =>
    intro hp1 hp2 hlen
    obtain ⟨hpa1, hp1'⟩ := posOps_cons.mp hp1
    obtain ⟨hpa2, hp2'⟩ := posOps_cons.mp hp2
    simp only [opsBaseLen] at hlen
    have hlen' : opsBaseLen t1 = opsBaseLen t2 := by omega
    obtain ⟨p1, p2, heq, hw1, hw2, hb1, hb2, Z, hZ⟩ := ih hp1' hp2' hlen'
    have e1 : opsBaseLen (a1.retain n2).ops = opsBaseLen a1.ops + n2 := by
      rw [(retain_semEq a1 n2).1, opsBaseLen_append]; simp [opsBaseLen]
    have e2 : opsBaseLen (a2.retain n2).ops = opsBaseLen a2.ops + n2 := by
      rw [(retain_semEq a2 n2).1, opsBaseLen_append]; simp [opsBaseLen]
    refine ⟨p1, p2, by rw [transformGo_RR_eq]; exact heq,
      fun hw => hw1 (retain_WF hw n2), fun hw => hw2 (retain_WF hw n2),
      by rw [hb1, e1]; simp [opsAfterLen]; omega,
      by rw [hb2, e2]; simp [opsAfterLen]; omega,
      fun cs => cs.take n2 ++ Z (cs.drop n2), ?_⟩
    intro cs da db hcs hda hdb
    simp only [opsBaseLen] at hcs
    obtain ⟨hZ1, hZ2⟩ := hZ (cs.drop n2) (da ++ cs.take n2) (db ++ cs.take n2)
      (by simp only [List.length_drop]; omega)
      (by rw [e1]; simp only [List.length_append, List.length_take]; omega)
      (by rw [e2]; simp only [List.length_append, List.length_take]; omega)
    constructor
    · rw [show applySimple (Operation.Retain n2 :: t2) cs
          = cs.take n2 ++ applySimple t2 (cs.drop n2) from rfl]
      rw [← List.append_assoc, hZ1,
        applySimple_acc_retain a1 n2 (cs.take n2) hda, List.take_take, min_self]
      simp only [List.append_assoc]
    · rw [show applySimple (Operation.Retain n2 :: t1) cs
          = cs.take n2 ++ applySimple t1 (cs.drop n2) from rfl]
      rw [← List.append_assoc, hZ2,
        applySimple_acc_retain a2 n2 (cs.take n2) hdb, List.take_take, min_self]
      simp only [List.append_assoc]
  | case8 n1 t1 n2 t2 a1 a2 hngt hne ih =>
    intro hp1 hp2 hlen
    have hlt : n1 < n2 := by omega
    obtain ⟨hpa1, hp1'⟩ := posOps_cons.mp hp1
    obtain ⟨hpa2, hp2'⟩ := posOps_cons.mp hp2
    simp only [opsBaseLen] at hlen
    have hq2 : PosOps (Operation.Retain (n2 - n1) :: t2) := by
      rw [posOps_cons]; exact ⟨by simp [posAtom]; omega, hp2'⟩
    have hlen' : opsBaseLen t1 = opsBaseLen (Operation.Retain (n2 - n1) :: t2) := by
      simp only [opsBaseLen]; omega
    obtain ⟨p1, p2, heq, hw1, hw2, hb1, hb2, Z, hZ⟩ := ih hp1' hq2 hlen'
    have e1 : opsBaseLen (a1.retain n1).ops = opsBaseLen a1.ops + n1 := by
      rw [(retain_semEq a1 n1).1, opsBaseLen_append]; simp [opsBaseLen]
    have e2 : opsBaseLen (a2.retain n1).ops = opsBaseLen a2.ops + n1 := by
      rw [(retain_semEq a2 n1).1, opsBaseLen_append]; simp [opsBaseLen]
    refine ⟨p1, p2, by rw [transformGo_RR_lt _ _ _ _ hlt]; exact heq,
      fun hw => hw1 (retain_WF hw n1), fun hw => hw2 (retain_WF hw n1),
      by rw [hb1, e1]; simp [opsAfterLen]; omega,
      by rw [hb2, e2]; simp [opsAfterLen]; omega,
      fun cs => cs.take n1 ++ Z (cs.drop n1), ?_⟩
    intro cs da db hcs hda hdb
    simp only [opsBaseLen] at hcs
    obtain ⟨hZ1, hZ2⟩ := hZ (cs.drop n1) (da ++ cs.take n1) (db ++ cs.take n1)
      (by simp only [List.length_drop, opsBaseLen]; omega)
      (by rw [e1]; simp only [List.length_append, List.length_take]; omega)
      (by rw [e2]; simp only [List.length_append, List.length_take]; omega)
    constructor
    · have eform : applySimple (Operation.Retain n2 :: t2) cs
          = cs.take n1 ++ applySimple (Operation.Retain (n2 - n1) :: t2) (cs.drop n1) := by
        rw [show applySimple (Operation.Retain n2 :: t2) cs
            = cs.take n2 ++ applySimple t2 (cs.drop n2) from rfl]
        rw [show applySimple (Operation.Retain (n2 - n1) :: t2) (cs.drop n1)
            = (cs.drop n1).take (n2 - n1)
              ++ applySimple t2 ((cs.drop n1).drop (n2 - n1)) from rfl]
        rw [show (cs.drop n1).drop (n2 - n1) = cs.drop n2 by
          rw [List.drop_drop]; congr 1; omega]
        rw [show cs.take n2 = cs.take n1 ++ (cs.drop n1).take (n2 - n1) by
          rw [← List.take_add]; congr 1; omega]
        simp only [List.append_assoc]
      rw [eform, ← List.append_assoc, hZ1,
        applySimple_acc_retain a1 n1 (cs.take n1) hda, List.take_take, min_self]
      simp only [List.append_assoc]
    · rw [show applySimple (Operation.Retain n1 :: t1) cs
          = cs.take n1 ++ applySimple t1 (cs.drop n1) from rfl]
      rw [← List.append_assoc, hZ2,
        applySimple_acc_retain a2 n1 (cs.take n1) hdb, List.take_take, min_self]
      simp only [List.append_assoc]
  | case9 n1 t1 n2 t2 a1 a2 hgt ih =>
    intro hp1 hp2 hlen
    obtain ⟨hpa1, hp1'⟩ := posOps_cons.mp hp1
    obtain ⟨hpa2, hp2'⟩ := posOps_cons.mp hp2
    simp only [opsBaseLen] at hlen
    have hq1 : PosOps (Operation.Delete (n1 - n2) :: t1) := by
      rw [posOps_cons]; exact ⟨by simp [posAtom]; omega, hp1'⟩
    have hlen' : opsBaseLen (Operation.Delete (n1 - n2) :: t1) = opsBaseLen t2 := by
      simp only [opsBaseLen]; omega
    obtain ⟨p1, p2, heq, hw1, hw2, hb1, hb2, Z, hZ⟩ := ih hq1 hp2' hlen'
    refine ⟨p1, p2, by rw [transformGo_DD_gt _ _ _ _ hgt]; exact heq,
      hw1, hw2,
      by rw [hb1]; simp [opsAfterLen],
      by rw [hb2]; simp [opsAfterLen],
      fun cs => Z (cs.drop n2), ?_⟩
    intro cs da db hcs hda hdb
    simp only [opsBaseLen] at hcs
    obtain ⟨hZ1, hZ2⟩ := hZ (cs.drop n2) da db
      (by simp only [List.length_drop, opsBaseLen]; omega) hda hdb
    constructor
    · rw [show applySimple (Operation.Delete n2 :: t2) cs
          = applySimple t2 (cs.drop n2) from rfl]
      exact hZ1
    · rw [show applySimple (Operation.Delete n1 :: t1) cs
          = applySimple t1 (cs.drop n1) from rfl]
      rw [show applySimple t1 (cs.drop n1)
          = applySimple (Operation.Delete (n1 - n2) :: t1) (cs.drop n2) by
        rw [show applySimple (Operation.Delete (n1 - n2) :: t1) (cs.drop n2)
            = applySimple t1 ((cs.drop n2).drop (n1 - n2)) from rfl]
        rw [show (cs.drop n2).drop (n1 - n2) = cs.drop n1 by
          rw [List.drop_drop]; congr 1; omega]]
      exact hZ2
  | case10 t1 n2 t2 a1 a2 hne ih =>
    intro hp1 hp2 hlen
    obtain ⟨hpa1, hp1'⟩ := posOps_cons.mp hp1
    obtain ⟨hpa2, hp2'⟩ := posOps_cons.mp hp2
    simp only [opsBaseLen] at hlen
    have hlen' : opsBaseLen t1 = opsBaseLen t2 := by omega
    obtain ⟨p1, p2, heq, hw1, hw2, hb1, hb2, Z, hZ⟩ := ih hp1' hp2' hlen'
    refine ⟨p1, p2, by rw [transformGo_DD_eq]; exact heq,
      hw1, hw2,
      by rw [hb1]; simp [opsAfterLen],
      by rw [hb2]; simp [opsAfterLen],
      fun cs => Z (cs.drop n2), ?_⟩
    intro cs da db hcs hda hdb
    simp only [opsBaseLen] at hcs
    obtain ⟨hZ1, hZ2⟩ := hZ (cs.drop n2) da db
      (by simp only [List.length_drop]; omega) hda hdb
    exact ⟨hZ1, hZ2⟩
  | case11 n1 t1 n2 t2 a1 a2 hngt hne ih =>
    intro hp1 hp2 hlen
    have hlt : n1 < n2 := by omega
    obtain ⟨hpa1, hp1'⟩ := posOps_cons.mp hp1
    obtain ⟨hpa2, hp2'⟩ := posOps_cons.mp hp2
    simp only [opsBaseLen] at hlen
    have hq2 : PosOps (Operation.Delete (n2 - n1) :: t2) := by
      rw [posOps_cons]; exact ⟨by simp [posAtom]; omega, hp2'⟩
    have hlen' : opsBaseLen t1 = opsBaseLen (Operation.Delete (n2 - n1) :: t2) := by
      simp only [opsBaseLen]; omega
    obtain ⟨p1, p2, heq, hw1, hw2, hb1, hb2, Z, hZ⟩ := ih hp1' hq2 hlen'
    refine ⟨p1, p2, by rw [transformGo_DD_lt _ _ _ _ hlt]; exact heq,
      hw1, hw2,
      by rw [hb1]; simp [opsAfterLen],
      by rw [hb2]; simp [opsAfterLen],
      fun cs => Z (cs.drop n1), ?_⟩
    intro cs da db hcs hda hdb
    simp only [opsBaseLen] at hcs
    obtain ⟨hZ1, hZ2⟩ := hZ (cs.drop n1) da db
      (by simp only [List.length_drop, opsBaseLen]; omega) hda hdb
    constructor
    · rw [show applySimple (Operation.Delete n2 :: t2) cs
          = applySimple t2 (cs.drop n2) from rfl]
      rw [show applySimple t2 (cs.drop n2)
          = applySimple (Operation.Delete (n2 - n1) :: t2) (cs.drop n1) by
        rw [show applySimple (Operation.Delete (n2 - n1) :: t2) (cs.drop n1)
            = applySimple t2 ((cs.drop n1).drop (n2 - n1)) from rfl]
        rw [show (cs.drop n1).drop (n2 - n1) = cs.drop n2 by
          rw [List.drop_drop]; congr 1; omega]]
      exact hZ1
    · rw [show applySimple (Operation.Delete n1 :: t1) cs
          = applySimple t1 (cs.drop n1) from rfl]
      exact hZ2
  | case12 n1 t1 n2 t2 a1 a2 hgt ih =>
    intro hp1 hp2 hlen
    obtain ⟨hpa1, hp1'⟩ := posOps_cons.mp hp1
    obtain ⟨hpa2, hp2'⟩ := posOps_cons.mp hp2
    simp only [opsBaseLen] at hlen
    have hq1 : PosOps (Operation.Delete (n1 - n2) :: t1) := by
      rw [posOps_cons]; exact ⟨by simp [posAtom]; omega, hp1'⟩
    have hlen' : opsBaseLen (Operation.Delete (n1 - n2) :: t1) = opsBaseLen t2 := by
      simp only [opsBaseLen]; omega
    obtain ⟨p1, p2, heq, hw1, hw2, hb1, hb2, Z, hZ⟩ := ih hq1 hp2' hlen'
    have e1 : opsBaseLen (a1.delete n2).ops = opsBaseLen a1.ops + n2 := by
      rw [(delete_semEq a1 n2).1, opsBaseLen_append]; simp [opsBaseLen]
    refine ⟨p1, p2, by rw [transformGo_DR_gt _ _ _ _ hgt]; exact heq,
      fun hw => hw1 (delete_WF hw n2), hw2,
      by rw [hb1, e1]; simp [opsAfterLen]; omega,
      by rw [hb2]; simp [opsAfterLen],
      fun cs => Z (cs.drop n2), ?_⟩
    intro cs da db hcs hda hdb
    simp only [opsBaseLen] at hcs
    obtain ⟨hZ1, hZ2⟩ := hZ (cs.drop n2) (da ++ cs.take n2) db
      (by simp only [List.length_drop, opsBaseLen]; omega)
      (by rw [e1]; simp only [List.length_append, List.length_take]; omega) hdb
    constructor
    · rw [show applySimple (Operation.Retain n2 :: t2) cs
          = cs.take n2 ++ applySimple t2 (cs.drop n2) from rfl]
      rw [← List.append_assoc, hZ1,
        applySimple_acc_delete a1 n2 (cs.take n2) hda]
    · rw [show applySimple (Operation.Delete n1 :: t1) cs
          = applySimple t1 (cs.drop n1) from rfl]
      rw [show applySimple t1 (cs.drop n1)
          = applySimple (Operation.Delete (n1 - n2) :: t1) (cs.drop n2) by
        rw [show applySimple (Operation.Delete (n1 - n2) :: t1) (cs.drop n2)
            = applySimple t1 ((cs.drop n2).drop (n1 - n2)) from rfl]
        rw [show (cs.drop n2).drop (n1 - n2) = cs.drop n1 by
          rw [List.drop_drop]; congr 1; omega]]
      exact hZ2
  | case13 t1 n2 t2 a1 a2 hne ih =>
    intro hp1 hp2 hlen
    obtain ⟨hpa1, hp1'⟩ := posOps_cons.mp hp1
    obtain ⟨hpa2, hp2'⟩ := posOps_cons.mp hp2
    simp only [opsBaseLen] at hlen
    have hlen' : opsBaseLen t1 = opsBaseLen t2 := by omega
    obtain ⟨p1, p2, heq, hw1, hw2, hb1, hb2, Z, hZ⟩ := ih hp1' hp2' hlen'
    have e1 : opsBaseLen (a1.delete n2).ops = opsBaseLen a1.ops + n2 := by
      rw [(delete_semEq a1 n2).1, opsBaseLen_append]; simp [opsBaseLen]
    refine ⟨p1, p2, by rw [transformGo_DR_eq]; exact heq,
      fun hw => hw1 (delete_WF hw n2), hw2,
      by rw [hb1, e1]; simp [opsAfterLen]; omega,
      by rw [hb2]; simp [opsAfterLen],
      fun cs => Z (cs.drop n2), ?_⟩
    intro cs da db hcs hda hdb
    simp only [opsBaseLen] at hcs
    obtain ⟨hZ1, hZ2⟩ := hZ (cs.drop n2) (da ++ cs.take n2) db
      (by simp only [List.length_drop]; omega)
      (by rw [e1]; simp only [List.length_append, List.length_take]; omega) hdb
    constructor
    · rw [show applySimple (Operation.Retain n2 :: t2) cs
          = cs.take n2 ++ applySimple t2 (cs.drop n2) from rfl]
      rw [← List.append_assoc, hZ1,
        applySimple_acc_delete a1 n2 (cs.take n2) hda]
    · rw [show applySimple (Operation.Delete n2 :: t1) cs
          = applySimple t1 (cs.drop n2) from rfl]
      exact hZ2
  | case14 n1 t1 n2 t2 a1 a2 hngt hne ih =>
    intro hp1 hp2 hlen
    have hlt : n1 < n2 := by omega
    obtain ⟨hpa1, hp1'⟩ := posOps_cons.mp hp1
    obtain ⟨hpa2, hp2'⟩ := posOps_cons.mp hp2
    simp only [opsBaseLen] at hlen
    have hq2 : PosOps (Operation.Retain (n2 - n1) :: t2) := by
      rw [posOps_cons]; exact ⟨by simp [posAtom]; omega, hp2'⟩
    have hlen' : opsBaseLen t1 = opsBaseLen (Operation.Retain (n2 - n1) :: t2) := by
      simp only [opsBaseLen]; omega
    obtain ⟨p1, p2, heq, hw1, hw2, hb1, hb2, Z, hZ⟩ := ih hp1' hq2 hlen'
    have e1 : opsBaseLen (a1.delete n1).ops = opsBaseLen a1.ops + n1 := by
      rw [(delete_semEq a1 n1).1, opsBaseLen_append]; simp [opsBaseLen]
    refine ⟨p1, p2, by rw [transformGo_DR_lt _ _ _ _ hlt]; exact heq,
      fun hw => hw1 (delete_WF hw n1), hw2,
      by rw [hb1, e1]; simp [opsAfterLen]; omega,
      by rw [hb2]; simp [opsAfterLen],
      fun cs => Z (cs.drop n1), ?_⟩
    intro cs da db hcs hda hdb
    simp only [opsBaseLen] at hcs
    obtain ⟨hZ1, hZ2⟩ := hZ (cs.drop n1) (da ++ cs.take n1) db
      (by simp only [List.length_drop, opsBaseLen]; omega)
      (by rw [e1]; simp only [List.length_append, List.length_take]; omega) hdb
    constructor
    · have eform : applySimple (Operation.Retain n2 :: t2) cs
          = cs.take n1 ++ applySimple (Operation.Retain (n2 - n1) :: t2) (cs.drop n1) := by
        rw [show applySimple (Operation.Retain n2 :: t2) cs
            = cs.take n2 ++ applySimple t2 (cs.drop n2) from rfl]
        rw [show applySimple (Operation.Retain (n2 - n1) :: t2) (cs.drop n1)
            = (cs.drop n1).take (n2 - n1)
              ++ applySimple t2 ((cs.drop n1).drop (n2 - n1)) from rfl]
        rw [show (cs.drop n1).drop (n2 - n1) = cs.drop n2 by
          rw [List.drop_drop]; congr 1; omega]
        rw [show cs.take n2 = cs.take n1 ++ (cs.drop n1).take (n2 - n1) by
          rw [← List.take_add]; congr 1; omega]
        simp only [List.append_assoc]
      rw [eform, ← List.append_assoc, hZ1,
        applySimple_acc_delete a1 n1 (cs.take n1) hda]
    · rw [show applySimple (Operation.Delete n1 :: t1) cs
          = applySimple t1 (cs.drop n1) from rfl]
      exact hZ2
  | case15 n1 t1 n2 t2 a1 a2 hgt ih =>
    intro hp1 hp2 hlen
    obtain ⟨hpa1, hp1'⟩ := posOps_cons.mp hp1
    obtain ⟨hpa2, hp2'⟩ := posOps_cons.mp hp2
    simp only [opsBaseLen] at hlen
    have hq1 : PosOps (Operation.Retain (n1 - n2) :: t1) := by
      rw [posOps_cons]; exact ⟨by simp [posAtom]; omega, hp1'⟩
    have hlen' : opsBaseLen (Operation.Retain (n1 - n2) :: t1) = opsBaseLen t2 := by
      simp only [opsBaseLen]; omega
    obtain ⟨p1, p2, heq, hw1, hw2, hb1, hb2, Z, hZ⟩ := ih hq1 hp2' hlen'
    have e2 : opsBaseLen (a2.delete n2).ops = opsBaseLen a2.ops + n2 := by
      rw [(delete_semEq a2 n2).1, opsBaseLen_append]; simp [opsBaseLen]
    refine ⟨p1, p2, by rw [transformGo_RD_gt _ _ _ _ hgt]; exact heq,
      hw1, fun hw => hw2 (delete_WF hw n2),
      by rw [hb1]; simp [opsAfterLen],
      by rw [hb2, e2]; simp [opsAfterLen]; omega,
      fun cs => Z (cs.drop n2), ?_⟩
    intro cs da db hcs hda hdb
    simp only [opsBaseLen] at hcs
    obtain ⟨hZ1, hZ2⟩ := hZ (cs.drop n2) da (db ++ cs.take n2)
      (by simp only [List.length_drop, opsBaseLen]; omega) hda
      (by rw [e2]; simp only [List.length_append, List.length_take]; omega)
    constructor
    · rw [show applySimple (Operation.Delete n2 :: t2) cs
          = applySimple t2 (cs.drop n2) from rfl]
      exact hZ1
    · have eform : applySimple (Operation.Retain n1 :: t1) cs
          = cs.take n2 ++ applySimple (Operation.Retain (n1 - n2) :: t1) (cs.drop n2) := by
        rw [show applySimple (Operation.Retain n1 :: t1) cs
            = cs.take n1 ++ applySimple t1 (cs.drop n1) from rfl]
        rw [show applySimple (Operation.Retain (n1 - n2) :: t1) (cs.drop n2)
            = (cs.drop n2).take (n1 - n2)
              ++ applySimple t1 ((cs.drop n2).drop (n1 - n2)) from rfl]
        rw [show (cs.drop n2).drop (n1 - n2) = cs.drop n1 by
          rw [List.drop_drop]; congr 1; omega]
        rw [show cs.take n1 = cs.take n2 ++ (cs.drop n2).take (n1 - n2) by
          rw [← List.take_add]; congr 1; omega]
        simp only [List.append_assoc]
      rw [eform, ← List.append_assoc, hZ2,
        applySimple_acc_delete a2 n2 (cs.take n2) hdb]
  | case16 t1 n2 t2 a1 a2 hne ih =>
    intro hp1 hp2 hlen
    obtain ⟨hpa1, hp1'⟩ := posOps_cons.mp hp1
    obtain ⟨hpa2, hp2'⟩ := posOps_cons.mp hp2
    simp only [opsBaseLen] at hlen
    have hlen' : opsBaseLen t1 = opsBaseLen t2 := by omega
    obtain ⟨p1, p2, heq, hw1, hw2, hb1, hb2, Z, hZ⟩ := ih hp1' hp2' hlen'
    have e2 : opsBaseLen (a2.delete n2).ops = opsBaseLen a2.ops + n2 := by
      rw [(delete_semEq a2 n2).1, opsBaseLen_append]; simp [opsBaseLen]
    refine ⟨p1, p2, by rw [transformGo_RD_eq]; exact heq,
      hw1, fun hw => hw2 (delete_WF hw n2),
      by rw [hb1]; simp [opsAfterLen],
      by rw [hb2, e2]; simp [opsAfterLen]; omega,
      fun cs => Z (cs.drop n2), ?_⟩
    intro cs da db hcs hda hdb
    simp only [opsBaseLen] at hcs
    obtain ⟨hZ1, hZ2⟩ := hZ (cs.drop n2) da (db ++ cs.take n2)
      (by simp only [List.length_drop]; omega) hda
      (by rw [e2]; simp only [List.length_append, List.length_take]; omega)
    constructor
    · rw [show applySimple (Operation.Delete n2 :: t2) cs
          = applySimple t2 (cs.drop n2) from rfl]
      exact hZ1
    · rw [show applySimple (Operation.Retain n2 :: t1) cs
          = cs.take n2 ++ applySimple t1 (cs.drop n2) from rfl]
      rw [← List.append_assoc, hZ2,
        applySimple_acc_delete a2 n2 (cs.take n2) hdb]
  | case17 n1 t1 n2 t2 a1 a2 hngt hne ih =>
    intro hp1 hp2 hlen
    have hlt : n1 < n2 := by omega
    obtain ⟨hpa1, hp1'⟩ := posOps_cons.mp hp1
    obtain ⟨hpa2, hp2'⟩ := posOps_cons.mp hp2
    simp only [opsBaseLen] at hlen
    have hq2 : PosOps (Operation.Delete (n2 - n1) :: t2) := by
      rw [posOps_cons]; exact ⟨by simp [posAtom]; omega, hp2'⟩
    have hlen' : opsBaseLen t1 = opsBaseLen (Operation.Delete (n2 - n1) :: t2) := by
      simp only [opsBaseLen]; omega
    obtain ⟨p1, p2, heq, hw1, hw2, hb1, hb2, Z, hZ⟩ := ih hp1' hq2 hlen'
    have e2 : opsBaseLen (a2.delete n1).ops = opsBaseLen a2.ops + n1 := by
      rw [(delete_semEq a2 n1).1, opsBaseLen_append]; simp [opsBaseLen]
    refine ⟨p1, p2, by rw [transformGo_RD_lt _ _ _ _ hlt]; exact heq,
      hw1, fun hw => hw2 (delete_WF hw n1),
      by rw [hb1]; simp [opsAfterLen],
      by rw [hb2, e2]; simp [opsAfterLen]; omega,
      fun cs => Z (cs.drop n1), ?_⟩
    intro cs da db hcs hda hdb
    simp only [opsBaseLen] at hcs
    obtain ⟨hZ1, hZ2⟩ := hZ (cs.drop n1) da (db ++ cs.take n1)
      (by simp only [List.length_drop, opsBaseLen]; omega) hda
      (by rw [e2]; simp only [List.length_append, List.length_take]; omega)
    constructor
    · rw [show applySimple (Operation.Delete n2 :: t2) cs
          = applySimple t2 (cs.drop n2) from rfl]
      rw [show applySimple t2 (cs.drop n2)
          = applySimple (Operation.Delete (n2 - n1) :: t2) (cs.drop n1) by
        rw [show applySimple (Operation.Delete (n2 - n1) :: t2) (cs.drop n1)
            = applySimple t2 ((cs.drop n1).drop (n2 - n1)) from rfl]
        rw [show (cs.drop n1).drop (n2 - n1) = cs.drop n2 by
          rw [List.drop_drop]; congr 1; omega]]
      exact hZ1
    · rw [show applySimple (Operation.Retain n1 :: t1) cs
          = cs.take n1 ++ applySimple t1 (cs.drop n1) from rfl]
      rw [← List.append_assoc, hZ2,
        applySimple_acc_delete a2 n1 (cs.take n1) hdb]

end TextOperation

theorem normOps_cons_iff {a : Operation} {l : List Operation} :
    NormOps (a :: l) ↔ posAtom a = true ∧
      (∀ b ∈ l.head?, okPair a b = true) ∧ NormOps l := by
  unfold NormOps
  rw [List.chain'_cons']
  simp only [List.forall_mem_cons]
  tauto

theorem okPair_left_retain (a b : Nat) (x : Operation) :
    okPair (Operation.Retain a) x = okPair (Operation.Retain b) x := by
  cases x <;> rfl

/-- A character different from the given one. -/
def otherChar (c : Char) : Char := if c = 'a' then 'b' else 'a'

theorem otherChar_ne (c : Char) : otherChar c ≠ c := by
  unfold otherChar
  split
  · next h => rw [h]; decide
  · next h => exact fun hh => h hh.symm

theorem applySimple_retain_head? {n : Nat} (hn : 0 < n) (u : List Operation)
    (c : Char) (v : List Char) :
    (applySimple (Operation.Retain n :: u) (c :: v)).head? = some c := by
  cases n with
  | zero => omega
  | succ n' => simp [applySimple]

/-- No normal-form list that does not start with an `Insert` can behave like
"always emit the fixed nonempty prefix `r` first". -/
theorem insert_shift_refute {xs : List Operation} (ys : List Operation)
    {r : List Char} (hr : r ≠ [])
    (hx : NormOps xs) (hxI : ∀ s t, xs ≠ Operation.Insert s :: t)
    (hsem : ∀ cs : List Char, cs.length = opsBaseLen xs →
      applySimple xs cs = r ++ applySimple ys cs) : False := by
  obtain ⟨rh, rt, rfl⟩ := List.exists_cons_of_ne_nil hr
  cases xs with
  | nil =>
    have h0 := hsem [] (by simp [opsBaseLen])
    simp [applySimple] at h0
  | cons a t =>
    obtain ⟨hpa, hlink, ht⟩ := normOps_cons_iff.mp hx
    cases a with
    | Insert s => exact hxI s t rfl
    | Retain n =>
      have hn : 0 < n := by simpa [posAtom] using hpa
      have hL1 : 1 ≤ opsBaseLen (Operation.Retain n :: t) := by
        simp only [opsBaseLen]; omega
      have hcs : (otherChar rh
          :: List.replicate (opsBaseLen (Operation.Retain n :: t) - 1) 'a').length
          = opsBaseLen (Operation.Retain n :: t) := by
        simp only [List.length_cons, List.length_replicate]; omega
      have h0 := hsem _ hcs
      have h1 := congrArg List.head? h0
      rw [applySimple_retain_head? hn] at h1
      rw [List.cons_append] at h1
      simp only [List.head?_cons, Option.some.injEq] at h1
      exact otherChar_ne rh h1
    | Delete k =>
      have hk : 0 < k := by simpa [posAtom] using hpa
      cases t with
      | nil =>
        have h0 := hsem (List.replicate k 'a') (by simp [opsBaseLen])
        rw [show applySimple [Operation.Delete k] (List.replicate k 'a')
            = applySimple [] ((List.replicate k 'a').drop k) from rfl] at h0
        simp [applySimple] at h0
      | cons b t' =>
        cases b with
        | Insert s =>
          have := hlink (Operation.Insert s) (by simp)
          simp [okPair] at this
        | Delete j =>
          have := hlink (Operation.Delete j) (by simp)
          simp [okPair] at this
        | Retain p =>
          have hp : 0 < p := by
            have := (normOps_cons_iff.mp ht).1
            simpa [posAtom] using this
          have hLk : k + 1 ≤ opsBaseLen
              (Operation.Delete k :: Operation.Retain p :: t') := by
            simp only [opsBaseLen]; omega
          set L := opsBaseLen (Operation.Delete k :: Operation.Retain p :: t') with hL
          have hlen : (List.replicate k 'a'
              ++ otherChar rh :: List.replicate (L - k - 1) 'a').length = L := by
            simp only [List.length_append, List.length_cons, List.length_replicate]
            omega
          have h0 := hsem _ hlen
          have hdrop : (List.replicate k 'a'
              ++ otherChar rh :: List.replicate (L - k - 1) 'a').drop k
              = otherChar rh :: List.replicate (L - k - 1) 'a' :=
            List.drop_left' (by simp)
          rw [show applySimple (Operation.Delete k :: Operation.Retain p :: t')
                (List.replicate k 'a'
                  ++ otherChar rh :: List.replicate (L - k - 1) 'a')
              = applySimple (Operation.Retain p :: t')
                ((List.replicate k 'a'
                  ++ otherChar rh :: List.replicate (L - k - 1) 'a').drop k)
              from rfl, hdrop] at h0
          have h1 := congrArg List.head? h0
          rw [applySimple_retain_head? hp] at h1
          rw [List.cons_append] at h1
          simp only [List.head?_cons, Option.some.injEq] at h1
          exact otherChar_ne rh h1

/-- A normal-form list that does not start with a `Retain` cannot behave like
`Retain d :: ys` for positive `d`. -/
theorem retain_mismatch {d : Nat} {xs ys : List Operation} (hd : 0 < d)
    (hx : NormOps xs) (hxR : ∀ n t, xs ≠ Operation.Retain n :: t)
    (hy : NormOps (Operation.Retain d :: ys))
    (hb : opsBaseLen xs = opsBaseLen (Operation.Retain d :: ys))
    (hsem : ∀ u : List Char, u.length = opsBaseLen xs →
      applySimple xs u = applySimple (Operation.Retain d :: ys) u) : False := by
  cases xs with
  | nil =>
    simp only [opsBaseLen] at hb
    omega
  | cons a t =>
    obtain ⟨hpa, hlink, ht⟩ := normOps_cons_iff.mp hx
    cases a with
    | Retain n => exact hxR n t rfl
    | Insert s =>
      have hs : s ≠ [] := by simpa [posAtom] using hpa
      refine insert_shift_refute t hs hy ?_ ?_
      · intro s' t' h
        exact Operation.noConfusion (List.head_eq_of_cons_eq h)
      · intro cs hcs
        have h0 := hsem cs (by rw [hb]; exact hcs)
        rw [show applySimple (Operation.Insert s :: t) cs
            = s ++ applySimple t cs from rfl] at h0
        exact h0.symm
    | Delete k =>
      have hk : 0 < k := by simpa [posAtom] using hpa
      cases t with
      | nil =>
        have hkd : d ≤ k := by
          simp only [opsBaseLen] at hb
          omega
        have h0 := hsem (List.replicate k 'a') (by simp [opsBaseLen])
        rw [show applySimple [Operation.Delete k] (List.replicate k 'a')
            = applySimple [] ((List.replicate k 'a').drop k) from rfl] at h0
        rw [show applySimple (Operation.Retain d :: ys) (List.replicate k 'a')
            = (List.replicate k 'a').take d
              ++ applySimple ys ((List.replicate k 'a').drop d) from rfl] at h0
        have hlen := congrArg List.length h0
        simp only [applySimple, List.length_nil, List.length_append,
          List.length_take, List.length_replicate] at hlen
        omega
      | cons b t' =>
        cases b with
        | Insert s =>
          have := hlink (Operation.Insert s) (by simp)
          simp [okPair] at this
        | Delete j =>
          have := hlink (Operation.Delete j) (by simp)
          simp [okPair] at this
        | Retain p =>
          have hp : 0 < p := by
            have := (normOps_cons_iff.mp ht).1
            simpa [posAtom] using this
          have hL1 : 1 ≤ opsBaseLen
              (Operation.Delete k :: Operation.Retain p :: t') := by
            simp only [opsBaseLen]; omega
          set L := opsBaseLen (Operation.Delete k :: Operation.Retain p :: t') with hL
          set v := List.replicate (L - 1) 'a' with hv
          have hlena : ('a' :: v).length = L := by
            simp only [hv, List.length_cons, List.length_replicate]; omega
          have hlenb : ('b' :: v).length = L := by
            simp only [hv, List.length_cons, List.length_replicate]; omega
          have ha := hsem ('a' :: v) hlena
          have hb2 := hsem ('b' :: v) hlenb
          have hdropa : ('a' :: v).drop k = v.drop (k - 1) := by
            cases k with
            | zero => omega
            | succ k' => simp [List.drop_succ_cons]
          have hdropb : ('b' :: v).drop k = v.drop (k - 1) := by
            cases k with
            | zero => omega
            | succ k' => simp [List.drop_succ_cons]
          rw [show applySimple (Operation.Delete k :: Operation.Retain p :: t')
                ('a' :: v)
              = applySimple (Operation.Retain p :: t') (('a' :: v).drop k)
              from rfl, hdropa] at ha
          rw [show applySimple (Operation.Delete k :: Operation.Retain p :: t')
                ('b' :: v)
              = applySimple (Operation.Retain p :: t') (('b' :: v).drop k)
              from rfl, hdropb] at hb2
          have heq := ha.symm.trans hb2
          have h1 := congrArg List.head? heq
          rw [applySimple_retain_head? hd, applySimple_retain_head? hd] at h1
          simp at h1

/-- A normal-form list that starts with neither `Delete` nor `Insert` cannot
behave like `Delete d :: ys` for positive `d`. -/
theorem delete_mismatch {d : Nat} {xs ys : List Operation} (hd : 0 < d)
    (hx : NormOps xs) (hxD : ∀ n t, xs ≠ Operation.Delete n :: t)
    (hxI : ∀ s t, xs ≠ Operation.Insert s :: t)
    (hb : opsBaseLen xs = opsBaseLen (Operation.Delete d :: ys))
    (hsem : ∀ u : List Char, u.length = opsBaseLen xs →
      applySimple xs u = applySimple (Operation.Delete d :: ys) u) : False := by
  cases xs with
  | nil =>
    simp only [opsBaseLen] at hb
    omega
  | cons a t =>
    obtain ⟨hpa, hlink, ht⟩ := normOps_cons_iff.mp hx
    cases a with
    | Delete n => exact hxD n t rfl
    | Insert s => exact hxI s t rfl
    | Retain p =>
      have hp : 0 < p := by simpa [posAtom] using hpa
      have hL1 : 1 ≤ opsBaseLen (Operation.Retain p :: t) := by
        simp only [opsBaseLen]; omega
      set L := opsBaseLen (Operation.Retain p :: t) with hL
      set v := List.replicate (L - 1) 'a' with hv
      have hlena : ('a' :: v).length = L := by
        simp only [hv, List.length_cons, List.length_replicate]; omega
      have hlenb : ('b' :: v).length = L := by
        simp only [hv, List.length_cons, List.length_replicate]; omega
      have ha := hsem ('a' :: v) hlena
      have hb2 := hsem ('b' :: v) hlenb
      have hdropa : ('a' :: v).drop d = v.drop (d - 1) := by
        cases d with
        | zero => omega
        | succ d' => simp [List.drop_succ_cons]
      have hdropb : ('b' :: v).drop d = v.drop (d - 1) := by
        cases d with
        | zero => omega
        | succ d' => simp [List.drop_succ_cons]
      rw [show applySimple (Operation.Delete d :: ys) ('a' :: v)
          = applySimple ys (('a' :: v).drop d) from rfl, hdropa] at ha
      rw [show applySimple (Operation.Delete d :: ys) ('b' :: v)
          = applySimple ys (('b' :: v).drop d) from rfl, hdropb] at hb2
      have heq := ha.trans hb2.symm
      have h1 := congrArg List.head? heq
      rw [applySimple_retain_head? hp, applySimple_retain_head? hp] at h1
      simp at h1

/-- Normal form is canonical: two normal-form atom lists consuming the same
base length and producing the same output on every base string of that
length are equal.  (Strong induction on total list length.) -/
theorem normOps_canonical_aux : ∀ (N : Nat) (xs ys : List Operation),
    xs.length + ys.length ≤ N → NormOps xs → NormOps ys →
    opsBaseLen xs = opsBaseLen ys →
    (∀ cs : List Char, cs.length = opsBaseLen xs →
      applySimple xs cs = applySimple ys cs) → xs = ys := by
  intro N
  induction N with
  | zero =>
    intro xs ys hn _ _ _ _
    have hx : xs = [] := List.eq_nil_of_length_eq_zero (by omega)
    have hy : ys = [] := List.eq_nil_of_length_eq_zero (by omega)
    rw [hx, hy]
  | succ N ih =>
    intro xs ys hn hx hy hb hsem
    cases xs with
    | nil =>
      cases ys with
      | nil => rfl
      | cons b ys' =>
        exfalso
        obtain ⟨hpb, hlinkb, hyb⟩ := normOps_cons_iff.mp hy
        cases b with
        | Retain m =>
          simp only [posAtom, decide_eq_true_eq] at hpb
          simp only [opsBaseLen] at hb
          omega
        | Delete m =>
          simp only [posAtom, decide_eq_true_eq] at hpb
          simp only [opsBaseLen] at hb
          omega
        | Insert s =>
          have hs : s ≠ [] := by simpa [posAtom] using hpb
          have h0 := hsem [] (by simp [opsBaseLen])
          rw [show applySimple (Operation.Insert s :: ys') ([] : List Char)
              = s ++ applySimple ys' [] from rfl] at h0
          rw [show applySimple ([] : List Operation) ([] : List Char)
              = [] from rfl] at h0
          obtain ⟨c, cr, rfl⟩ := List.exists_cons_of_ne_nil hs
          simp at h0
    | cons a xs' =>
      cases ys with
      | nil =>
        exfalso
        obtain ⟨hpa, hlinka, hxa⟩ := normOps_cons_iff.mp hx
        cases a with
        | Retain m =>
          simp only [posAtom, decide_eq_true_eq] at hpa
          simp only [opsBaseLen] at hb
          omega
        | Delete m =>
          simp only [posAtom, decide_eq_true_eq] at hpa
          simp only [opsBaseLen] at hb
          omega
        | Insert s =>
          have hs : s ≠ [] := by simpa [posAtom] using hpa
          have h0 := hsem [] (by simp only [opsBaseLen] at hb ⊢; simp; omega)
          rw [show applySimple (Operation.Insert s :: xs') ([] : List Char)
              = s ++ applySimple xs' [] from rfl] at h0
          rw [show applySimple ([] : List Operation) ([] : List Char)
              = [] from rfl] at h0
          obtain ⟨c, cr, rfl⟩ := List.exists_cons_of_ne_nil hs
          simp at h0
      | cons b ys' =>
        obtain ⟨hpa, hlinka, hxa⟩ := normOps_cons_iff.mp hx
        obtain ⟨hpb, hlinkb, hyb⟩ := normOps_cons_iff.mp hy
        cases a with
        | Insert s =>
          cases b with
          | Retain m =>
            exfalso
            have hs : s ≠ [] := by simpa [posAtom] using hpa
            refine insert_shift_refute xs' hs hy ?_ ?_
            · intro s' t' h
              exact Operation.noConfusion (List.head_eq_of_cons_eq h)
            · intro cs hcs
              have h0 := hsem cs (by rw [hb]; exact hcs)
              rw [show applySimple (Operation.Insert s :: xs') cs
                  = s ++ applySimple xs' cs from rfl] at h0
              exact h0.symm
          | Delete m =>
            exfalso
            have hs : s ≠ [] := by simpa [posAtom] using hpa
            refine insert_shift_refute xs' hs hy ?_ ?_
            · intro s' t' h
              exact Operation.noConfusion (List.head_eq_of_cons_eq h)
            · intro cs hcs
              have h0 := hsem cs (by rw [hb]; exact hcs)
              rw [show applySimple (Operation.Insert s :: xs') cs
                  = s ++ applySimple xs' cs from rfl] at h0
              exact h0.symm
          | Insert t =>
            have hs : s ≠ [] := by simpa [posAtom] using hpa
            have htne : t ≠ [] := by simpa [posAtom] using hpb
            have hbx : opsBaseLen (Operation.Insert s :: xs') = opsBaseLen xs' := by
              simp [opsBaseLen]
            have h0 := hsem (List.replicate (opsBaseLen xs') 'a')
              (by simp [opsBaseLen])
            rw [show applySimple (Operation.Insert s :: xs')
                  (List.replicate (opsBaseLen xs') 'a')
                = s ++ applySimple xs' (List.replicate (opsBaseLen xs') 'a')
                from rfl,
              show applySimple (Operation.Insert t :: ys')
                  (List.replicate (opsBaseLen xs') 'a')
                = t ++ applySimple ys' (List.replicate (opsBaseLen xs') 'a')
                from rfl] at h0
            rcases Nat.lt_trichotomy s.length t.length with hlt | heqn | hgt
            · exfalso
              have hpre : t.take s.length = s := by
                have h1 := congrArg (List.take s.length) h0
                rw [List.take_left' rfl,
                  List.take_append_of_le_length (by omega)] at h1
                exact h1.symm
              have ht2 : t = s ++ t.drop s.length := by
                conv_lhs => rw [← List.take_append_drop s.length t, hpre]
              have hrne : t.drop s.length ≠ [] := by
                intro hnil
                have := congrArg List.length hnil
                simp only [List.length_drop, List.length_nil] at this
                omega
              refine insert_shift_refute ys' hrne hxa ?_ ?_
              · intro s' t' h
                have := hlinka (Operation.Insert s') (by rw [h]; simp)
                simp [okPair] at this
              · intro cs hcs
                have h1 := hsem cs (by simp only [opsBaseLen]; exact hcs)
                rw [show applySimple (Operation.Insert s :: xs') cs
                    = s ++ applySimple xs' cs from rfl,
                  show applySimple (Operation.Insert t :: ys') cs
                    = t ++ applySimple ys' cs from rfl] at h1
                rw [ht2, List.append_assoc] at h1
                exact List.append_cancel_left h1
            · have hst : s = t := by
                have h1 := congrArg (List.take s.length) h0
                rw [List.take_left' rfl, List.take_left' heqn.symm] at h1
                exact h1
              subst hst
              have key : ∀ cs : List Char, cs.length = opsBaseLen xs' →
                  applySimple xs' cs = applySimple ys' cs := by
                intro cs hcs
                have h1 := hsem cs (by simp only [opsBaseLen]; exact hcs)
                rw [show applySimple (Operation.Insert s :: xs') cs
                    = s ++ applySimple xs' cs from rfl,
                  show applySimple (Operation.Insert s :: ys') cs
                    = s ++ applySimple ys' cs from rfl] at h1
                exact List.append_cancel_left h1
              have hrec := ih xs' ys' (by simp only [List.length_cons] at hn; omega)
                hxa hyb (by simpa [opsBaseLen] using hb) key
              rw [hrec]
            · exfalso
              have hpre : s.take t.length = t := by
                have h1 := congrArg (List.take t.length) h0
                rw [List.take_left' rfl,
                  List.take_append_of_le_length (by omega)] at h1
                exact h1
              have hs2 : s = t ++ s.drop t.length := by
                conv_lhs => rw [← List.take_append_drop t.length s, hpre]
              have hrne : s.drop t.length ≠ [] := by
                intro hnil
                have := congrArg List.length hnil
                simp only [List.length_drop, List.length_nil] at this
                omega
              refine insert_shift_refute xs' hrne hyb ?_ ?_
              · intro s' t' h
                have := hlinkb (Operation.Insert s') (by rw [h]; simp)
                simp [okPair] at this
              · intro cs hcs
                have h1 := hsem cs (by simp only [opsBaseLen] at hb ⊢; omega)
                rw [show applySimple (Operation.Insert s :: xs') cs
                    = s ++ applySimple xs' cs from rfl,
                  show applySimple (Operation.Insert t :: ys') cs
                    = t ++ applySimple ys' cs from rfl] at h1
                rw [hs2, List.append_assoc] at h1
                exact (List.append_cancel_left h1).symm
        | Retain n =>
          cases b with
          | Insert t =>
            exfalso
            have htne : t ≠ [] := by simpa [posAtom] using hpb
            refine insert_shift_refute ys' htne hx ?_ ?_
            · intro s' t' h
              exact Operation.noConfusion (List.head_eq_of_cons_eq h)
            · intro cs hcs
              have h0 := hsem cs hcs
              rw [show applySimple (Operation.Insert t :: ys') cs
                  = t ++ applySimple ys' cs from rfl] at h0
              exact h0
          | Delete m =>
            exfalso
            have hm : 0 < m := by simpa [posAtom] using hpb
            refine delete_mismatch hm hx ?_ ?_ hb hsem
            · intro n' t' h
              exact Operation.noConfusion (List.head_eq_of_cons_eq h)
            · intro s' t' h
              exact Operation.noConfusion (List.head_eq_of_cons_eq h)
          | Retain m =>
            have hn : 0 < n := by simpa [posAtom] using hpa
            have hm : 0 < m := by simpa [posAtom] using hpb
            simp only [opsBaseLen] at hb
            rcases Nat.lt_trichotomy n m with hlt | heqn | hgt
            · exfalso
              have key : ∀ u : List Char, u.length = opsBaseLen xs' →
                  applySimple xs' u
                    = applySimple (Operation.Retain (m - n) :: ys') u := by
                intro u hu
                have hcs : (List.replicate n 'a' ++ u).length
                    = opsBaseLen (Operation.Retain n :: xs') := by
                  simp only [List.length_append, List.length_replicate, opsBaseLen]
                  omega
                have h0 := hsem _ hcs
                rw [show applySimple (Operation.Retain n :: xs')
                      (List.replicate n 'a' ++ u)
                    = (List.replicate n 'a' ++ u).take n
                      ++ applySimple xs' ((List.replicate n 'a' ++ u).drop n)
                    from rfl,
                  show applySimple (Operation.Retain m :: ys')
                      (List.replicate n 'a' ++ u)
                    = (List.replicate n 'a' ++ u).take m
                      ++ applySimple ys' ((List.replicate n 'a' ++ u).drop m)
                    from rfl] at h0
                rw [List.take_left' (by simp), List.drop_left' (by simp)] at h0
                rw [show m = n + (m - n) by omega, List.take_add,
                  List.take_left' (by simp), List.drop_left' (by simp)] at h0
                rw [show (List.replicate n 'a' ++ u).drop (n + (m - n))
                    = u.drop (m - n) by
                  rw [show n + (m - n) = (List.replicate n 'a' : List Char).length
                        + (m - n) by simp]
                  exact List.drop_append (m - n)] at h0
                rw [List.append_assoc] at h0
                have h1 := List.append_cancel_left h0
                rw [h1]
                rfl
              have hxR : ∀ n' t', xs' ≠ Operation.Retain n' :: t' := by
                intro n' t' h
                have := hlinka (Operation.Retain n') (by rw [h]; simp)
                simp [okPair] at this
              have hyR : NormOps (Operation.Retain (m - n) :: ys') := by
                rw [normOps_cons_iff]
                refine ⟨by simp [posAtom]; omega, ?_, hyb⟩
                intro c hc
                rw [okPair_left_retain (m - n) m]
                exact hlinkb c hc
              exact retain_mismatch (by omega) hxa hxR hyR
                (by simp only [opsBaseLen]; omega) key
            · subst heqn
              have key : ∀ u : List Char, u.length = opsBaseLen xs' →
                  applySimple xs' u = applySimple ys' u := by
                intro u hu
                have hcs : (List.replicate n 'a' ++ u).length
                    = opsBaseLen (Operation.Retain n :: xs') := by
                  simp only [List.length_append, List.length_replicate, opsBaseLen]
                  omega
                have h0 := hsem _ hcs
                rw [show applySimple (Operation.Retain n :: xs')
                      (List.replicate n 'a' ++ u)
                    = (List.replicate n 'a' ++ u).take n
                      ++ applySimple xs' ((List.replicate n 'a' ++ u).drop n)
                    from rfl,
                  show applySimple (Operation.Retain n :: ys')
                      (List.replicate n 'a' ++ u)
                    = (List.replicate n 'a' ++ u).take n
                      ++ applySimple ys' ((List.replicate n 'a' ++ u).drop n)
                    from rfl] at h0
                rw [List.take_left' (by simp), List.drop_left' (by simp)] at h0
                exact List.append_cancel_left h0
              have hrec := ih xs' ys' (by simp only [List.length_cons] at hn; omega)
                hxa hyb (by omega) key
              rw [hrec]
            · exfalso
              have key : ∀ u : List Char, u.length = opsBaseLen ys' →
                  applySimple ys' u
                    = applySimple (Operation.Retain (n - m) :: xs') u := by
                intro u hu
                have hcs : (List.replicate m 'a' ++ u).length
                    = opsBaseLen (Operation.Retain n :: xs') := by
                  simp only [List.length_append, List.length_replicate, opsBaseLen]
                  omega
                have h0 := (hsem _ hcs).symm
                rw [show applySimple (Operation.Retain m :: ys')
                      (List.replicate m 'a' ++ u)
                    = (List.replicate m 'a' ++ u).take m
                      ++ applySimple ys' ((List.replicate m 'a' ++ u).drop m)
                    from rfl,
                  show applySimple (Operation.Retain n :: xs')
                      (List.replicate m 'a' ++ u)
                    = (List.replicate m 'a' ++ u).take n
                      ++ applySimple xs' ((List.replicate m 'a' ++ u).drop n)
                    from rfl] at h0
                rw [List.take_left' (by simp), List.drop_left' (by simp)] at h0
                rw [show n = m + (n - m) by omega, List.take_add,
                  List.take_left' (by simp), List.drop_left' (by simp)] at h0
                rw [show (List.replicate m 'a' ++ u).drop (m + (n - m))
                    = u.drop (n - m) by
                  rw [show m + (n - m) = (List.replicate m 'a' : List Char).length
                        + (n - m) by simp]
                  exact List.drop_append (n - m)] at h0
                rw [List.append_assoc] at h0
                have h1 := List.append_cancel_left h0
                rw [h1]
                rfl
              have hyRh : ∀ n' t', ys' ≠ Operation.Retain n' :: t' := by
                intro n' t' h
                have := hlinkb (Operation.Retain n') (by rw [h]; simp)
                simp [okPair] at this
              have hxRn : NormOps (Operation.Retain (n - m) :: xs') := by
                rw [normOps_cons_iff]
                refine ⟨by simp [posAtom]; omega, ?_, hxa⟩
                intro c hc
                rw [okPair_left_retain (n - m) n]
                exact hlinka c hc
              exact retain_mismatch (by omega) hyb hyRh hxRn
                (by simp only [opsBaseLen]; omega) key
        | Delete n =>
          cases b with
          | Insert t =>
            exfalso
            have htne : t ≠ [] := by simpa [posAtom] using hpb
            refine insert_shift_refute ys' htne hx ?_ ?_
            · intro s' t' h
              exact Operation.noConfusion (List.head_eq_of_cons_eq h)
            · intro cs hcs
              have h0 := hsem cs hcs
              rw [show applySimple (Operation.Insert t :: ys') cs
                  = t ++ applySimple ys' cs from rfl] at h0
              exact h0
          | Retain m =>
            exfalso
            have hm : 0 < m := by simpa [posAtom] using hpb
            exact retain_mismatch hm hx
              (fun n' t' h => Operation.noConfusion (List.head_eq_of_cons_eq h))
              hy hb hsem
          | Delete m =>
            have hn : 0 < n := by simpa [posAtom] using hpa
            have hm : 0 < m := by simpa [posAtom] using hpb
            simp only [opsBaseLen] at hb
            rcases Nat.lt_trichotomy n m with hlt | heqn | hgt
            · exfalso
              have key : ∀ u : List Char, u.length = opsBaseLen xs' →
                  applySimple xs' u
                    = applySimple (Operation.Delete (m - n) :: ys') u := by
                intro u hu
                have hcs : (List.replicate n 'a' ++ u).length
                    = opsBaseLen (Operation.Delete n :: xs') := by
                  simp only [List.length_append, List.length_replicate, opsBaseLen]
                  omega
                have h0 := hsem _ hcs
                rw [show applySimple (Operation.Delete n :: xs')
                      (List.replicate n 'a' ++ u)
                    = applySimple xs' ((List.replicate n 'a' ++ u).drop n)
                    from rfl,
                  show applySimple (Operation.Delete m :: ys')
                      (List.replicate n 'a' ++ u)
                    = applySimple ys' ((List.replicate n 'a' ++ u).drop m)
                    from rfl] at h0
                rw [List.drop_left' (by simp)] at h0
                rw [show (List.replicate n 'a' ++ u).drop m = u.drop (m - n) by
                  conv_lhs => rw [show m = (List.replicate n 'a' : List Char).length
                        + (m - n) by simp; omega]
                  exact List.drop_append (m - n)] at h0
                rw [h0]
                rfl
              have hxD : ∀ n' t', xs' ≠ Operation.Delete n' :: t' := by
                intro n' t' h
                have := hlinka (Operation.Delete n') (by rw [h]; simp)
                simp [okPair] at this
              have hxI : ∀ s' t', xs' ≠ Operation.Insert s' :: t' := by
                intro s' t' h
                have := hlinka (Operation.Insert s') (by rw [h]; simp)
                simp [okPair] at this
              exact delete_mismatch (by omega) hxa hxD hxI
                (by simp only [opsBaseLen]; omega) key
            · subst heqn
              have key : ∀ u : List Char, u.length = opsBaseLen xs' →
                  applySimple xs' u = applySimple ys' u := by
                intro u hu
                have hcs : (List.replicate n 'a' ++ u).length
                    = opsBaseLen (Operation.Delete n :: xs') := by
                  simp only [List.length_append, List.length_replicate, opsBaseLen]
                  omega
                have h0 := hsem _ hcs
                rw [show applySimple (Operation.Delete n :: xs')
                      (List.replicate n 'a' ++ u)
                    = applySimple xs' ((List.replicate n 'a' ++ u).drop n)
                    from rfl,
                  show applySimple (Operation.Delete n :: ys')
                      (List.replicate n 'a' ++ u)
                    = applySimple ys' ((List.replicate n 'a' ++ u).drop n)
                    from rfl] at h0
                rw [List.drop_left' (by simp)] at h0
                exact h0
              have hrec := ih xs' ys' (by simp only [List.length_cons] at hn; omega)
                hxa hyb (by omega) key
              rw [hrec]
            · exfalso
              have key : ∀ u : List Char, u.length = opsBaseLen ys' →
                  applySimple ys' u
                    = applySimple (Operation.Delete (n - m) :: xs') u := by
                intro u hu
                have hcs : (List.replicate m 'a' ++ u).length
                    = opsBaseLen (Operation.Delete n :: xs') := by
                  simp only [List.length_append, List.length_replicate, opsBaseLen]
                  omega
                have h0 := (hsem _ hcs).symm
                rw [show applySimple (Operation.Delete m :: ys')
                      (List.replicate m 'a' ++ u)
                    = applySimple ys' ((List.replicate m 'a' ++ u).drop m)
                    from rfl,
                  show applySimple (Operation.Delete n :: xs')
                      (List.replicate m 'a' ++ u)
                    = applySimple xs' ((List.replicate m 'a' ++ u).drop n)
                    from rfl] at h0
                rw [List.drop_left' (by simp)] at h0
                rw [show (List.replicate m 'a' ++ u).drop n = u.drop (n - m) by
                  conv_lhs => rw [show n = (List.replicate m 'a' : List Char).length
                        + (n - m) by simp; omega]
                  exact List.drop_append (n - m)] at h0
                rw [h0]
                rfl
              have hyD : ∀ n' t', ys' ≠ Operation.Delete n' :: t' := by
                intro n' t' h
                have := hlinkb (Operation.Delete n') (by rw [h]; simp)
                simp [okPair] at this
              have hyI : ∀ s' t', ys' ≠ Operation.Insert s' :: t' := by
                intro s' t' h
                have := hlinkb (Operation.Insert s') (by rw [h]; simp)
                simp [okPair] at this
              exact delete_mismatch (by omega) hyb hyD hyI
                (by simp only [opsBaseLen]; omega) key

/-- Canonicity of normal form. -/
theorem normOps_canonical {xs ys : List Operation} (hx : NormOps xs)
    (hy : NormOps ys) (hb : opsBaseLen xs = opsBaseLen ys)
    (hsem : ∀ cs : List Char, cs.length = opsBaseLen xs →
      applySimple xs cs = applySimple ys cs) : xs = ys :=
  normOps_canonical_aux (xs.length + ys.length) xs ys le_rfl hx hy hb hsem

theorem TextOperation.ext' {x y : TextOperation} (h1 : x.ops = y.ops)
    (h2 : x.base_length = y.base_length) (h3 : x.after_length = y.after_length) :
    x = y := by
  cases x
  cases y
  simp_all

namespace TextOperation

theorem transform_sem {A B : TextOperation} (hA : WF A) (hB : WF B)
    (hlen : A.base_length = B.base_length) :
    ∃ p1 p2, A.transform B = Except.ok (p1, p2) ∧ WF p1 ∧ WF p2 ∧
      p1.base_length = B.after_length ∧ p2.base_length = A.after_length ∧
      ∃ Z : List Char → List Char, ∀ cs : List Char, cs.length = A.base_length →
        applySimple p1.ops (applySimple B.ops cs) = Z cs ∧
        applySimple p2.ops (applySimple A.ops cs) = Z cs := by
  obtain ⟨p1, p2, heq, hw1, hw2, hb1, hb2, Z, hZ⟩ :=
    transformGo_sem A.ops B.ops new new hA.1.1 hB.1.1
      (by rw [← hA.2.1, ← hB.2.1]; exact hlen)
  have hwf1 : WF p1 := hw1 new_WF
  have hwf2 : WF p2 := hw2 new_WF
  refine ⟨p1, p2, ?_, hwf1, hwf2, ?_, ?_, Z, ?_⟩
  · unfold transform
    rw [if_neg (by omega)]
    exact heq
  · rw [hwf1.2.1, hb1, hB.2.2]
    simp [new, opsBaseLen]
  · rw [hwf2.2.1, hb2, hA.2.2]
    simp [new, opsBaseLen]
  · intro cs hcs
    obtain ⟨h1, h2⟩ := hZ cs [] [] (by rw [hcs, hA.2.1])
      (by simp [new, opsBaseLen]) (by simp [new, opsBaseLen])
    rw [List.nil_append] at h1 h2
    simp only [new, applySimple, List.nil_append] at h1 h2
    exact ⟨h1, h2⟩

/-- A well-formed operation with `base_length = 0` is empty or one insert. -/
theorem ops_of_base_zero {B : TextOperation} (hB : WF B) (h : B.base_length = 0) :
    B.ops = [] ∨ ∃ s, s ≠ [] ∧ B.ops = [Operation.Insert s] := by
  obtain ⟨⟨hpos, hchain⟩, hbase, hafter⟩ := hB
  rw [h] at hbase
  cases hops : B.ops with
  | nil => exact Or.inl rfl
  | cons a t =>
    rw [hops] at hbase hpos hchain
    cases a with
    | Retain n =>
      have := hpos (Operation.Retain n) (by simp)
      simp only [posAtom, decide_eq_true_eq] at this
      simp only [opsBaseLen] at hbase
      omega
    | Delete n =>
      have := hpos (Operation.Delete n) (by simp)
      simp only [posAtom, decide_eq_true_eq] at this
      simp only [opsBaseLen] at hbase
      omega
    | Insert s =>
      have hs : s ≠ [] := by
        have := hpos (Operation.Insert s) (by simp)
        simpa [posAtom] using this
      refine Or.inr ⟨s, hs, ?_⟩
      cases ht : t with
      | nil => rfl
      | cons b t' =>
        exfalso
        rw [ht] at hbase hpos hchain
        cases b with
        | Retain n =>
          have := hpos (Operation.Retain n) (by simp)
          simp only [posAtom, decide_eq_true_eq] at this
          simp only [opsBaseLen] at hbase
          omega
        | Delete n =>
          have := hpos (Operation.Delete n) (by simp)
          simp only [posAtom, decide_eq_true_eq] at this
          simp only [opsBaseLen] at hbase
          omega
        | Insert s' =>
          have := List.chain'_cons.mp hchain
          simp [okPair] at this

/-- A well-formed operation with `after_length = 0` is empty or one delete. -/
theorem ops_of_after_zero {B : TextOperation} (hB : WF B) (h : B.after_length = 0) :
    B.ops = [] ∨ ∃ n, 0 < n ∧ B.ops = [Operation.Delete n] := by
  obtain ⟨⟨hpos, hchain⟩, hbase, hafter⟩ := hB
  rw [h] at hafter
  cases hops : B.ops with
  | nil => exact Or.inl rfl
  | cons a t =>
    rw [hops] at hafter hpos hchain
    cases a with
    | Retain n =>
      have := hpos (Operation.Retain n) (by simp)
      simp only [posAtom, decide_eq_true_eq] at this
      simp only [opsAfterLen] at hafter
      omega
    | Insert s =>
      have hs : s ≠ [] := by
        have := hpos (Operation.Insert s) (by simp)
        simpa [posAtom] using this
      simp only [opsAfterLen] at hafter
      exact absurd (List.length_eq_zero.mp (by omega)) hs
    | Delete n =>
      have hn : 0 < n := by
        have := hpos (Operation.Delete n) (by simp)
        simpa [posAtom] using this
      refine Or.inr ⟨n, hn, ?_⟩
      cases ht : t with
      | nil => rfl
      | cons b t' =>
        exfalso
        rw [ht] at hafter hpos hchain
        cases b with
        | Retain m =>
          have := hpos (Operation.Retain m) (by simp [List.mem_cons])
          simp only [posAtom, decide_eq_true_eq] at this
          simp only [opsAfterLen] at hafter
          omega
        | Insert s' =>
          have := List.chain'_cons.mp hchain
          simp [okPair] at this
        | Delete m =>
          have := List.chain'_cons.mp hchain
          simp [okPair] at this

end TextOperation

namespace TextOperation

theorem new_insert_eq_of {B : TextOperation} {s : List Char} (wfB : WF B)
    (h0 : B.base_length = 0) (hs : s ≠ []) (hops : B.ops = [Operation.Insert s]) :
    new.insert s = B := by
  refine TextOperation.ext' ?_ ?_ ?_
  · rw [hops]
    simp [TextOperation.insert, hs, new]
  · rw [insert_base_length, h0]
    rfl
  · rw [insert_after_length, wfB.2.2, hops]
    simp [new, opsAfterLen]

theorem new_delete_eq_of {B : TextOperation} {n : Nat} (wfB : WF B)
    (h0 : B.after_length = 0) (hn : 0 < n) (hops : B.ops = [Operation.Delete n]) :
    new.delete n = B := by
  refine TextOperation.ext' ?_ ?_ ?_
  · rw [hops]
    simp only [TextOperation.delete]
    rw [if_neg (by omega)]
    rfl
  · rw [delete_base_length, wfB.2.1, hops]
    simp [new, opsBaseLen]
  · rw [delete_after_length, h0]
    rfl

end TextOperation

open TextOperation in
/-- C2: for builder-constructed `A`, `B` with `A.after_length = B.base_length`,
`compose` succeeds with an operation `C` such that for every base string `s`
of `A`'s base length, `C.apply s = B.apply (A.apply s)`. -/
theorem claim_C2 (A B : TextOperation) (s : List Char) (hA : Built A) (hB : Built B)
    (hlen : A.after_length = B.base_length) (hs : s.length = A.base_length) :
    ∃ C r1 r2, A.compose B = some (Except.ok C) ∧
      A.apply s = some (Except.ok r1) ∧ B.apply r1 = some (Except.ok r2) ∧
      C.apply s = some (Except.ok r2) := by
  have wfA := Built.wf hA
  have wfB := Built.wf hB
  obtain ⟨C, hC, wfC, hCb, hCa, hsem⟩ := compose_sem wfA wfB hlen
  have hr1 : A.apply s = some (Except.ok (applySimple A.ops s)) :=
    apply_eq wfA.2.1 hs
  have hr1len : (applySimple A.ops s).length = B.base_length := by
    rw [applySimple_length (by rw [← wfA.2.1, ← hs]), ← wfA.2.2]
    exact hlen
  have hr2 : B.apply (applySimple A.ops s)
      = some (Except.ok (applySimple B.ops (applySimple A.ops s))) :=
    apply_eq wfB.2.1 hr1len
  have hr3 : C.apply s = some (Except.ok (applySimple C.ops s)) :=
    apply_eq wfC.2.1 (by rw [hs, hCb])
  refine ⟨C, applySimple A.ops s, applySimple B.ops (applySimple A.ops s),
    hC, hr1, hr2, ?_⟩
  rw [hr3, hsem s hs]

open TextOperation in
/-- C2 witness at a concrete instance. -/
theorem claim_C2_witness : ∃ C r1 r2,
    (build [BuildStep.retain 1, BuildStep.insert ['1', '2', '3'], BuildStep.delete 1,
      BuildStep.retain 1]).compose
      (build [BuildStep.retain 2, BuildStep.insert ['$'], BuildStep.delete 1,
        BuildStep.retain 2]) = some (Except.ok C) ∧
    (build [BuildStep.retain 1, BuildStep.insert ['1', '2', '3'], BuildStep.delete 1,
      BuildStep.retain 1]).apply ['a', 'b', 'c'] = some (Except.ok r1) ∧
    (build [BuildStep.retain 2, BuildStep.insert ['$'], BuildStep.delete 1,
      BuildStep.retain 2]).apply r1 = some (Except.ok r2) ∧
    C.apply ['a', 'b', 'c'] = some (Except.ok r2) :=
  claim_C2 _ _ ['a', 'b', 'c'] ⟨_, rfl⟩ ⟨_, rfl⟩ (by decide) (by decide)

open TextOperation in
/-- C3: for builder-constructed `A` and base `s` of matching code-point
length, `invert` undoes `apply`, and the inverse swaps the two lengths. -/
theorem claim_C3 (A : TextOperation) (s : List Char) (hA : Built A)
    (hs : s.length = A.base_length) :
    ∃ Ainv r, A.invert s = some (Except.ok Ainv) ∧
      A.apply s = some (Except.ok r) ∧ Ainv.apply r = some (Except.ok s) ∧
      Ainv.base_length = A.after_length ∧ Ainv.after_length = A.base_length := by
  have wfA := Built.wf hA
  obtain ⟨R, hR, wfR, hsem⟩ := invert_sem wfA hs
  have hbl : opsBaseLen A.ops = s.length := (hs.trans wfA.2.1).symm
  have hr : A.apply s = some (Except.ok (applySimple A.ops s)) :=
    apply_eq wfA.2.1 hs
  have hRb : R.base_length = A.after_length := by
    rw [wfR.2.1, hsem.1, invSimple_baseLen, ← wfA.2.2]
  have hRa : R.after_length = A.base_length := by
    rw [wfR.2.2, hsem.2.1, invSimple_afterLen (le_of_eq hbl), ← wfA.2.1]
  have hrlen : (applySimple A.ops s).length = R.base_length := by
    rw [applySimple_length (le_of_eq hbl), hRb, ← wfA.2.2]
  have happR : R.apply (applySimple A.ops s)
      = some (Except.ok (applySimple R.ops (applySimple A.ops s))) :=
    apply_eq wfR.2.1 hrlen
  refine ⟨R, applySimple A.ops s, hR, hr, ?_, hRb, hRa⟩
  rw [happR, hsem.2.2, invSimple_correct hbl]

open TextOperation in
/-- C3 witness at spec scenario S1. -/
theorem claim_C3_witness : ∃ Ainv r,
    (build [BuildStep.retain 1, BuildStep.delete 1, BuildStep.retain 1,
      BuildStep.insert ['d']]).invert ['a', 'b', 'c'] = some (Except.ok Ainv) ∧
    (build [BuildStep.retain 1, BuildStep.delete 1, BuildStep.retain 1,
      BuildStep.insert ['d']]).apply ['a', 'b', 'c'] = some (Except.ok r) ∧
    Ainv.apply r = some (Except.ok ['a', 'b', 'c']) ∧
    Ainv.base_length = (build [BuildStep.retain 1, BuildStep.delete 1,
      BuildStep.retain 1, BuildStep.insert ['d']]).after_length ∧
    Ainv.after_length = (build [BuildStep.retain 1, BuildStep.delete 1,
      BuildStep.retain 1, BuildStep.insert ['d']]).base_length :=
  claim_C3 _ ['a', 'b', 'c'] ⟨_, rfl⟩ (by decide)

open TextOperation in
/-- C4: for builder-constructed `A` and base string whose count of Unicode
scalar values (here: `List Char` length) equals `A.base_length`, `apply`
succeeds and the result has exactly `A.after_length` scalar values. -/
theorem claim_C4 (A : TextOperation) (s : List Char) (hA : Built A)
    (hs : s.length = A.base_length) :
    ∃ r, A.apply s = some (Except.ok r) ∧ r.length = A.after_length := by
  have wfA := Built.wf hA
  refine ⟨applySimple A.ops s, apply_eq wfA.2.1 hs, ?_⟩
  rw [applySimple_length (by rw [← wfA.2.1, ← hs]), ← wfA.2.2]

open TextOperation in
/-- C4 witness at spec scenario S4 (supplementary-plane input). -/
theorem claim_C4_witness : ∃ r,
    (build [BuildStep.retain 1, BuildStep.delete 1, BuildStep.insert ['a'],
      BuildStep.retain 1]).apply ['中', '😂', '文'] = some (Except.ok r) ∧
    r.length = (build [BuildStep.retain 1, BuildStep.delete 1,
      BuildStep.insert ['a'], BuildStep.retain 1]).after_length :=
  claim_C4 _ ['中', '😂', '文'] ⟨_, rfl⟩ (by decide)

open TextOperation in
/-- C5: after any finite sequence of builder calls, the atom list is in
normal form (no degenerate atom, no adjacent same-variant atoms, never
`Delete` immediately followed by `Insert`) and both cached length counters
equal the sums defined over the atoms. -/
theorem claim_C5 (steps : List BuildStep) :
    PosOps (build steps).ops ∧
    List.Chain' (fun a b => okPair a b = true) (build steps).ops ∧
    (build steps).base_length = opsBaseLen (build steps).ops ∧
    (build steps).after_length = opsAfterLen (build steps).ops := by
  obtain ⟨⟨h1, h2⟩, h3, h4⟩ := build_WF steps
  exact ⟨h1, h2, h3, h4⟩

open TextOperation in
/-- C9: for a builder-constructed operation, `apply` and `invert` never hit
the `unwrap` panics inside `chars_take`/`chars_skip` (the cursor bound and
length checks run first), and `compose` never panics either; each returns a
value or a documented error (`none` models a panic). -/
theorem claim_C9 (t other : TextOperation) (base : List Char) (_h : Built t) :
    t.apply base ≠ none ∧ t.invert base ≠ none ∧
    t.compose other ≠ none ∧ other.compose t ≠ none :=
  ⟨apply_ne_none t base, invert_ne_none t base,
    compose_ne_none t other, compose_ne_none other t⟩

open TextOperation in
/-- C9 witness at a concrete operation and input. -/
theorem claim_C9_witness :
    (build [BuildStep.retain 1, BuildStep.delete 1]).apply ['a'] ≠ none ∧
    (build [BuildStep.retain 1, BuildStep.delete 1]).invert ['a'] ≠ none ∧
    (build [BuildStep.retain 1, BuildStep.delete 1]).compose new ≠ none ∧
    new.compose (build [BuildStep.retain 1, BuildStep.delete 1]) ≠ none :=
  claim_C9 _ new ['a'] ⟨_, rfl⟩

open TextOperation in
/-- C10: for builder-constructed `A`, `B` with `A.after_length =
B.base_length`, the composed operation has `A`'s base length and `B`'s
after length. -/
theorem claim_C10 (A B : TextOperation) (hA : Built A) (hB : Built B)
    (hlen : A.after_length = B.base_length) :
    ∃ C, A.compose B = some (Except.ok C) ∧
      C.base_length = A.base_length ∧ C.after_length = B.after_length := by
  obtain ⟨C, hC, -, hCb, hCa, -⟩ := compose_sem (Built.wf hA) (Built.wf hB) hlen
  exact ⟨C, hC, hCb, hCa⟩

open TextOperation in
/-- C10 witness at a concrete instance. -/
theorem claim_C10_witness : ∃ C,
    (build [BuildStep.insert ['x'], BuildStep.retain 2]).compose
      (build [BuildStep.delete 1, BuildStep.retain 2]) = some (Except.ok C) ∧
    C.base_length = (build [BuildStep.insert ['x'], BuildStep.retain 2]).base_length ∧
    C.after_length = (build [BuildStep.delete 1, BuildStep.retain 2]).after_length :=
  claim_C10 _ _ ⟨_, rfl⟩ ⟨_, rfl⟩ (by decide)

open TextOperation in
/-- C1: for builder-constructed `A`, `B` over the same base string `s`,
`transform` succeeds with `(A', B')` such that `A.compose B'` and
`B.compose A'` are structurally equal, and applying either composition to
`s` yields the same string. -/
theorem claim_C1 (A B : TextOperation) (s : List Char) (hA : Built A) (hB : Built B)
    (hsA : s.length = A.base_length) (hsB : s.length = B.base_length) :
    ∃ Ap Bp Cab Cba r, A.transform B = Except.ok (Ap, Bp) ∧
      A.compose Bp = some (Except.ok Cab) ∧ B.compose Ap = some (Except.ok Cba) ∧
      Cab = Cba ∧ Cab.apply s = some (Except.ok r) ∧ Cba.apply s = some (Except.ok r) := by
  have wfA := Built.wf hA
  have wfB := Built.wf hB
  obtain ⟨p1, p2, heq, wf1, wf2, hb1, hb2, Z, hZ⟩ := transform_sem wfA wfB (by omega)
  obtain ⟨Cab, hCab, wfCab, hCabb, hCaba, hsem1⟩ := compose_sem wfA wf2 hb2.symm
  obtain ⟨Cba, hCba, wfCba, hCbab, hCbaa, hsem2⟩ := compose_sem wfB wf1 hb1.symm
  have hCeq : Cab = Cba := by
    have hopseq : Cab.ops = Cba.ops := by
      apply normOps_canonical wfCab.1 wfCba.1
      · rw [← wfCab.2.1, ← wfCba.2.1, hCabb, hCbab]
        omega
      · intro cs hcs
        rw [← wfCab.2.1, hCabb] at hcs
        have hcsB : cs.length = B.base_length := by omega
        obtain ⟨hz1, hz2⟩ := hZ cs hcs
        rw [hsem1 cs hcs, hsem2 cs hcsB, hz2, hz1]
    exact TextOperation.ext' hopseq (by omega)
      (by rw [wfCab.2.2, wfCba.2.2, hopseq])
  have happ : Cab.apply s = some (Except.ok (applySimple Cab.ops s)) :=
    apply_eq wfCab.2.1 (by rw [hsA, hCabb])
  refine ⟨p1, p2, Cab, Cba, applySimple Cab.ops s, heq, hCab, hCba, hCeq, happ, ?_⟩
  rw [← hCeq]
  exact happ

open TextOperation in
/-- C1 witness at a concrete pair of concurrent edits of `"abc"`. -/
theorem claim_C1_witness : ∃ Ap Bp Cab Cba r,
    (build [BuildStep.retain 1, BuildStep.insert ['!'], BuildStep.delete 1,
      BuildStep.retain 1]).transform
      (build [BuildStep.insert ['y'], BuildStep.retain 3]) = Except.ok (Ap, Bp) ∧
    (build [BuildStep.retain 1, BuildStep.insert ['!'], BuildStep.delete 1,
      BuildStep.retain 1]).compose Bp = some (Except.ok Cab) ∧
    (build [BuildStep.insert ['y'], BuildStep.retain 3]).compose Ap
      = some (Except.ok Cba) ∧
    Cab = Cba ∧ Cab.apply ['a', 'b', 'c'] = some (Except.ok r) ∧
    Cba.apply ['a', 'b', 'c'] = some (Except.ok r) :=
  claim_C1 _ _ ['a', 'b', 'c'] ⟨_, rfl⟩ ⟨_, rfl⟩ (by decide) (by decide)

open TextOperation in
/-- C6: evaluation at a concrete failing input. `A = retain(1).insert("a").retain(2)`
over `"abc"` and `B = retain(2).insert("b").retain(2)` over `A.apply("abc") = "aabc"`
are admissible at consecutive states, yet `should_be_composed_with A B = true`
while `should_be_composed_with_inverted (B.invert "aabc") (A.invert "abc") = false`,
so the claimed identity between the two heuristics fails. -/
theorem claim_C6 :
    (build [BuildStep.retain 1, BuildStep.insert ['a'], BuildStep.retain 2]).apply
        ['a', 'b', 'c'] = some (Except.ok ['a', 'a', 'b', 'c']) ∧
    (build [BuildStep.retain 2, BuildStep.insert ['b'], BuildStep.retain 2]).apply
        ['a', 'a', 'b', 'c'] = some (Except.ok ['a', 'a', 'b', 'b', 'c']) ∧
    (build [BuildStep.retain 1, BuildStep.insert ['a'], BuildStep.retain 2]).invert
        ['a', 'b', 'c'] = some (Except.ok
          ⟨[Operation.Retain 1, Operation.Delete 1, Operation.Retain 2], 4, 3⟩) ∧
    (build [BuildStep.retain 2, BuildStep.insert ['b'], BuildStep.retain 2]).invert
        ['a', 'a', 'b', 'c'] = some (Except.ok
          ⟨[Operation.Retain 2, Operation.Delete 1, Operation.Retain 2], 5, 4⟩) ∧
    (build [BuildStep.retain 1, BuildStep.insert ['a'], BuildStep.retain 2]).should_be_composed_with
      (build [BuildStep.retain 2, BuildStep.insert ['b'], BuildStep.retain 2]) = true ∧
    should_be_composed_with_inverted
      ⟨[Operation.Retain 2, Operation.Delete 1, Operation.Retain 2], 5, 4⟩
      ⟨[Operation.Retain 1, Operation.Delete 1, Operation.Retain 2], 4, 3⟩ = false := by
  decide

open TextOperation in
/-- C7: in `transform`, an `Insert` head of the first operation always wins
the tie-break (it is emitted into the first output together with a matching
`Retain` in the second, whatever the second operation's head is); at spec
scenario S3 the transformed pair and both cross-compositions applied to
`"abc"` are exactly as claimed. -/
theorem claim_C7 :
    (∀ (s1 : List Char) (t1 ops2 : List Operation) (a1 a2 : TextOperation),
      transformGo (Operation.Insert s1 :: t1) ops2 a1 a2
        = transformGo t1 ops2 (a1.insert s1) (a2.retain s1.length)) ∧
    (build [BuildStep.insert ['x'], BuildStep.retain 3]).transform
        (build [BuildStep.insert ['y'], BuildStep.retain 3])
      = Except.ok (build [BuildStep.insert ['x'], BuildStep.retain 4],
          build [BuildStep.retain 1, BuildStep.insert ['y'], BuildStep.retain 3]) ∧
    (build [BuildStep.insert ['x'], BuildStep.retain 3]).compose
        (build [BuildStep.retain 1, BuildStep.insert ['y'], BuildStep.retain 3])
      = some (Except.ok (build [BuildStep.insert ['x', 'y'], BuildStep.retain 3])) ∧
    (build [BuildStep.insert ['y'], BuildStep.retain 3]).compose
        (build [BuildStep.insert ['x'], BuildStep.retain 4])
      = some (Except.ok (build [BuildStep.insert ['x', 'y'], BuildStep.retain 3])) ∧
    (build [BuildStep.insert ['x', 'y'], BuildStep.retain 3]).apply ['a', 'b', 'c']
      = some (Except.ok ['x', 'y', 'a', 'b', 'c']) := by
  refine ⟨transformGo_ins1, ?_, ?_, ?_, by decide⟩
  · simp [transform, transformGo, build, runStep, new,
      TextOperation.insert, TextOperation.retain, TextOperation.delete]
  · simp [compose, composeGo, build, runStep, new, chars_take, chars_skip, chars_tail,
      TextOperation.insert, TextOperation.retain, TextOperation.delete]
  · simp [compose, composeGo, build, runStep, new, chars_take, chars_skip, chars_tail,
      TextOperation.insert, TextOperation.retain, TextOperation.delete]

open TextOperation in
/-- C8 counterexample: `transform(identity, B)` does not return `(B, retain)`
as claimed; the components come back in the other order. At `B = insert("a")`
the result is `(retain(1), B)` and `retain(1) ≠ B`. -/
theorem claim_C8_counterexample :
    new.transform (new.insert ['a'])
      = Except.ok (new.retain 1, new.insert ['a']) ∧
    new.retain 1 ≠ new.insert ['a'] ∧
    (new.insert ['a']).base_length = 0 := by
  refine ⟨?_, by decide, by decide⟩
  simp [transform, transformGo, new, TextOperation.insert, TextOperation.retain]

open TextOperation in
/-- C8 (amended): the empty operation is an identity where the lengths
permit: `new.compose B = B` when `B.base_length = 0`, `B.compose new = B`
when `B.after_length = 0`, and `transform(new, B)` returns the pure retain
over `B`'s result as FIRST component and `B` as SECOND component. -/
theorem claim_C8 (B : TextOperation) (hB : Built B) :
    (B.base_length = 0 → new.compose B = some (Except.ok B)) ∧
    (B.after_length = 0 → B.compose new = some (Except.ok B)) ∧
    (B.base_length = 0 → new.transform B = Except.ok (new.retain B.after_length, B)) := by
  have wfB := Built.wf hB
  refine ⟨?_, ?_, ?_⟩
  · intro h0
    unfold compose
    rw [if_neg (by simp [new, h0])]
    rcases ops_of_base_zero wfB h0 with hnil | ⟨s, hs, hops⟩
    · have hBeq : B = new := TextOperation.ext' (by rw [hnil]; rfl) (by rw [h0]; rfl)
        (by rw [wfB.2.2, hnil]; rfl)
      rw [show new.ops = ([] : List Operation) from rfl, hnil, composeGo_nil_nil, hBeq]
    · rw [show new.ops = ([] : List Operation) from rfl, hops]
      rw [composeGo_ins2 s [] new (fun n1 t1 h => List.noConfusion h)]
      rw [composeGo_nil_nil, new_insert_eq_of wfB h0 hs hops]
  · intro h0
    unfold compose
    rw [if_neg (by simp [new, h0])]
    rcases ops_of_after_zero wfB h0 with hnil | ⟨n, hn, hops⟩
    · have hBeq : B = new := TextOperation.ext' (by rw [hnil]; rfl)
        (by rw [wfB.2.1, hnil]; rfl) (by rw [h0]; rfl)
      rw [show new.ops = ([] : List Operation) from rfl, hnil, composeGo_nil_nil, hBeq]
    · rw [hops, show new.ops = ([] : List Operation) from rfl]
      rw [composeGo_del n [] [] new]
      rw [composeGo_nil_nil, new_delete_eq_of wfB h0 hn hops]
  · intro h0
    unfold transform
    rw [if_neg (by simp [new, h0])]
    rcases ops_of_base_zero wfB h0 with hnil | ⟨s, hs, hops⟩
    · have hBeq : B = new := TextOperation.ext' (by rw [hnil]; rfl) (by rw [h0]; rfl)
        (by rw [wfB.2.2, hnil]; rfl)
      have hafter : B.after_length = 0 := by rw [wfB.2.2, hnil]; rfl
      rw [show new.ops = ([] : List Operation) from rfl, hnil, transformGo_nil_nil,
        hafter, hBeq]
      rfl
    · have hafter : B.after_length = s.length := by rw [wfB.2.2, hops]; simp [opsAfterLen]
      rw [show new.ops = ([] : List Operation) from rfl, hops]
      rw [transformGo_ins2 s [] new new (fun s' t h => List.noConfusion h)]
      rw [transformGo_nil_nil, hafter, new_insert_eq_of wfB h0 hs hops]

open TextOperation in
/-- C8 witness at `B = insert("a")`. -/
theorem claim_C8_witness :
    ((build [BuildStep.insert ['a']]).base_length = 0 →
      new.compose (build [BuildStep.insert ['a']])
        = some (Except.ok (build [BuildStep.insert ['a']]))) ∧
    ((build [BuildStep.insert ['a']]).after_length = 0 →
      (build [BuildStep.insert ['a']]).compose new
        = some (Except.ok (build [BuildStep.insert ['a']]))) ∧
    ((build [BuildStep.insert ['a']]).base_length = 0 →
      new.transform (build [BuildStep.insert ['a']])
        = Except.ok (new.retain (build [BuildStep.insert ['a']]).after_length,
            build [BuildStep.insert ['a']])) :=
  claim_C8 _ ⟨_, rfl⟩
